import Mathlib

/-!
# State store (`src/state/store.js`): local reactive cells and the global store

A shallow embedding of `createState` (get / set / subscribe) and of the global
store (`getState`, `setState`, `subscribeToState`, `addTodo`, `toggleTodo`,
`removeTodo`, `toggleTheme`).

Modelling conventions
* JavaScript values are `Val`; numbers are the integers plus `NaN` and `-0`.
* Objects live in a heap (`List Obj`); a reference is the index of its object,
  `{}`, `{ ... }` and `new Array(n)` allocate at the end of the heap.
* A plain object is the list of its own properties. Prototypes are not represented:
  an assignment to the key `__proto__` of an object that has no such own property
  adds no own property, and a read answers for own properties only.
* A `Set` of callbacks is the list of its members in insertion order.
* A callback is a function reference (a `Nat`); what it does when invoked is
  given by `Raises`: it returns normally or raises a value. Callbacks observe,
  they do not call back into the cell or the store while being notified.
* Every invocation and every `console.error` is recorded as an `Event`.
* An operation returns `none` when the JavaScript raises a `TypeError` or the
  input lies outside the modelled fragment (property reads on primitives).
-/

namespace StateStore

/-! ## Values -/

/-- JavaScript values: primitives and object references. -/
inductive Val where
  | undefined
  | null
  | bool (b : Bool)
  | num (n : Int)
  | negZero
  | nan
  | str (s : String)
  | ref (addr : Nat)
  deriving DecidableEq, Repr

/-- `Object.is(a, b)`: same value; `NaN` is `NaN`, `-0` is not `+0`. -/
def objectIs (a b : Val) : Bool := decide (a = b)

/-- `a === b`: `NaN` differs from everything, `-0` equals `+0`. -/
def strictEq (a b : Val) : Bool :=
  match a, b with
  | .nan, _ => false
  | _, .nan => false
  | .negZero, .num 0 => true
  | .num 0, .negZero => true
  | a, b => decide (a = b)

/-- `!v` is `!toBoolean v`: the falsy values are `undefined`, `null`, `false`,
`0`, `-0`, `NaN` and the empty string. -/
def toBoolean : Val → Bool
  | .undefined => false
  | .null => false
  | .bool b => b
  | .num n => decide (n ≠ 0)
  | .negZero => false
  | .nan => false
  | .str s => decide (s ≠ "")
  | .ref _ => true

/-! ## Callbacks and notification -/

/-- What a callback does when invoked with an argument: `none` when it returns,
`some e` when it raises `e`. -/
abbrev Raises := Nat → Val → Option Val

/-- Observable events of a notification pass, in chronological order. -/
inductive Event where
  | call (fn : Nat) (arg : Val)
  | error (e : Val)
  deriving DecidableEq, Repr

/-- `subs.add(fn)` on a `Set` kept in insertion order. -/
def setAdd (subs : List Nat) (fn : Nat) : List Nat :=
  if fn ∈ subs then subs else subs ++ [fn]

/-- `subs.delete(fn)`. -/
def setDelete (subs : List Nat) (fn : Nat) : List Nat :=
  subs.erase fn

/-- The loop `for (const fn of subs) { try { fn(value); } catch (e) { console.error(e); } }`. -/
def notify (raises : Raises) (value : Val) : List Nat → List Event
  | [] => []
  | fn :: rest =>
    (match raises fn value with
      | none => [Event.call fn value]
      | some e => [Event.call fn value, Event.error e]) ++ notify raises value rest

/-- The arguments with which `fn` was invoked in a trace. -/
def callsOf (fn : Nat) : List Event → List Val
  | [] => []
  | Event.call g v :: t => if g = fn then v :: callsOf fn t else callsOf fn t
  | Event.error _ :: t => callsOf fn t

/-! ## `createState` -/

/-- The closure state of one `createState` call: `value` and `subs`. -/
structure Cell where
  value : Val
  subs : List Nat
  deriving DecidableEq, Repr

/-- The argument of `set`: a plain value or an updater function
(`typeof next === "function"`). -/
inductive Next where
  | value (v : Val)
  | updater (f : Val → Val)

def createState (initialValue : Val) : Cell :=
  { value := initialValue, subs := [] }

namespace Cell

def get (c : Cell) : Val := c.value

/-- `typeof next === "function" ? next(value) : next`. -/
def resolve (c : Cell) (next : Next) : Val :=
  match next with
  | .updater f => f c.value
  | .value v => v

def set (raises : Raises) (c : Cell) (next : Next) : Cell × List Event :=
  let newValue := c.resolve next
  if objectIs newValue c.value then (c, [])
  else
    let c1 : Cell := { c with value := newValue }
    (c1, notify raises c1.value c1.subs)

def subscribe (c : Cell) (fn : Nat) : Cell :=
  { c with subs := setAdd c.subs fn }

/-- The closure returned by `subscribe(fn)`. -/
def unsubscribe (c : Cell) (fn : Nat) : Cell :=
  { c with subs := setDelete c.subs fn }

end Cell

/-- One call on a cell. -/
inductive CellOp where
  | set (next : Next)
  | subscribe (fn : Nat)
  | unsubscribe (fn : Nat)

def Cell.step (raises : Raises) (c : Cell) : CellOp → Cell
  | .set next => (c.set raises next).1
  | .subscribe fn => c.subscribe fn
  | .unsubscribe fn => c.unsubscribe fn

/-- A finite sequence of calls on one cell. -/
def Cell.run (raises : Raises) (c : Cell) (ops : List CellOp) : Cell :=
  ops.foldl (Cell.step raises) c

/-- The arguments passed to `set` in a sequence of calls, in order. -/
def setArgs : List CellOp → List Next
  | [] => []
  | .set next :: t => next :: setArgs t
  | _ :: t => setArgs t

/-- One step of the fold of the claim: a plain value replaces the accumulator,
an updater is applied to it. -/
def foldStep (acc : Val) : Next → Val
  | .value v => v
  | .updater f => f acc

/-! ## Heap objects -/

/-- A heap object: a plain object with its own properties in insertion order, or
an array whose slots are holes (`none`) or values. The properties are writable data
properties; the prototype of an object is not represented. -/
inductive Obj where
  | record (fields : List (String × Val))
  | array (elems : List (Option Val))
  deriving DecidableEq, Repr

abbrev Heap := List Obj

/-- Allocation of a new object; its reference is the next free index. -/
def alloc (h : Heap) (o : Obj) : Heap × Nat := (h ++ [o], h.length)

/-- `out[k] = v` on the own properties of a plain object: an own property keeps its
place and takes the value, a new key goes last. The key `__proto__`, when it is not
an own property, is answered by the accessor of `Object.prototype`: its setter
changes the prototype of the object or ignores the value (prototypes are not
represented), and the object gets no own property. -/
def assign : List (String × Val) → String → Val → List (String × Val)
  | [], k, v => if k = "__proto__" then [] else [(k, v)]
  | (k1, v1) :: t, k, v => if k1 = k then (k, v) :: t else (k1, v1) :: assign t k v

/-- `obj[k]` for a string key `k`: the value of the own property. A missing
property reads `undefined` (no inherited property is modelled); arrays answer
`length` only. -/
def getProp (h : Heap) (obj : Val) (k : String) : Option Val :=
  match obj with
  | .ref a =>
    match h[a]? with
    | some (.record fs) => some ((fs.lookup k).getD .undefined)
    | some (.array es) => if k = "length" then some (.num es.length) else none
    | none => none
  | _ => none

/-- `out[k] = v` for a plain object `out`. -/
def setProp (h : Heap) (out : Nat) (k : String) (v : Val) : Option Heap :=
  match h[out]? with
  | some (.record fs) => some (h.set out (.record (assign fs k v)))
  | _ => none

/-- `Object.keys(obj)` for a plain object. -/
def objectKeys (h : Heap) (obj : Val) : Option (List String) :=
  match obj with
  | .ref a =>
    match h[a]? with
    | some (.record fs) => some (fs.map Prod.fst)
    | _ => none
  | _ => none

/-- `arr.length` for an array. -/
def arrayLength (h : Heap) (arr : Val) : Option Nat :=
  match arr with
  | .ref a =>
    match h[a]? with
    | some (.array es) => some es.length
    | _ => none
  | _ => none

/-- Reading slot `i` of an array: a hole or an index past the end reads `undefined`. -/
def slotRead (es : List (Option Val)) (i : Nat) : Val :=
  match es[i]? with
  | some (some v) => v
  | _ => .undefined

/-- `arr[i]` for an array. -/
def arrayGet (h : Heap) (arr : Val) (i : Nat) : Option Val :=
  match arr with
  | .ref a =>
    match h[a]? with
    | some (.array es) => some (slotRead es i)
    | _ => none
  | _ => none

/-- Writing slot `i` of an array; a write past the end grows the array with holes. -/
def slotWrite (es : List (Option Val)) (i : Nat) (v : Val) : List (Option Val) :=
  if i < es.length then es.set i (some v)
  else es ++ List.replicate (i - es.length) none ++ [some v]

/-- `arr[i] = v` for an array. -/
def arrayStore (h : Heap) (arr : Nat) (i : Nat) (v : Val) : Option Heap :=
  match h[arr]? with
  | some (.array es) => some (h.set arr (.array (slotWrite es i v)))
  | _ => none

/-! ## The global store -/

/-- The module state of the store: the heap, `globalState` (a reference to the
current state object) and `listeners`. -/
structure Store where
  heap : Heap
  globalState : Nat
  listeners : List Nat
  deriving DecidableEq, Repr

/-- The store at module load: `{ theme: "light", todos: [] }` and no listener. -/
def initialStore : Store :=
  { heap := [.array [], .record [("theme", .str "light"), ("todos", .ref 0)]]
    globalState := 1
    listeners := [] }

def getState (s : Store) : Val := .ref s.globalState

/-- The loop `for (const k of keys) { out[k] = obj[k]; }`. -/
def copyProps (obj : Val) (out : Nat) : List String → Heap → Option Heap
  | [], h => some h
  | k :: ks, h => do
    let v ← getProp h obj k
    let h1 ← setProp h out k v
    copyProps obj out ks h1

def shallowClone (h : Heap) (obj : Val) : Option (Heap × Nat) := do
  let (h1, out) := alloc h (.record [])
  let ks ← objectKeys h1 obj
  let h2 ← copyProps obj out ks h1
  pure (h2, out)

def merge (h : Heap) (a b : Val) : Option (Heap × Nat) := do
  let (h1, out) ← shallowClone h a
  let ks ← objectKeys h1 b
  let h2 ← copyProps b out ks h1
  pure (h2, out)

def setState (raises : Raises) (s : Store) (patch : Val) : Option (Store × List Event) := do
  let (h1, nextState) ← merge s.heap (.ref s.globalState) patch
  if strictEq (.ref nextState) (.ref s.globalState) then
    pure ({ s with heap := h1 }, [])
  else
    let s1 : Store := { s with heap := h1, globalState := nextState }
    pure (s1, notify raises (.ref s1.globalState) s1.listeners)

def subscribeToState (s : Store) (fn : Nat) : Store :=
  { s with listeners := setAdd s.listeners fn }

/-- The closure returned by `subscribeToState(fn)`. -/
def unsubscribeFromState (s : Store) (fn : Nat) : Store :=
  { s with listeners := setDelete s.listeners fn }

/-! ## Actions -/

/-- The loop `for (let i = ...; i < current.length; i++) next[i] = current[i];`
with `n` iterations left. -/
def copyLoop (current : Val) (next : Nat) : Nat → Nat → Heap → Option Heap
  | 0, _, h => some h
  | n + 1, i, h => do
    let v ← arrayGet h current i
    let h1 ← arrayStore h next i v
    copyLoop current next n (i + 1) h1

/-- The object `{ id: Date.now(), text, done: false }`; `now` is the value
`Date.now()` returns. -/
def newTodo (now : Int) (text : Val) : Obj :=
  .record [("id", .num now), ("text", text), ("done", .bool false)]

/-- `addTodo(text)`; `now` is the value `Date.now()` returns. -/
def addTodo (raises : Raises) (now : Int) (s : Store) (text : Val) :
    Option (Store × List Event) := do
  let (h1, todo) := alloc s.heap (newTodo now text)
  let current ← getProp h1 (.ref s.globalState) "todos"
  let len ← arrayLength h1 current
  let (h2, next) := alloc h1 (.array (List.replicate (len + 1) none))
  let h3 ← copyLoop current next len 0 h2
  let h4 ← arrayStore h3 next len (.ref todo)
  let (h5, patch) := alloc h4 (.record [("todos", .ref next)])
  setState raises { s with heap := h5 } (.ref patch)

/-- The loop of `toggleTodo` with `n` iterations left. -/
def toggleLoop (current : Val) (next : Nat) (id : Val) : Nat → Nat → Heap → Option Heap
  | 0, _, h => some h
  | n + 1, i, h => do
    let item ← arrayGet h current i
    let itemId ← getProp h item "id"
    if strictEq itemId id then
      let text ← getProp h item "text"
      let done ← getProp h item "done"
      let (h1, fresh) := alloc h
        (.record [("id", itemId), ("text", text), ("done", .bool (!toBoolean done))])
      let h2 ← arrayStore h1 next i (.ref fresh)
      toggleLoop current next id n (i + 1) h2
    else
      let h1 ← arrayStore h next i item
      toggleLoop current next id n (i + 1) h1

def toggleTodo (raises : Raises) (s : Store) (id : Val) : Option (Store × List Event) := do
  let current ← getProp s.heap (.ref s.globalState) "todos"
  let len ← arrayLength s.heap current
  let (h1, next) := alloc s.heap (.array (List.replicate len none))
  let h2 ← toggleLoop current next id len 0 h1
  let (h3, patch) := alloc h2 (.record [("todos", .ref next)])
  setState raises { s with heap := h3 } (.ref patch)

/-- The first loop of `removeTodo` (counting) with `n` iterations left. -/
def countLoop (h : Heap) (current : Val) (id : Val) : Nat → Nat → Nat → Option Nat
  | 0, _, keepCount => some keepCount
  | n + 1, i, keepCount => do
    let item ← arrayGet h current i
    let itemId ← getProp h item "id"
    if !strictEq itemId id then countLoop h current id n (i + 1) (keepCount + 1)
    else countLoop h current id n (i + 1) keepCount

/-- The second loop of `removeTodo` (copying) with `n` iterations left; `j` is the
write index. -/
def keepLoop (current : Val) (next : Nat) (id : Val) : Nat → Nat → Nat → Heap → Option Heap
  | 0, _, _, h => some h
  | n + 1, i, j, h => do
    let item ← arrayGet h current i
    let itemId ← getProp h item "id"
    if !strictEq itemId id then
      let h1 ← arrayStore h next j item
      keepLoop current next id n (i + 1) (j + 1) h1
    else keepLoop current next id n (i + 1) j h

def removeTodo (raises : Raises) (s : Store) (id : Val) : Option (Store × List Event) := do
  let current ← getProp s.heap (.ref s.globalState) "todos"
  let len ← arrayLength s.heap current
  let keepCount ← countLoop s.heap current id len 0 0
  let (h1, next) := alloc s.heap (.array (List.replicate keepCount none))
  let h2 ← keepLoop current next id len 0 0 h1
  let (h3, patch) := alloc h2 (.record [("todos", .ref next)])
  setState raises { s with heap := h3 } (.ref patch)

def toggleTheme (raises : Raises) (s : Store) : Option (Store × List Event) := do
  let theme ← getProp s.heap (.ref s.globalState) "theme"
  let nextTheme := if strictEq theme (.str "light") then Val.str "dark" else Val.str "light"
  let (h1, patch) := alloc s.heap (.record [("theme", nextTheme)])
  setState raises { s with heap := h1 } (.ref patch)

/-! ## Reading the store -/

/-- The slots of the array `getState().todos`. -/
def todosOf (s : Store) : Option (List (Option Val)) :=
  match getProp s.heap (getState s) "todos" with
  | some (.ref a) =>
    match s.heap[a]? with
    | some (.array es) => some es
    | _ => none
  | _ => none

/-! ## Closed forms used to state what the loops build -/

/-- The property list built by `for (const k of ks) { out[k] = src[k]; }` from the
property list `acc` of `out` (used to state what `shallowClone` and `merge` build). -/
def copyFields (src : List (String × Val)) : List String → List (String × Val) →
    List (String × Val)
  | [], acc => acc
  | k :: ks, acc => copyFields src ks (assign acc k ((src.lookup k).getD .undefined))

/-- The property list of `merge(a, b)` for the property lists of `a` and `b`. -/
def mergeFields (fs ps : List (String × Val)) : List (String × Val) :=
  copyFields ps (ps.map Prod.fst) (copyFields fs (fs.map Prod.fst) [])

/-- The own keys of the object `obj` refers to. -/
def keysOf (h : Heap) (obj : Val) : List String :=
  (objectKeys h obj).getD []

/-- The value `item[k]` reads for the item in an array slot (`undefined` when the
read fails). -/
def slotProp (h : Heap) (e : Option Val) (k : String) : Val :=
  (getProp h (e.getD .undefined) k).getD .undefined

/-- The value `item.id` reads for the item in an array slot. -/
def slotId (h : Heap) (e : Option Val) : Val := slotProp h e "id"

/-- What `next[i] = current[i]` leaves in slot `i`: the value read, `undefined`
for a hole. -/
def fillSlot (e : Option Val) : Option Val := some (e.getD .undefined)

/-- The object `{ id: item.id, text: item.text, done: !item.done }` that `toggleTodo`
builds from the item in an array slot. -/
def toggled (h : Heap) (e : Option Val) : Obj :=
  .record [("id", slotProp h e "id"), ("text", slotProp h e "text"),
    ("done", .bool (!toBoolean (slotProp h e "done")))]

/-- The slots the loop of `toggleTodo` writes for the slots it still has to visit;
`b` is the reference the next allocation returns. -/
def toggleSlots (h : Heap) (id : Val) : Nat → List (Option Val) → List (Option Val)
  | _, [] => []
  | b, e :: t =>
    if strictEq (slotProp h e "id") id then some (.ref b) :: toggleSlots h id (b + 1) t
    else e :: toggleSlots h id b t

/-- The objects the loop of `toggleTodo` allocates for the slots it still has to
visit, in allocation order. -/
def toggleObjs (h : Heap) (id : Val) : List (Option Val) → List Obj
  | [] => []
  | e :: t =>
    if strictEq (slotProp h e "id") id then toggled h e :: toggleObjs h id t
    else toggleObjs h id t

/-- An array slot holds an item: a reference to a plain object of the heap. -/
def isItem (h : Heap) (e : Option Val) : Bool :=
  match e with
  | some (.ref a) =>
    match h[a]? with
    | some (.record _) => true
    | _ => false
  | _ => false

/-- The test `item.id !== id` of `removeTodo` on an array slot. -/
def keeps (h : Heap) (id : Val) (e : Option Val) : Bool := !strictEq (slotId h e) id

/-- The spec of `removeTodo`: every item whose id does not match, in the original
relative order. -/
def removeSpec (h : Heap) (id : Val) (L : List (Option Val)) : List (Option Val) :=
  L.filter (keeps h id)

/-! ## Example stores -/

/-- A store with two listeners, the initial state object and a patch object
`{ theme: "dark", user: null }` at reference 2. -/
def patchDemo : Store :=
  { heap := initialStore.heap ++ [.record [("theme", .str "dark"), ("user", .null)]]
    globalState := 1
    listeners := [3, 5] }

/-- Callbacks that never raise. -/
def quiet : Raises := fun _ _ => none

/-- The initial store and, at reference 2, a patch object whose one own property
has the key `__proto__` and the value 5 (what `JSON.parse` builds from an object text
with that key). -/
def protoPatchStore : Store :=
  { heap := initialStore.heap ++ [.record [("__proto__", .num 5)]]
    globalState := 1
    listeners := [] }

/-- The store `setState` leaves from `protoPatchStore` with the patch at reference 2. -/
def protoDropped : Store :=
  { heap := protoPatchStore.heap ++ [.record [("theme", .str "light"), ("todos", .ref 0)]]
    globalState := 3
    listeners := [] }

/-- The store after `addTodo("a"); addTodo("b")` when both calls read the same
`Date.now()` value 5: two items with the same id. -/
def twinStore : Store :=
  { heap := [.array [],
             .record [("theme", .str "light"), ("todos", .ref 0)],
             .record [("id", .num 5), ("text", .str "a"), ("done", .bool false)],
             .array [some (.ref 2)],
             .record [("todos", .ref 3)],
             .record [("theme", .str "light"), ("todos", .ref 3)],
             .record [("id", .num 5), ("text", .str "b"), ("done", .bool false)],
             .array [some (.ref 2), some (.ref 6)],
             .record [("todos", .ref 7)],
             .record [("theme", .str "light"), ("todos", .ref 7)]]
    globalState := 9
    listeners := [] }

/-- The store after `subscribeToState(fn)` for one callback (reference 4) and
`addTodo("a"); addTodo("b")` at clock readings 5 and 6. -/
def pairStore : Store :=
  { heap := [.array [],
             .record [("theme", .str "light"), ("todos", .ref 0)],
             .record [("id", .num 5), ("text", .str "a"), ("done", .bool false)],
             .array [some (.ref 2)],
             .record [("todos", .ref 3)],
             .record [("theme", .str "light"), ("todos", .ref 3)],
             .record [("id", .num 6), ("text", .str "b"), ("done", .bool false)],
             .array [some (.ref 2), some (.ref 6)],
             .record [("todos", .ref 7)],
             .record [("theme", .str "light"), ("todos", .ref 7)]]
    globalState := 9
    listeners := [4] }

/-! ## Sequences of calls -/

/-- One call on a cell together with the events it causes. -/
def Cell.stepTrace (raises : Raises) (c : Cell) : CellOp → Cell × List Event
  | .set next => c.set raises next
  | .subscribe fn => (c.subscribe fn, [])
  | .unsubscribe fn => (c.unsubscribe fn, [])

/-- A finite sequence of calls on one cell together with all the events it causes. -/
def Cell.runTrace (raises : Raises) : Cell → List CellOp → Cell × List Event
  | c, [] => (c, [])
  | c, op :: ops =>
    ((Cell.runTrace raises (c.stepTrace raises op).1 ops).1,
      (c.stepTrace raises op).2 ++ (Cell.runTrace raises (c.stepTrace raises op).1 ops).2)

/-- The call is `subscribe(fn)`. -/
def CellOp.subscribes (fn : Nat) : CellOp → Bool
  | .subscribe g => decide (g = fn)
  | _ => false

/-- The callbacks invoked in a trace, in the order of their invocation. -/
def calledFns : List Event → List Nat
  | [] => []
  | Event.call fn _ :: t => fn :: calledFns t
  | Event.error _ :: t => calledFns t

/-- The four actions of the store. -/
inductive Action where
  | addTodo (now : Int) (text : Val)
  | toggleTodo (id : Val)
  | removeTodo (id : Val)
  | toggleTheme
  deriving DecidableEq, Repr

/-- One action call. -/
def act (raises : Raises) (s : Store) : Action → Option (Store × List Event)
  | .addTodo now text => addTodo raises now s text
  | .toggleTodo id => toggleTodo raises s id
  | .removeTodo id => removeTodo raises s id
  | .toggleTheme => toggleTheme raises s

/-- The object an object literal `{ k1: v1, k2: v2, ... }` evaluates to: a repeated
key keeps its first place and its last value, and a `__proto__: v` entry defines no
own property. -/
def objectLiteral (fields : List (String × Val)) : Obj :=
  .record (fields.foldl (fun acc kv => assign acc kv.1 kv.2) [])

/-- `setState({ k1: v1, ... })`: the literal is allocated, then passed to `setState`. -/
def setStateLit (raises : Raises) (s : Store) (fields : List (String × Val)) :
    Option (Store × List Event) :=
  setState raises { s with heap := (alloc s.heap (objectLiteral fields)).1 }
    (.ref (alloc s.heap (objectLiteral fields)).2)

/-- One call on the store. -/
inductive StoreOp where
  | act (a : Action)
  | setState (fields : List (String × Val))
  | subscribe (fn : Nat)
  | unsubscribe (fn : Nat)
  deriving DecidableEq, Repr

def Store.step (raises : Raises) (s : Store) : StoreOp → Option (Store × List Event)
  | .act a => act raises s a
  | .setState fields => setStateLit raises s fields
  | .subscribe fn => some (subscribeToState s fn, [])
  | .unsubscribe fn => some (unsubscribeFromState s fn, [])

/-- A finite sequence of calls on the store together with all the events it
causes; `none` when one of the calls raises. -/
def Store.run (raises : Raises) : Store → List StoreOp → Option (Store × List Event)
  | s, [] => some (s, [])
  | s, op :: ops =>
    match Store.step raises s op with
    | none => none
    | some r1 =>
      match Store.run raises r1.1 ops with
      | none => none
      | some r2 => some (r2.1, r1.2 ++ r2.2)

/-- The state object is a plain object whose `todos` is an array of items. -/
def wellFormed (s : Store) : Bool :=
  match todosOf s with
  | some L => L.all (isItem s.heap)
  | none => false

/-- The value of `getState().theme`. -/
def themeOf (s : Store) : Option Val := getProp s.heap (getState s) "theme"

/-- The theme `toggleTheme` installs when the current theme is `theme`. -/
def flipTheme (theme : Val) : Val :=
  if strictEq theme (.str "light") then .str "dark" else .str "light"

/-- The number of `toggleTheme` calls in a sequence of actions. -/
def toggleCount : List Action → Nat
  | [] => 0
  | .toggleTheme :: t => toggleCount t + 1
  | _ :: t => toggleCount t

/-- The heap `h` holds every object of `h0` unchanged, and possibly more. -/
def Grows (h0 h : Heap) : Prop := ∃ ext : List Obj, h = h0 ++ ext

/-! ## The notification loop with explicit completions -/

/-- How a statement completes: normally, or abruptly with a raised value. -/
inductive Completion where
  | normal
  | throw (e : Val)
  deriving DecidableEq, Repr

/-- The statement `fn(value);`: the call is recorded and completes abruptly when
the callback raises. -/
def callFn (raises : Raises) (fn : Nat) (value : Val) : Completion × List Event :=
  match raises fn value with
  | none => (.normal, [Event.call fn value])
  | some e => (.throw e, [Event.call fn value])

/-- The statement `try { body } catch (e) { console.error(e); }`. -/
def tryCatchLog (body : Completion × List Event) : Completion × List Event :=
  match body with
  | (.normal, t) => (.normal, t)
  | (.throw e, t) => (.normal, t ++ [Event.error e])

/-- The statement `for (const fn of subs) { body }`: an abrupt completion of the body
ends the loop and is the completion of the loop. -/
def forEachFn (body : Nat → Completion × List Event) : List Nat → Completion × List Event
  | [] => (.normal, [])
  | fn :: rest =>
    match body fn with
    | (.normal, t) => ((forEachFn body rest).1, t ++ (forEachFn body rest).2)
    | (.throw e, t) => (.throw e, t)

/-- The loop of `set` and of `setState`, statement by statement. -/
def notifyLoop (raises : Raises) (value : Val) (subs : List Nat) : Completion × List Event :=
  forEachFn (fun fn => tryCatchLog (callFn raises fn value)) subs

/-- Callbacks of which the one with reference 3 raises `"boom"` whenever invoked. -/
def boom : Raises := fun fn _ => if fn = 3 then some (.str "boom") else none

/-- A sequence of later calls on a cell that never subscribes the callback 3. -/
def laterCalls : List CellOp :=
  [.set (.value (.num 1)), .subscribe 7, .unsubscribe 5, .set (.updater (fun _ => .num 2))]

/-- A sequence of later calls on the store that never subscribes the callback 3. -/
def laterStoreCalls : List StoreOp :=
  [.act .toggleTheme, .subscribe 9, .setState [("user", .str "ann")],
    .act (.addTodo 11 (.str "x"))]

/-- In the trace, an invocation of `f` comes before an invocation of `g`. -/
def invokedBefore (f g : Nat) (tr : List Event) : Prop :=
  ∃ t1 t2 t3 v w, tr = t1 ++ Event.call f v :: (t2 ++ Event.call g w :: t3)

/-- In the insertion-ordered set, `f` was registered before `g`. -/
def registeredBefore (f g : Nat) (subs : List Nat) : Prop :=
  ∃ l1 l2 l3, subs = l1 ++ f :: (l2 ++ g :: l3)

/-! ## Several cells -/

/-- The cells created so far, each with its own `value` and `subs`; the handle of a
cell is its position. -/
abbrev Cells := List Cell

/-- A `createState(v)` call: a new cell is added and its handle returned. -/
def newCell (w : Cells) (v : Val) : Cells × Nat := (w ++ [createState v], w.length)

/-- A call on the cell with handle `i`. -/
def callCell (raises : Raises) (w : Cells) (i : Nat) (op : CellOp) : Cells × List Event :=
  match w[i]? with
  | some c => (w.set i (c.stepTrace raises op).1, (c.stepTrace raises op).2)
  | none => (w, [])

/-- Two cells, created by two `createState(0)` calls, to both of which the same
callback 7 has been subscribed. -/
def sharedCells : Cells :=
  [{ value := .num 0, subs := [7] }, { value := .num 0, subs := [7] }]

/-- The store after `setState({ theme: "blue" })` on the initial store. -/
def blueStore : Store :=
  { heap := [.array [],
             .record [("theme", .str "light"), ("todos", .ref 0)],
             .record [("theme", .str "blue")],
             .record [("theme", .str "blue"), ("todos", .ref 0)]]
    globalState := 3
    listeners := [] }

/-- A store holding the initial state object and two patch objects,
`{ theme: "dark" }` at reference 2 and `{ theme: "light", user: null }` at
reference 3. -/
def twoPatchStore : Store :=
  { heap := initialStore.heap ++
      [.record [("theme", .str "dark")], .record [("theme", .str "light"), ("user", .null)]]
    globalState := 1
    listeners := [3, 5] }

/-! ## Callbacks that call back: notification as a machine

The sections above take callbacks to be observers. Here a callback is a script: when
invoked it may read the container (`get()`, `getState()`), call `set` / `setState` /
an action again, or raise. The notification loops of `set` and `setState` have the
same shape, so the machine is written once over a `Container`: the part of the call
before the loop is `update`, the argument the loop reads at each iteration is
`current`, the set it iterates over is `members`. Callbacks do not subscribe or
unsubscribe while a pass is running. -/

/-- What the part of `set` / `setState` before the loop does. -/
inductive Outcome (σ : Type) where
  | commit (s : σ)
  | same
  | throws (e : Val)

/-- A container with change notification. -/
structure Container (σ ρ : Type) where
  update : σ → ρ → Outcome σ
  current : σ → Val
  members : σ → List Nat

/-- One statement of a callback body. -/
inductive Cmd (ρ : Type) where
  | read
  | request (r : ρ)
  | raise (e : Val)

/-- What a callback does when invoked, given the container as it is then. -/
abbrev Script (σ ρ : Type) := Nat → σ → List (Cmd ρ)

/-- An activation: a running `for (const fn of ...)` loop with the callbacks it has
still to visit, or a running callback body with the argument it was invoked with,
whether it has made a request yet (`fresh` when not), and its remaining statements.
No statement of a body subscribes or unsubscribes, so the members a loop has still
to visit are those the live iteration of the `Set` would visit. -/
inductive Frame (ρ : Type) where
  | loop (pending : List Nat)
  | body (arg : Val) (fresh : Bool) (cmds : List (Cmd ρ))

/-- Events of the machine: an invocation, a read made by a callback (with the
argument of its invocation and whether it is still fresh), a `console.error`. -/
inductive REvent where
  | call (fn : Nat) (arg : Val)
  | read (arg : Val) (fresh : Bool) (got : Val)
  | error (e : Val)
  deriving DecidableEq, Repr

/-- A configuration of the machine: the container, the call stack (innermost
activation first) and the events so far. -/
structure Config (σ ρ : Type) where
  state : σ
  stack : List (Frame ρ)
  trace : List REvent

/-- One step of the machine. A loop invokes its next callback with the value
`current` reads at that moment, inside `try`/`catch`; a request that commits starts
a nested loop over the members; a raise, or a request that raises, ends the
callback body and is logged by the `catch` of the loop that invoked it. -/
def stepM {σ ρ : Type} (K : Container σ ρ) (script : Script σ ρ) (cfg : Config σ ρ) :
    Config σ ρ :=
  match cfg.stack with
  | [] => cfg
  | .loop [] :: st => { cfg with stack := st }
  | .loop (fn :: fns) :: st =>
    { cfg with
      stack := .body (K.current cfg.state) true (script fn cfg.state) :: .loop fns :: st
      trace := cfg.trace ++ [.call fn (K.current cfg.state)] }
  | .body _ _ [] :: st => { cfg with stack := st }
  | .body a fresh (.read :: cmds) :: st =>
    { cfg with
      stack := .body a fresh cmds :: st
      trace := cfg.trace ++ [.read a fresh (K.current cfg.state)] }
  | .body _ _ (.raise e :: _) :: st =>
    { cfg with stack := st, trace := cfg.trace ++ [.error e] }
  | .body a _ (.request r :: cmds) :: st =>
    match K.update cfg.state r with
    | .commit s1 =>
      { state := s1, stack := .loop (K.members s1) :: .body a false cmds :: st,
        trace := cfg.trace }
    | .same => { cfg with stack := .body a false cmds :: st }
    | .throws e => { cfg with stack := st, trace := cfg.trace ++ [.error e] }

/-- The configuration after `n` steps; a configuration with an empty stack has
finished and stays as it is. -/
def runSteps {σ ρ : Type} (K : Container σ ρ) (script : Script σ ρ) :
    Nat → Config σ ρ → Config σ ρ
  | 0, cfg => cfg
  | n + 1, cfg => runSteps K script n (stepM K script cfg)

/-- The configuration in which the loop of a call that has just committed `s`
starts. -/
def startPass {σ ρ : Type} (K : Container σ ρ) (s : σ) : Config σ ρ :=
  { state := s, stack := [.loop (K.members s)], trace := [] }

/-- The arguments with which `fn` was invoked in a trace of the machine. -/
def rcallsOf (fn : Nat) : List REvent → List Val
  | [] => []
  | .call g v :: t => if g = fn then v :: rcallsOf fn t else rcallsOf fn t
  | _ :: t => rcallsOf fn t

/-- The invocations of the callbacks `l`, in order, each with the argument `v`. -/
def callsTo (l : List Nat) (v : Val) : List REvent := l.map (fun g => REvent.call g v)

/-- A cell as a container: `update` is the part of `set` before the loop. -/
def cellContainer : Container Cell Next where
  update := fun c next =>
    if objectIs (c.resolve next) c.value then .same else .commit (c.set quiet next).1
  current := fun c => c.value
  members := fun c => c.subs

/-- A call a listener can make on the store. -/
inductive StoreReq where
  | act (a : Action)
  | setState (fields : List (String × Val))

/-- The store as a container: `update` is the part of `setState` (reached directly
or through an action) before the loop. -/
def storeContainer : Container Store StoreReq where
  update := fun s r =>
    match (match r with
      | .act a => act quiet s a
      | .setState fields => setStateLit quiet s fields) with
    | some r1 => if r1.1.globalState = s.globalState then .same else .commit r1.1
    | none => .throws (.str "TypeError")
  current := getState
  members := fun s => s.listeners

/-- The script of an observer: it returns, or raises what `raises` says. -/
def observerScript {σ ρ : Type} (K : Container σ ρ) (raises : Raises) : Script σ ρ :=
  fun fn s =>
    match raises fn (K.current s) with
    | none => []
    | some e => [.raise e]

/-- The events of the observer model as events of the machine. -/
def embedEvent : Event → REvent
  | .call fn v => .call fn v
  | .error e => .error e

/-- Every read a callback made while still fresh returned the argument of its
invocation. -/
def FreshReadsMatch (tr : List REvent) : Prop :=
  ∀ a got, REvent.read a true got ∈ tr → got = a

/-- Only the innermost activation can be a fresh callback body, and then it was
invoked with the value `v`. -/
def StackFresh {ρ : Type} (v : Val) : List (Frame ρ) → Prop
  | [] => True
  | top :: rest =>
    (∀ a cmds, top = .body a true cmds → a = v) ∧
    ∀ fr ∈ rest, ∀ a cmds, fr ≠ Frame.body a true cmds

/-- The events of a callback body that makes no request, invoked with `a`, while
`current` reads `v`: its reads, up to the statement that raises. -/
def bodyEvents {ρ : Type} (a : Val) (fresh : Bool) (v : Val) : List (Cmd ρ) → List REvent
  | [] => []
  | .read :: cmds => .read a fresh v :: bodyEvents a fresh v cmds
  | .raise e :: _ => [.error e]
  | .request _ :: _ => []

/-- The body makes no request. -/
def noRequest {ρ : Type} : List (Cmd ρ) → Bool
  | [] => true
  | .request _ :: _ => false
  | _ :: cmds => noRequest cmds

/-- The events of a pass over the callbacks `l`, none of which makes a request,
while `current` reads `v`. -/
def passEvents {σ ρ : Type} (script : Script σ ρ) (s : σ) (v : Val) : List Nat → List REvent
  | [] => []
  | g :: l => (.call g v :: bodyEvents v true v (script g s)) ++ passEvents script s v l

/-- The script of the view components: re-read the container, nothing else. -/
def readerScript {σ ρ : Type} : Script σ ρ := fun _ _ => [.read]

/-- The events of a pass over callbacks that re-read the container: each is invoked
with `v` and reads `v`. -/
def readerPass (l : List Nat) (v : Val) : List REvent :=
  l.flatMap (fun g => [REvent.call g v, REvent.read v true v])

/-- A cell script in which callback 3 reads, calls `set(9)` and reads again, and
every other callback reads. -/
def busyScript : Script Cell Next := fun fn _ =>
  if fn = 3 then [.read, .request (.value (.num 9)), .read] else [.read]

/-- A store script in which listener 3 reads and calls `toggleTheme()` as long as the
state object is the one at reference 4, and every other listener reads. -/
def busyStoreScript : Script Store StoreReq := fun fn s =>
  if fn = 3 ∧ s.globalState = 4 then [.read, .request (.act .toggleTheme), .read]
  else [.read]

/-- The body only makes requests that change nothing (`set` of the value the cell
already holds), so it returns without starting a loop. -/
def quietBody {σ ρ : Type} (K : Container σ ρ) (s : σ) : List (Cmd ρ) → Bool
  | [] => true
  | .request r :: cmds =>
    (match K.update s r with
     | .same => quietBody K s cmds
     | _ => false)
  | _ :: _ => false

/-- The events of a pass over `pre ++ f :: post` that starts with the container at
`s1` (read as `a`) in which `f` commits `s2` (read as `b`): the callbacks before `f`
and `f` with `a`, then the whole nested pass with `b`, then the rest of the outer
pass, with `b` as well. -/
def nestedTrace {σ ρ : Type} (script : Script σ ρ) (s1 s2 : σ) (a b : Val)
    (pre : List Nat) (f : Nat) (post : List Nat) : List REvent :=
  passEvents script s1 a pre ++ [.call f a] ++
    (passEvents script s2 b pre ++ [.call f b] ++ passEvents script s2 b post) ++
    passEvents script s2 b post

/-- A cell script in which callback 5 calls `set(2)` and every other callback reads. -/
def nestedScript : Script Cell Next := fun fn _ =>
  if fn = 5 then [.request (.value (.num 2))] else [.read]

/-- A store script in which listener 3 calls `setState` with a literal when the state
object is the one at reference 4 and does nothing otherwise, and every other listener
reads. -/
def nestedStoreScript : Script Store StoreReq := fun fn s =>
  if fn = 3 then
    (if s.globalState = 4 then
      [.request (.setState [("theme", .str "light"), ("user", .null)])]
    else [])
  else [.read]

/-- The store a committing request leaves, and the store itself otherwise. -/
def committed (s : Store) (r : StoreReq) : Store :=
  match storeContainer.update s r with
  | .commit s1 => s1
  | _ => s

/-! ## Theorems: local cells -/

theorem set_value (raises : Raises) (c : Cell) (next : Next) :
    (c.set raises next).1.value = foldStep c.value next := by
  unfold Cell.set
  by_cases h : objectIs (c.resolve next) c.value = true
  · have h2 : c.resolve next = c.value := by simpa [objectIs] using h
    cases next <;> simp_all [Cell.resolve, foldStep, objectIs]
  · cases next <;> simp_all [Cell.resolve, foldStep]

theorem run_value (raises : Raises) (ops : List CellOp) (c : Cell) :
    (Cell.run raises c ops).value = (setArgs ops).foldl foldStep c.value := by
  induction ops generalizing c with
  | nil => rfl
  | cons op t ih =>
    have hstep : Cell.run raises c (op :: t) = Cell.run raises (Cell.step raises c op) t := rfl
    rw [hstep, ih]
    cases op with
    | set next => simp [setArgs, Cell.step, set_value]
    | subscribe fn => simp [setArgs, Cell.step, Cell.subscribe]
    | unsubscribe fn => simp [setArgs, Cell.step, Cell.unsubscribe]

theorem setAdd_nodup {subs : List Nat} (fn : Nat) (h : subs.Nodup) : (setAdd subs fn).Nodup := by
  unfold setAdd
  split
  · exact h
  · rename_i hmem
    exact List.Nodup.append h (List.nodup_singleton fn) (by simpa using hmem)

theorem setDelete_nodup {subs : List Nat} (fn : Nat) (h : subs.Nodup) :
    (setDelete subs fn).Nodup :=
  h.erase fn

theorem set_subs (raises : Raises) (c : Cell) (next : Next) :
    (c.set raises next).1.subs = c.subs := by
  unfold Cell.set
  by_cases h : objectIs (c.resolve next) c.value = true <;> simp [h]

theorem run_nodup (raises : Raises) (ops : List CellOp) (c : Cell) (h : c.subs.Nodup) :
    (Cell.run raises c ops).subs.Nodup := by
  induction ops generalizing c with
  | nil => exact h
  | cons op t ih =>
    have hstep : Cell.run raises c (op :: t) = Cell.run raises (Cell.step raises c op) t := rfl
    rw [hstep]
    apply ih
    cases op with
    | set next => simpa [Cell.step, set_subs] using h
    | subscribe fn => exact setAdd_nodup fn h
    | unsubscribe fn => exact setDelete_nodup fn h

theorem callsOf_append (fn : Nat) (t1 t2 : List Event) :
    callsOf fn (t1 ++ t2) = callsOf fn t1 ++ callsOf fn t2 := by
  induction t1 with
  | nil => rfl
  | cons e t ih =>
    cases e with
    | call g v =>
      by_cases hg : g = fn <;> simp [callsOf, hg, ih]
    | error e => simp [callsOf, ih]

theorem callsOf_notify (raises : Raises) (value : Val) (fn : Nat) (subs : List Nat) :
    callsOf fn (notify raises value subs) = List.replicate (subs.count fn) value := by
  induction subs with
  | nil => rfl
  | cons g t ih =>
    simp only [notify, callsOf_append, ih]
    by_cases hg : g = fn
    · subst hg
      cases hr : raises g value <;> simp [callsOf, List.replicate_succ]
    · have hg2 : (g == fn) = false := by simpa using hg
      cases hr : raises g value <;> simp [callsOf, hg, List.count_cons, hg2]

/-- C1: after any finite sequence of calls on a cell created by `createState v0`,
`get()` is the left fold of the arguments passed to `set` over `v0`, where a plain
value replaces the accumulator and an updater is applied to it. -/
theorem get_after_sets_eq_fold (raises : Raises) (v0 : Val) (ops : List CellOp) :
    (Cell.run raises (createState v0) ops).get = (setArgs ops).foldl foldStep v0 :=
  run_value raises ops (createState v0)

/-- C2: a `set` whose resolved new value is identical (`Object.is`) to the current
value leaves the stored value and the subscriber set unchanged and invokes no
subscriber. -/
theorem set_same_value_noop (raises : Raises) (c : Cell) (next : Next)
    (hsame : objectIs (c.resolve next) c.value = true) :
    (c.set raises next).1.get = c.get ∧ (c.set raises next).1.subs = c.subs ∧
      (c.set raises next).2 = [] ∧ ∀ fn, callsOf fn (c.set raises next).2 = [] := by
  have h : c.set raises next = (c, []) := by
    unfold Cell.set
    simp [hsame]
  simp [h, callsOf]

theorem set_same_value_noop_witness :
    objectIs (({ value := .num 3, subs := [7, 8] } : Cell).resolve (.updater (fun v => v))) (.num 3) = true ∧
    ((({ value := .num 3, subs := [7, 8] } : Cell).set (fun _ _ => none) (.updater (fun v => v))).1.get
        = ({ value := .num 3, subs := [7, 8] } : Cell).get ∧
      (({ value := .num 3, subs := [7, 8] } : Cell).set (fun _ _ => none) (.updater (fun v => v))).1.subs
        = [7, 8] ∧
      (({ value := .num 3, subs := [7, 8] } : Cell).set (fun _ _ => none) (.updater (fun v => v))).2 = [] ∧
      ∀ fn, callsOf fn
        (({ value := .num 3, subs := [7, 8] } : Cell).set (fun _ _ => none) (.updater (fun v => v))).2 = []) :=
  ⟨by decide, set_same_value_noop (fun _ _ => none) { value := .num 3, subs := [7, 8] }
    (.updater (fun v => v)) (by decide)⟩

/-- C3: on a cell reached from `createState` by any calls, a `set` whose resolved
new value differs from the current one invokes every registered subscriber exactly
once, with the new value (the one `get()` returns afterwards) as argument, and
invokes nothing else. -/
theorem set_changed_notifies_each_once (raises : Raises) (v0 : Val) (ops : List CellOp)
    (next : Next)
    (hne : objectIs ((Cell.run raises (createState v0) ops).resolve next)
      (Cell.run raises (createState v0) ops).value = false) :
    let c := Cell.run raises (createState v0) ops
    (c.set raises next).1.get = c.resolve next ∧
    (∀ fn ∈ c.subs, callsOf fn (c.set raises next).2 = [c.resolve next]) ∧
    (∀ fn, fn ∉ c.subs → callsOf fn (c.set raises next).2 = []) := by
  intro c
  have hnd : c.subs.Nodup := run_nodup raises ops (createState v0) List.nodup_nil
  have h : c.set raises next = ({ c with value := c.resolve next },
      notify raises (c.resolve next) c.subs) := by
    unfold Cell.set
    simp [c, hne]
  refine ⟨by simp [h, Cell.get], ?_, ?_⟩
  · intro fn hfn
    simp [h, callsOf_notify, List.count_eq_one_of_mem hnd hfn]
  · intro fn hfn
    simp [h, callsOf_notify, List.count_eq_zero_of_not_mem hfn]

theorem set_changed_notifies_each_once_witness :
    let c := Cell.run (fun _ _ => none) (createState (.num 0))
      [.subscribe 4, .subscribe 9, .subscribe 4, .set (.value (.num 1))]
    objectIs (c.resolve (.updater (fun _ => .str "x"))) c.value = false ∧
    (c.set (fun _ _ => none) (.updater (fun _ => .str "x"))).1.get = .str "x" ∧
    (∀ fn ∈ c.subs, callsOf fn (c.set (fun _ _ => none) (.updater (fun _ => .str "x"))).2
      = [.str "x"]) ∧
    (∀ fn, fn ∉ c.subs → callsOf fn (c.set (fun _ _ => none) (.updater (fun _ => .str "x"))).2
      = []) :=
  ⟨by decide, set_changed_notifies_each_once (fun _ _ => none) (.num 0)
    [.subscribe 4, .subscribe 9, .subscribe 4, .set (.value (.num 1))]
    (.updater (fun _ => .str "x")) (by decide)⟩

/-! ## Theorems: heap and merge -/

theorem assign_proto (fs : List (String × Val)) (v : Val)
    (h : "__proto__" ∉ fs.map Prod.fst) : assign fs "__proto__" v = fs := by
  induction fs with
  | nil => simp [assign]
  | cons kv t ih =>
    obtain ⟨k2, v2⟩ := kv
    simp only [List.map_cons, List.mem_cons, not_or] at h
    have h2 : ¬ k2 = "__proto__" := fun e => h.1 e.symm
    simp [assign, h2, ih h.2]

theorem lookup_assign (fs : List (String × Val)) (k : String) (v : Val) (k1 : String)
    (hk : k ≠ "__proto__" ∨ k ∈ fs.map Prod.fst) :
    (assign fs k v).lookup k1 = if k = k1 then some v else fs.lookup k1 := by
  induction fs with
  | nil =>
    have hk1 : k ≠ "__proto__" := by simpa using hk
    by_cases h : k = k1
    · subst h
      simp [assign, List.lookup, hk1]
    · have h2 : (k1 == k) = false := by simpa using fun e => h e.symm
      simp [assign, List.lookup, h, h2, hk1]
  | cons kv t ih =>
    obtain ⟨k2, v2⟩ := kv
    simp only [assign]
    by_cases h2 : k2 = k
    · subst h2
      by_cases h : k2 = k1
      · simp [List.lookup, h]
      · have h3 : (k1 == k2) = false := by simpa using fun e => h e.symm
        simp [List.lookup, h, h3]
    · have hk2 : k ≠ "__proto__" ∨ k ∈ t.map Prod.fst := by
        rcases hk with hk | hk
        · exact Or.inl hk
        · simp only [List.map_cons, List.mem_cons] at hk
          rcases hk with hk | hk
          · exact absurd hk.symm h2
          · exact Or.inr hk
      simp only [h2, if_false, List.lookup_cons, ih hk2]
      by_cases h : k = k1
      · subst h
        have h3 : (k == k2) = false := by simpa using fun e => h2 e.symm
        simp [h3]
      · simp [h]

theorem keys_assign (fs : List (String × Val)) (k : String) (v : Val) (k1 : String)
    (hk : k ≠ "__proto__" ∨ k ∈ fs.map Prod.fst) :
    k1 ∈ (assign fs k v).map Prod.fst ↔ k1 = k ∨ k1 ∈ fs.map Prod.fst := by
  induction fs with
  | nil =>
    have hk1 : k ≠ "__proto__" := by simpa using hk
    simp [assign, hk1]
  | cons kv t ih =>
    obtain ⟨k2, v2⟩ := kv
    simp only [assign]
    by_cases h2 : k2 = k
    · subst h2
      simp
    · have hk2 : k ≠ "__proto__" ∨ k ∈ t.map Prod.fst := by
        rcases hk with hk | hk
        · exact Or.inl hk
        · simp only [List.map_cons, List.mem_cons] at hk
          rcases hk with hk | hk
          · exact absurd hk.symm h2
          · exact Or.inr hk
      simp only [h2, if_false, List.map_cons, List.mem_cons, ih hk2]
      tauto

theorem lookup_copyFields (src : List (String × Val)) (ks : List String)
    (acc : List (String × Val)) (k : String) (hacc : "__proto__" ∉ acc.map Prod.fst) :
    (copyFields src ks acc).lookup k =
      if k ∈ ks ∧ k ≠ "__proto__" then some ((src.lookup k).getD .undefined)
      else acc.lookup k := by
  induction ks generalizing acc with
  | nil => simp [copyFields]
  | cons k1 t ih =>
    simp only [copyFields]
    by_cases hp : k1 = "__proto__"
    · subst hp
      rw [assign_proto _ _ hacc, ih acc hacc]
      by_cases h1 : k = "__proto__"
      · simp [h1]
      · have h2 : ¬ k = "__proto__" := h1
        simp [h1, h2]
    · have hacc2 : "__proto__" ∉
          (assign acc k1 ((src.lookup k1).getD .undefined)).map Prod.fst := by
        rw [keys_assign _ _ _ _ (Or.inl hp)]
        simp only [not_or]
        exact ⟨fun e => hp e.symm, hacc⟩
      rw [ih _ hacc2, lookup_assign _ _ _ _ (Or.inl hp)]
      by_cases h1 : k ∈ t
      · by_cases h3 : k = "__proto__"
        · subst h3
          simp [hp]
        · simp [h1, h3]
      · by_cases h2 : k1 = k
        · subst h2
          simp [h1, hp]
        · have h3 : ¬ k = k1 := fun e => h2 e.symm
          simp [h1, h2, h3]

theorem keys_copyFields (src : List (String × Val)) (ks : List String)
    (acc : List (String × Val)) (k : String) (hacc : "__proto__" ∉ acc.map Prod.fst) :
    k ∈ (copyFields src ks acc).map Prod.fst ↔
      (k ∈ ks ∧ k ≠ "__proto__") ∨ k ∈ acc.map Prod.fst := by
  induction ks generalizing acc with
  | nil => simp [copyFields]
  | cons k1 t ih =>
    simp only [copyFields]
    by_cases hp : k1 = "__proto__"
    · subst hp
      rw [assign_proto _ _ hacc, ih acc hacc]
      simp only [List.mem_cons]
      tauto
    · have hacc2 : "__proto__" ∉
          (assign acc k1 ((src.lookup k1).getD .undefined)).map Prod.fst := by
        rw [keys_assign _ _ _ _ (Or.inl hp)]
        simp only [not_or]
        exact ⟨fun e => hp e.symm, hacc⟩
      rw [ih _ hacc2, keys_assign _ _ _ _ (Or.inl hp)]
      simp only [List.mem_cons]
      constructor
      · rintro (h | h | h)
        · exact Or.inl ⟨Or.inr h.1, h.2⟩
        · exact Or.inl ⟨Or.inl h, fun e => hp (h ▸ e)⟩
        · exact Or.inr h
      · rintro (⟨h | h, h2⟩ | h)
        · exact Or.inr (Or.inl h)
        · exact Or.inl ⟨h, h2⟩
        · exact Or.inr (Or.inr h)

theorem lookup_isSome_of_mem_keys (fs : List (String × Val)) (k : String)
    (h : k ∈ fs.map Prod.fst) : ∃ v, fs.lookup k = some v := by
  induction fs with
  | nil => simp at h
  | cons kv t ih =>
    obtain ⟨k2, v2⟩ := kv
    by_cases h2 : k = k2
    · subst h2
      exact ⟨v2, by simp [List.lookup]⟩
    · have h3 : (k == k2) = false := by simpa using h2
      have h4 : k ∈ t.map Prod.fst := by
        simp only [List.map_cons, List.mem_cons] at h
        rcases h with h | h
        · exact absurd h h2
        · exact h
      obtain ⟨v, hv⟩ := ih h4
      exact ⟨v, by simp [List.lookup, h3, hv]⟩

theorem lookup_none_of_not_mem_keys (fs : List (String × Val)) (k : String)
    (h : k ∉ fs.map Prod.fst) : fs.lookup k = none := by
  induction fs with
  | nil => rfl
  | cons kv t ih =>
    obtain ⟨k2, v2⟩ := kv
    simp only [List.map_cons, List.mem_cons, not_or] at h
    have h3 : (k == k2) = false := by simpa using h.1
    simp [List.lookup, h3, ih h.2]

/-- The object `merge` builds has no own property `__proto__`. -/
theorem proto_not_mem_copyFields (src : List (String × Val)) (ks : List String)
    (acc : List (String × Val)) (hacc : "__proto__" ∉ acc.map Prod.fst) :
    "__proto__" ∉ (copyFields src ks acc).map Prod.fst := by
  rw [keys_copyFields _ _ _ _ hacc]
  simp [hacc]

theorem lookup_mergeFields (fs ps : List (String × Val)) (k : String)
    (hk : k ≠ "__proto__") :
    (mergeFields fs ps).lookup k =
      if k ∈ ps.map Prod.fst then ps.lookup k else fs.lookup k := by
  unfold mergeFields
  have h0 : "__proto__" ∉ (([] : List (String × Val)).map Prod.fst) := by simp
  rw [lookup_copyFields _ _ _ _ (proto_not_mem_copyFields fs _ [] h0),
    lookup_copyFields _ _ _ _ h0]
  by_cases h1 : k ∈ ps.map Prod.fst
  · obtain ⟨v, hv⟩ := lookup_isSome_of_mem_keys ps k h1
    simp [h1, hv, hk]
  · by_cases h2 : k ∈ fs.map Prod.fst
    · obtain ⟨v, hv⟩ := lookup_isSome_of_mem_keys fs k h2
      simp [h1, h2, hv, hk]
    · simp [h1, h2, lookup_none_of_not_mem_keys fs k h2]

theorem keys_mergeFields (fs ps : List (String × Val)) (k : String) :
    k ∈ (mergeFields fs ps).map Prod.fst ↔
      k ≠ "__proto__" ∧ (k ∈ fs.map Prod.fst ∨ k ∈ ps.map Prod.fst) := by
  unfold mergeFields
  have h0 : "__proto__" ∉ (([] : List (String × Val)).map Prod.fst) := by simp
  rw [keys_copyFields _ _ _ _ (proto_not_mem_copyFields fs _ [] h0),
    keys_copyFields _ _ _ _ h0]
  simp
  tauto

theorem lookup_mergeFields_proto (fs ps : List (String × Val)) :
    (mergeFields fs ps).lookup "__proto__" = none :=
  lookup_none_of_not_mem_keys _ _ (fun h => ((keys_mergeFields fs ps _).mp h).1 rfl)

theorem getElem?_old {h : Heap} {a : Nat} (ext : List Obj) (ha : a < h.length) :
    (h ++ ext)[a]? = h[a]? :=
  List.getElem?_append_left ha

theorem lt_of_getElem? {h : Heap} {a : Nat} {o : Obj} (ha : h[a]? = some o) : a < h.length := by
  obtain ⟨hlt, _⟩ := List.getElem?_eq_some.mp ha
  exact hlt

theorem copyProps_eq (h0 : Heap) (g : Nat) (fs : List (String × Val))
    (hg : h0[g]? = some (.record fs)) (ks : List String) (acc : List (String × Val)) :
    copyProps (.ref g) h0.length ks (h0 ++ [.record acc]) =
      some (h0 ++ [.record (copyFields fs ks acc)]) := by
  induction ks generalizing acc with
  | nil => simp [copyProps, copyFields]
  | cons k t ih =>
    have hlt := lt_of_getElem? hg
    have h1 : getProp (h0 ++ [.record acc]) (.ref g) k =
        some ((fs.lookup k).getD .undefined) := by
      simp [getProp, getElem?_old _ hlt, hg]
    have h2 : setProp (h0 ++ [.record acc]) h0.length k ((fs.lookup k).getD .undefined) =
        some (h0 ++ [.record (assign acc k ((fs.lookup k).getD .undefined))]) := by
      simp [setProp]
    simp [copyProps, h1, h2, ih, copyFields]

theorem merge_eq (h : Heap) (g p : Nat) (fs ps : List (String × Val))
    (hg : h[g]? = some (.record fs)) (hp : h[p]? = some (.record ps)) :
    merge h (.ref g) (.ref p) = some (h ++ [.record (mergeFields fs ps)], h.length) := by
  have hgl := lt_of_getElem? hg
  have hpl := lt_of_getElem? hp
  have hk1 : objectKeys (h ++ [.record []]) (.ref g) = some (fs.map Prod.fst) := by
    simp [objectKeys, getElem?_old _ hgl, hg]
  have hclone : shallowClone h (.ref g) =
      some (h ++ [.record (copyFields fs (fs.map Prod.fst) [])], h.length) := by
    simp [shallowClone, alloc, hk1, copyProps_eq h g fs hg]
  have hk2 : objectKeys (h ++ [.record (copyFields fs (fs.map Prod.fst) [])]) (.ref p) =
      some (ps.map Prod.fst) := by
    simp [objectKeys, getElem?_old _ hpl, hp]
  simp [merge, hclone, hk2, copyProps_eq h p ps hp, mergeFields]

theorem strictEq_ref (a b : Nat) : strictEq (.ref a) (.ref b) = decide (a = b) := by
  simp [strictEq]

theorem setState_eq (raises : Raises) (s : Store) (p : Nat) (fs ps : List (String × Val))
    (hg : s.heap[s.globalState]? = some (.record fs)) (hp : s.heap[p]? = some (.record ps)) :
    setState raises s (.ref p) =
      some ({ heap := s.heap ++ [.record (mergeFields fs ps)], globalState := s.heap.length,
              listeners := s.listeners },
            notify raises (.ref s.heap.length) s.listeners) := by
  have hgl := lt_of_getElem? hg
  have hne : ¬ s.heap.length = s.globalState := by omega
  simp [setState, merge_eq s.heap s.globalState p fs ps hg hp, strictEq_ref, hne]

/-! ## Theorems: `setState` -/

/-- What `setState(p)` leaves for a patch object `p`: it succeeds, the keys of the
new state object are the keys of the previous state and of `p` other than
`__proto__`, and under every such key the state holds the very value `p` holds when
`p` has the key and the value the previous state held otherwise. -/
theorem setState_merges (raises : Raises) (s : Store) (p : Nat)
    (fs ps : List (String × Val))
    (hg : s.heap[s.globalState]? = some (.record fs))
    (hp : s.heap[p]? = some (.record ps)) :
    ∃ s1 tr, setState raises s (.ref p) = some (s1, tr) ∧
      (∀ k, k ∈ keysOf s1.heap (getState s1) ↔
        k ≠ "__proto__" ∧
          (k ∈ keysOf s.heap (getState s) ∨ k ∈ keysOf s.heap (.ref p))) ∧
      (∀ k, k ≠ "__proto__" → k ∈ keysOf s.heap (.ref p) →
        getProp s1.heap (getState s1) k = getProp s.heap (.ref p) k) ∧
      (∀ k, k ≠ "__proto__" → k ∉ keysOf s.heap (.ref p) →
        getProp s1.heap (getState s1) k = getProp s.heap (getState s) k) := by
  refine ⟨_, _, setState_eq raises s p fs ps hg hp, ?_, ?_, ?_⟩
  · intro k
    have hk := keys_mergeFields fs ps k
    simpa [keysOf, objectKeys, getState, hg, hp] using hk
  · intro k hne hk
    have hk2 : k ∈ ps.map Prod.fst := by simpa [keysOf, objectKeys, hp] using hk
    simp [getProp, getState, hp, lookup_mergeFields _ _ _ hne, hk2]
  · intro k hne hk
    have hk2 : k ∉ ps.map Prod.fst := by simpa [keysOf, objectKeys, hp] using hk
    simp [getProp, getState, hg, lookup_mergeFields _ _ _ hne, hk2]

/-- C4 fails on the code: `setState(p)` on the initial store for the patch object `p`
that `JSON.parse` builds from an object text with the one key `__proto__` and the
value 5. `p` has the own key `__proto__`, holding 5, yet the state afterwards has
the keys `theme` and `todos` only: `out["__proto__"] = 5` in `merge` is answered by
the setter of `Object.prototype` and defines no property. -/
theorem setState_drops_proto_key :
    keysOf protoPatchStore.heap (.ref 2) = ["__proto__"] ∧
    getProp protoPatchStore.heap (.ref 2) "__proto__" = some (.num 5) ∧
    setState quiet protoPatchStore (.ref 2) = some (protoDropped, []) ∧
    getState protoDropped = .ref 3 ∧
    keysOf protoDropped.heap (getState protoDropped) = ["theme", "todos"] ∧
    "__proto__" ∉ keysOf protoDropped.heap (getState protoDropped) := by
  decide

/-- C5: for every patch object (the empty one and one repeating the current values
included) `setState` takes the notifying path: the state object is replaced by a
newly allocated one, every registered listener is invoked exactly once and nothing
else is, and every invocation receives the object `getState()` returns afterwards. -/
theorem setState_always_notifies (raises : Raises) (s : Store) (p : Nat)
    (fs ps : List (String × Val))
    (hg : s.heap[s.globalState]? = some (.record fs))
    (hp : s.heap[p]? = some (.record ps))
    (hset : s.listeners.Nodup) :
    ∃ s1 tr, setState raises s (.ref p) = some (s1, tr) ∧
      getState s1 ≠ getState s ∧
      s.heap[s1.globalState]? = none ∧
      s1.listeners = s.listeners ∧
      (∀ fn ∈ s.listeners, callsOf fn tr = [getState s1]) ∧
      (∀ fn, fn ∉ s.listeners → callsOf fn tr = []) := by
  have hgl := lt_of_getElem? hg
  refine ⟨_, _, setState_eq raises s p fs ps hg hp, ?_, ?_, rfl, ?_, ?_⟩
  · simp only [getState, ne_eq, Val.ref.injEq]
    omega
  · simp
  · intro fn hfn
    simp [getState, callsOf_notify, List.count_eq_one_of_mem hset hfn]
  · intro fn hfn
    simp [callsOf_notify, List.count_eq_zero_of_not_mem hfn]

theorem setState_always_notifies_witness :
    patchDemo.heap[patchDemo.globalState]? =
      some (.record [("theme", .str "light"), ("todos", .ref 0)]) ∧
    patchDemo.heap[1]? = some (.record [("theme", .str "light"), ("todos", .ref 0)]) ∧
    patchDemo.listeners.Nodup ∧
    ∃ s1 tr, setState (fun fn _ => if fn = 3 then some .null else none) patchDemo (.ref 1)
        = some (s1, tr) ∧
      getState s1 ≠ getState patchDemo ∧
      patchDemo.heap[s1.globalState]? = none ∧
      s1.listeners = patchDemo.listeners ∧
      (∀ fn ∈ patchDemo.listeners, callsOf fn tr = [getState s1]) ∧
      (∀ fn, fn ∉ patchDemo.listeners → callsOf fn tr = []) :=
  ⟨by decide, by decide, by decide,
    setState_always_notifies (fun fn _ => if fn = 3 then some .null else none) patchDemo 1
      [("theme", .str "light"), ("todos", .ref 0)] [("theme", .str "light"), ("todos", .ref 0)]
      (by decide) (by decide) (by decide)⟩

/-! ## Theorems: arrays on the heap -/

theorem todosOf_some {s : Store} {L : List (Option Val)} (h : todosOf s = some L) :
    ∃ fs c, s.heap[s.globalState]? = some (.record fs) ∧
      (fs.lookup "todos").getD .undefined = .ref c ∧ s.heap[c]? = some (.array L) := by
  unfold todosOf getState getProp at h
  cases hg : s.heap[s.globalState]? with
  | none => simp [hg] at h
  | some o =>
    cases o with
    | array es => simp [hg] at h
    | record fs =>
      simp only [hg] at h
      cases hv : (fs.lookup "todos").getD .undefined with
      | ref c =>
        simp only [hv] at h
        cases hc : s.heap[c]? with
        | none => simp [hc] at h
        | some o2 =>
          cases o2 with
          | record _ => simp [hc] at h
          | array es =>
            simp only [hc, Option.some.injEq] at h
            subst h
            exact ⟨fs, c, rfl, hv, hc⟩
      | _ => simp [hv] at h

theorem todosOf_eq (s : Store) (fs : List (String × Val)) (c : Nat) (L : List (Option Val))
    (hg : s.heap[s.globalState]? = some (.record fs))
    (hv : (fs.lookup "todos").getD .undefined = .ref c)
    (hc : s.heap[c]? = some (.array L)) : todosOf s = some L := by
  simp [todosOf, getState, getProp, hg, hv, hc]

theorem slotRead_lt {L : List (Option Val)} {i : Nat} (h : i < L.length) :
    some (slotRead L i) = fillSlot L[i] := by
  simp only [slotRead, fillSlot, List.getElem?_eq_getElem h]
  cases L[i] <;> rfl

theorem slotRead_map_fillSlot (L : List (Option Val)) (i : Nat) :
    slotRead (L.map fillSlot) i = slotRead L i := by
  unfold slotRead
  rw [List.getElem?_map]
  cases h : L[i]? with
  | none => rfl
  | some e => cases e <;> rfl

theorem slotWrite_hole (pre post : List (Option Val)) (v : Val) :
    slotWrite (pre ++ none :: post) pre.length v = pre ++ some v :: post := by
  simp [slotWrite]

theorem getElem?_mid (h0 : Heap) (o : Obj) (rest : List Obj) :
    (h0 ++ o :: rest)[h0.length]? = some o := by
  rw [List.getElem?_append_right (Nat.le_refl _)]
  simp

theorem set_mid (h0 : Heap) (o o1 : Obj) (rest : List Obj) :
    (h0 ++ o :: rest).set h0.length o1 = h0 ++ o1 :: rest := by
  rw [List.set_append_right _ _ (Nat.le_refl _)]
  simp

theorem arrayStore_eq (h0 : Heap) (es : List (Option Val)) (rest : List Obj) (i : Nat) (v : Val) :
    arrayStore (h0 ++ .array es :: rest) h0.length i v =
      some (h0 ++ .array (slotWrite es i v) :: rest) := by
  simp only [arrayStore, getElem?_mid, set_mid]

theorem arrayGet_old (h0 : Heap) (ext : List Obj) (c : Nat) (L : List (Option Val))
    (hc : h0[c]? = some (.array L)) (i : Nat) :
    arrayGet (h0 ++ ext) (.ref c) i = some (slotRead L i) := by
  simp [arrayGet, getElem?_old _ (lt_of_getElem? hc), hc]

theorem copyLoop_eq (h0 : Heap) (c : Nat) (L : List (Option Val))
    (hc : h0[c]? = some (.array L)) (extra : List (Option Val)) (n : Nat)
    (pre : List (Option Val)) (hn : pre.length + n = L.length) :
    copyLoop (.ref c) h0.length n pre.length
        (h0 ++ [.array (pre ++ (List.replicate n none ++ extra))]) =
      some (h0 ++ [.array (pre ++ ((L.drop pre.length).map fillSlot ++ extra))]) := by
  induction n generalizing pre with
  | zero =>
    have hd : L.drop pre.length = [] := List.drop_eq_nil_of_le (by omega)
    simp [copyLoop, hd]
  | succ n ih =>
    have hlt : pre.length < L.length := by omega
    have hget := arrayGet_old h0
      [.array (pre ++ (List.replicate (n + 1) none ++ extra))] c L hc pre.length
    have hst := arrayStore_eq h0 (pre ++ (List.replicate (n + 1) none ++ extra)) []
      pre.length (slotRead L pre.length)
    have hw : slotWrite (pre ++ (List.replicate (n + 1) none ++ extra)) pre.length
        (slotRead L pre.length) =
        (pre ++ [fillSlot L[pre.length]]) ++ (List.replicate n none ++ extra) := by
      rw [List.replicate_succ, List.cons_append, slotWrite_hole, slotRead_lt hlt]
      simp
    have hih := ih (pre ++ [fillSlot L[pre.length]]) (by simp; omega)
    have hd : L.drop pre.length = L[pre.length] :: L.drop (pre.length + 1) :=
      List.drop_eq_getElem_cons hlt
    simp only [List.length_append, List.length_singleton] at hih
    simp only [copyLoop, hget, hst, hw, Option.bind_eq_bind, Option.some_bind, hih, hd]
    simp only [List.map_cons, List.append_assoc, List.singleton_append, List.cons_append,
      List.nil_append]

/-! ## Theorems: `addTodo` -/

theorem addTodo_eq (raises : Raises) (now : Int) (s : Store) (text : Val)
    (fs : List (String × Val)) (c : Nat) (L : List (Option Val))
    (hg : s.heap[s.globalState]? = some (.record fs))
    (hv : (fs.lookup "todos").getD .undefined = .ref c)
    (hc : s.heap[c]? = some (.array L)) :
    addTodo raises now s text =
      some ({ heap := s.heap ++
                [newTodo now text,
                 .array (L.map fillSlot ++ [some (.ref s.heap.length)]),
                 .record [("todos", .ref (s.heap.length + 1))],
                 .record (mergeFields fs [("todos", .ref (s.heap.length + 1))])],
              globalState := s.heap.length + 3,
              listeners := s.listeners },
            notify raises (.ref (s.heap.length + 3)) s.listeners) := by
  have hgl := lt_of_getElem? hg
  have hcl := lt_of_getElem? hc
  have hg1 : (s.heap ++ [newTodo now text])[s.globalState]? = some (.record fs) := by
    rw [getElem?_old _ hgl, hg]
  have hc1 : (s.heap ++ [newTodo now text])[c]? = some (.array L) := by
    rw [getElem?_old _ hcl, hc]
  have e1 : getProp (s.heap ++ [newTodo now text]) (.ref s.globalState) "todos" =
      some (.ref c) := by
    simp only [getProp, hg1, hv]
  have e2 : arrayLength (s.heap ++ [newTodo now text]) (.ref c) = some L.length := by
    simp only [arrayLength, hc1]
  have e3 := copyLoop_eq (s.heap ++ [newTodo now text]) c L hc1 [none] L.length [] (by simp)
  simp only [List.nil_append, List.length_nil, List.drop_zero, ← List.replicate_succ'] at e3
  have e4 := arrayStore_eq (s.heap ++ [newTodo now text]) (L.map fillSlot ++ [none]) [] L.length
    (.ref s.heap.length)
  have hw : slotWrite (L.map fillSlot ++ [none]) L.length (.ref s.heap.length) =
      L.map fillSlot ++ [some (.ref s.heap.length)] := by
    have := slotWrite_hole (L.map fillSlot) [] (.ref s.heap.length)
    simpa using this
  rw [hw] at e4
  have e5 := setState_eq raises
    { s with heap := s.heap ++ [newTodo now text] ++
        [.array (L.map fillSlot ++ [some (.ref s.heap.length)])] ++
        [.record [("todos", .ref (s.heap.length + 1))]] }
    (s.heap.length + 1 + 1) fs [("todos", .ref (s.heap.length + 1))]
    (by simp only [List.append_assoc]; rw [getElem?_old _ hgl, hg])
    (by
      have := List.getElem?_concat_length (s.heap ++ [newTodo now text] ++
        [.array (L.map fillSlot ++ [some (.ref s.heap.length)])])
        (.record [("todos", .ref (s.heap.length + 1))])
      simpa using this)
  simp only [addTodo, alloc, e1, e2, Option.bind_eq_bind, Option.some_bind]
  simp only [List.length_append, List.length_singleton] at e3 e4 ⊢
  simp only [e3, e4, Option.some_bind, List.length_append, List.length_singleton]
  rw [e5]
  simp

theorem getElem?_ext (h : Heap) (ext : List Obj) (i : Nat) :
    (h ++ ext)[h.length + i]? = ext[i]? := by
  rw [List.getElem?_append_right (Nat.le_add_right _ _)]
  simp

theorem getProp_todos_merge (h : Heap) (g a : Nat) (fs : List (String × Val))
    (hg : h[g]? = some (.record (mergeFields fs [("todos", .ref a)]))) :
    getProp h (.ref g) "todos" = some (.ref a) := by
  simp [getProp, hg, lookup_mergeFields]

/-- C6: when `getState().todos` is an array `L`, `addTodo(t)` succeeds and
`getState().todos` is then a new array of length `|L| + 1` without holes whose first
`|L|` entries read as those of `L`, in order, and whose last entry is a newly
allocated object with `id = Date.now()`, `text = t` and `done = false`; no object
that existed before is changed. -/
theorem addTodo_appends (raises : Raises) (now : Int) (s : Store) (text : Val)
    (L : List (Option Val)) (hL : todosOf s = some L) :
    ∃ s1 tr L1, addTodo raises now s text = some (s1, tr) ∧ todosOf s1 = some L1 ∧
      L1.length = L.length + 1 ∧
      (∀ i, i < L.length → slotRead L1 i = slotRead L i) ∧
      (∀ e ∈ L1, e ≠ none) ∧
      (∀ (a : Nat) (o : Obj), s.heap[a]? = some o → s1.heap[a]? = some o) ∧
      ∃ t, slotRead L1 L.length = .ref t ∧ s.heap[t]? = none ∧
        getProp s1.heap (.ref t) "id" = some (.num now) ∧
        getProp s1.heap (.ref t) "text" = some text ∧
        getProp s1.heap (.ref t) "done" = some (.bool false) := by
  obtain ⟨fs, c, hg, hv, hc⟩ := todosOf_some hL
  refine ⟨_, _, L.map fillSlot ++ [some (.ref s.heap.length)],
    addTodo_eq raises now s text fs c L hg hv hc, ?_, ?_, ?_, ?_, ?_, ?_⟩
  · simp only [todosOf, getState]
    rw [getProp_todos_merge _ _ (s.heap.length + 1) fs (by rw [getElem?_ext]; rfl)]
    simp only [getElem?_ext]
    rfl
  · simp
  · intro i hi
    have hi2 : i < (L.map fillSlot).length := by simpa using hi
    simp only [slotRead, List.getElem?_append_left hi2]
    exact slotRead_map_fillSlot L i
  · intro e he
    simp only [List.mem_append, List.mem_map, List.mem_singleton] at he
    rcases he with ⟨x, _, hx⟩ | he
    · simp [← hx, fillSlot]
    · simp [he]
  · intro a o ha
    simp only
    rw [getElem?_old _ (lt_of_getElem? ha), ha]
  · refine ⟨s.heap.length, ?_, by simp, ?_, ?_, ?_⟩
    · have hlen : L.length = (L.map fillSlot).length := by simp
      simp only [slotRead]
      rw [hlen, List.getElem?_concat_length]
    all_goals
      have h0 := getElem?_ext s.heap
        [newTodo now text, .array (L.map fillSlot ++ [some (.ref s.heap.length)]),
          .record [("todos", .ref (s.heap.length + 1))],
          .record (mergeFields fs [("todos", .ref (s.heap.length + 1))])] 0
      simp only [Nat.add_zero] at h0
      simp only [getProp, h0]
      simp [newTodo, List.lookup]

theorem addTodo_appends_witness :
    todosOf initialStore = some [] ∧
    ∃ s1 tr L1, addTodo (fun _ _ => none) 1700000000000 initialStore (.str "Buy milk")
        = some (s1, tr) ∧ todosOf s1 = some L1 ∧
      L1.length = ([] : List (Option Val)).length + 1 ∧
      (∀ i, i < ([] : List (Option Val)).length → slotRead L1 i = slotRead [] i) ∧
      (∀ e ∈ L1, e ≠ none) ∧
      (∀ (a : Nat) (o : Obj), initialStore.heap[a]? = some o → s1.heap[a]? = some o) ∧
      ∃ t, slotRead L1 ([] : List (Option Val)).length = .ref t ∧ initialStore.heap[t]? = none ∧
        getProp s1.heap (.ref t) "id" = some (.num 1700000000000) ∧
        getProp s1.heap (.ref t) "text" = some (.str "Buy milk") ∧
        getProp s1.heap (.ref t) "done" = some (.bool false) :=
  ⟨by decide, addTodo_appends (fun _ _ => none) 1700000000000 initialStore (.str "Buy milk") []
    (by decide)⟩

/-! ## Theorems: `removeTodo` -/

/-- The example store `pairStore` is what the calls named in its description leave. -/
theorem pairStore_reached :
    ((addTodo quiet 5 (subscribeToState initialStore 4) (.str "a")).bind
        fun r => addTodo quiet 6 r.1 (.str "b")) =
      some (pairStore, [Event.call 4 (.ref 9)]) := by
  decide

theorem isItem_spec {h : Heap} {e : Option Val} (he : isItem h e = true) :
    ∃ a fs, e = some (.ref a) ∧ h[a]? = some (.record fs) := by
  unfold isItem at he
  split at he
  · rename_i a
    split at he
    · rename_i fs hfs
      exact ⟨a, fs, rfl, hfs⟩
    · simp at he
  · simp at he

/-- Reading slot `i` of the current array and its `id`, in any extension of the heap
in which the items live. -/
theorem read_item (h0 : Heap) (ext : List Obj) (c : Nat) (L : List (Option Val))
    (hc : h0[c]? = some (.array L)) (hitems : ∀ e ∈ L, isItem h0 e = true)
    (i : Nat) (hi : i < L.length) :
    ∃ v, L[i] = some v ∧ arrayGet (h0 ++ ext) (.ref c) i = some v ∧
      getProp (h0 ++ ext) v "id" = some (slotId h0 L[i]) := by
  obtain ⟨a, fs, he, ha⟩ := isItem_spec (hitems L[i] (List.getElem_mem hi))
  refine ⟨.ref a, he, ?_, ?_⟩
  · rw [arrayGet_old h0 ext c L hc i]
    simp [slotRead, List.getElem?_eq_getElem hi, he]
  · simp [getProp, slotId, slotProp, he, getElem?_old _ (lt_of_getElem? ha), ha]

theorem removeSpec_keep {h : Heap} {id : Val} {e : Option Val} (t : List (Option Val))
    (hk : keeps h id e = true) : removeSpec h id (e :: t) = e :: removeSpec h id t := by
  simp [removeSpec, List.filter_cons, hk]

theorem removeSpec_drop {h : Heap} {id : Val} {e : Option Val} (t : List (Option Val))
    (hk : ¬ keeps h id e = true) : removeSpec h id (e :: t) = removeSpec h id t := by
  simp [removeSpec, List.filter_cons, hk]

theorem countLoop_eq (h : Heap) (c : Nat) (L : List (Option Val)) (id : Val)
    (hc : h[c]? = some (.array L)) (hitems : ∀ e ∈ L, isItem h e = true)
    (n i k : Nat) (hn : i + n = L.length) :
    countLoop h (.ref c) id n i k = some (k + (removeSpec h id (L.drop i)).length) := by
  induction n generalizing i k with
  | zero =>
    have hd : L.drop i = [] := List.drop_eq_nil_of_le (by omega)
    simp [countLoop, hd, removeSpec]
  | succ n ih =>
    have hi : i < L.length := by omega
    obtain ⟨v, hv, hget, hid⟩ := read_item h [] c L hc hitems i hi
    simp only [List.append_nil] at hget hid
    have hd : L.drop i = L[i] :: L.drop (i + 1) := List.drop_eq_getElem_cons hi
    simp only [countLoop, hget, hid, Option.bind_eq_bind, Option.some_bind]
    by_cases hk : keeps h id L[i] = true
    · have hk2 : (!strictEq (slotId h L[i]) id) = true := hk
      simp only [hk2, if_true]
      rw [ih (i + 1) (k + 1) (by omega), hd, removeSpec_keep _ hk, List.length_cons]
      congr 1
      omega
    · have hk2 : (!strictEq (slotId h L[i]) id) = false := by
        simpa [keeps] using hk
      simp only [hk2, Bool.false_eq_true, if_false]
      rw [ih (i + 1) k (by omega), hd, removeSpec_drop _ hk]

theorem keepLoop_eq (h0 : Heap) (c : Nat) (L : List (Option Val)) (id : Val)
    (hc : h0[c]? = some (.array L)) (hitems : ∀ e ∈ L, isItem h0 e = true)
    (n i : Nat) (pre : List (Option Val)) (hn : i + n = L.length) :
    keepLoop (.ref c) h0.length id n i pre.length
        (h0 ++ [.array (pre ++ List.replicate (removeSpec h0 id (L.drop i)).length none)]) =
      some (h0 ++ [.array (pre ++ removeSpec h0 id (L.drop i))]) := by
  induction n generalizing i pre with
  | zero =>
    have hd : L.drop i = [] := List.drop_eq_nil_of_le (by omega)
    simp [keepLoop, hd, removeSpec]
  | succ n ih =>
    have hi : i < L.length := by omega
    have hd : L.drop i = L[i] :: L.drop (i + 1) := List.drop_eq_getElem_cons hi
    obtain ⟨v, hv, hget, hid⟩ := read_item h0
      [.array (pre ++ List.replicate (removeSpec h0 id (L.drop i)).length none)] c L hc hitems i hi
    simp only [keepLoop, hget, hid, Option.bind_eq_bind, Option.some_bind]
    by_cases hk : keeps h0 id L[i] = true
    · have hk2 : (!strictEq (slotId h0 L[i]) id) = true := hk
      have hsp : removeSpec h0 id (L.drop i) = L[i] :: removeSpec h0 id (L.drop (i + 1)) := by
        rw [hd, removeSpec_keep _ hk]
      simp only [hk2, if_true, hsp, List.length_cons, List.replicate_succ, arrayStore_eq,
        slotWrite_hole, Option.some_bind]
      have hih := ih (i + 1) (pre ++ [some v]) (by omega)
      simp only [List.length_append, List.length_singleton, List.append_assoc,
        List.singleton_append] at hih
      rw [hih, hv]
    · have hk2 : (!strictEq (slotId h0 L[i]) id) = false := by
        simpa [keeps] using hk
      have hsp : removeSpec h0 id (L.drop i) = removeSpec h0 id (L.drop (i + 1)) := by
        rw [hd, removeSpec_drop _ hk]
      simp only [hk2, hsp, Bool.false_eq_true, if_false]
      exact ih (i + 1) pre (by omega)

/-- The last two steps of every todo action: allocate `{ todos: next }` and pass it
to `setState`. -/
theorem publish_eq (raises : Raises) (s : Store) (fs : List (String × Val))
    (hg : s.heap[s.globalState]? = some (.record fs)) (ext : List Obj) (a : Nat) :
    setState raises
        { s with heap := s.heap ++ ext ++ [.record [("todos", .ref a)]] }
        (.ref (s.heap ++ ext).length) =
      some ({ heap := s.heap ++ (ext ++ [.record [("todos", .ref a)],
                .record (mergeFields fs [("todos", .ref a)])]),
              globalState := s.heap.length + (ext.length + 1),
              listeners := s.listeners },
            notify raises (.ref (s.heap.length + (ext.length + 1))) s.listeners) := by
  have hgl := lt_of_getElem? hg
  have e := setState_eq raises
    { s with heap := s.heap ++ ext ++ [.record [("todos", .ref a)]] }
    (s.heap ++ ext).length fs [("todos", .ref a)]
    (by simp only [List.append_assoc]; rw [getElem?_old _ hgl, hg])
    (List.getElem?_concat_length _ _)
  rw [e]
  simp [Nat.add_assoc]

theorem todosOf_published (s : Store) (fs : List (String × Val)) (pre : List Obj)
    (es : List (Option Val)) (post : List Obj) (ls : List Nat) :
    todosOf { heap := s.heap ++ (pre ++ .array es :: (post ++
                [.record [("todos", .ref (s.heap.length + pre.length))],
                 .record (mergeFields fs [("todos", .ref (s.heap.length + pre.length))])])),
              globalState := s.heap.length + (pre.length + 1 + post.length + 1),
              listeners := ls } = some es := by
  apply todosOf_eq _ (mergeFields fs [("todos", .ref (s.heap.length + pre.length))])
    (s.heap.length + pre.length)
  · simp only [getElem?_ext]
    have hl : pre ++ .array es :: (post ++
        [.record [("todos", .ref (s.heap.length + pre.length))],
         .record (mergeFields fs [("todos", .ref (s.heap.length + pre.length))])]) =
        (pre ++ .array es :: (post ++ [.record [("todos", .ref (s.heap.length + pre.length))]]))
          ++ [.record (mergeFields fs [("todos", .ref (s.heap.length + pre.length))])] := by
      simp
    have hn : pre.length + 1 + post.length + 1 =
        (pre ++ Obj.array es :: (post ++
          [Obj.record [("todos", .ref (s.heap.length + pre.length))]])).length := by
      simp only [List.length_append, List.length_cons, List.length_singleton, List.length_nil]
      omega
    rw [hl, hn, List.getElem?_concat_length]
  · simp [lookup_mergeFields]
  · simp only [getElem?_ext]
    exact getElem?_mid pre (.array es) _

theorem removeTodo_eq (raises : Raises) (s : Store) (id : Val)
    (fs : List (String × Val)) (c : Nat) (L : List (Option Val))
    (hg : s.heap[s.globalState]? = some (.record fs))
    (hv : (fs.lookup "todos").getD .undefined = .ref c)
    (hc : s.heap[c]? = some (.array L))
    (hitems : ∀ e ∈ L, isItem s.heap e = true) :
    removeTodo raises s id =
      some ({ heap := s.heap ++ ([.array (removeSpec s.heap id L)] ++
                [.record [("todos", .ref s.heap.length)],
                 .record (mergeFields fs [("todos", .ref s.heap.length)])]),
              globalState := s.heap.length + 2,
              listeners := s.listeners },
            notify raises (.ref (s.heap.length + 2)) s.listeners) := by
  have e1 : getProp s.heap (.ref s.globalState) "todos" = some (.ref c) := by
    simp only [getProp, hg, hv]
  have e2 : arrayLength s.heap (.ref c) = some L.length := by
    simp only [arrayLength, hc]
  have e3 := countLoop_eq s.heap c L id hc hitems L.length 0 0 (by simp)
  simp only [List.drop_zero, Nat.zero_add] at e3
  have e4 := keepLoop_eq s.heap c L id hc hitems L.length 0 [] (by simp)
  simp only [List.drop_zero, List.nil_append, List.length_nil] at e4
  have e5 := publish_eq raises s fs hg [.array (removeSpec s.heap id L)] s.heap.length
  simp only [removeTodo, alloc, e1, e2, e3, e4, Option.bind_eq_bind, Option.some_bind]
  rw [e5]
  rfl

/-- C9: when `getState().todos` is an array `L` of items, `removeTodo(id)` succeeds and
`getState().todos` is then exactly `removeSpec`: the items of `L` whose id differs
(`!==`) from `id`, in their original relative order, in an array without holes; no
object that existed before is changed. -/
theorem removeTodo_eq_filter (raises : Raises) (s : Store) (id : Val)
    (L : List (Option Val)) (hL : todosOf s = some L)
    (hitems : ∀ e ∈ L, isItem s.heap e = true) :
    ∃ s1 tr, removeTodo raises s id = some (s1, tr) ∧
      todosOf s1 = some (removeSpec s.heap id L) ∧
      (∀ e ∈ removeSpec s.heap id L, e ≠ none ∧ e ∈ L ∧ strictEq (slotId s.heap e) id = false) ∧
      (∀ e ∈ L, strictEq (slotId s.heap e) id = false → e ∈ removeSpec s.heap id L) ∧
      (removeSpec s.heap id L).Sublist L ∧
      (∀ (a : Nat) (o : Obj), s.heap[a]? = some o → s1.heap[a]? = some o) := by
  obtain ⟨fs, c, hg, hv, hc⟩ := todosOf_some hL
  refine ⟨_, _, removeTodo_eq raises s id fs c L hg hv hc hitems, ?_, ?_, ?_, ?_, ?_⟩
  · have := todosOf_published s fs [] (removeSpec s.heap id L) [] s.listeners
    simpa using this
  · intro e he
    have he2 : e ∈ L ∧ keeps s.heap id e = true := by
      simpa [removeSpec, List.mem_filter] using he
    obtain ⟨a, _, hea, _⟩ := isItem_spec (hitems e he2.1)
    refine ⟨by simp [hea], he2.1, ?_⟩
    simpa [keeps] using he2.2
  · intro e he hk
    simp [removeSpec, List.mem_filter, he, keeps, hk]
  · exact List.filter_sublist L
  · intro a o ha
    simp only
    rw [getElem?_old _ (lt_of_getElem? ha), ha]

theorem removeTodo_eq_filter_witness :
    todosOf pairStore = some [some (.ref 2), some (.ref 6)] ∧
    (∀ e ∈ [some (Val.ref 2), some (Val.ref 6)], isItem pairStore.heap e = true) ∧
    ∃ s1 tr, removeTodo quiet pairStore (.num 5) = some (s1, tr) ∧
      todosOf s1 = some (removeSpec pairStore.heap (.num 5) [some (.ref 2), some (.ref 6)]) ∧
      (∀ e ∈ removeSpec pairStore.heap (.num 5) [some (.ref 2), some (.ref 6)],
        e ≠ none ∧ e ∈ [some (Val.ref 2), some (Val.ref 6)] ∧
          strictEq (slotId pairStore.heap e) (.num 5) = false) ∧
      (∀ e ∈ [some (Val.ref 2), some (Val.ref 6)],
        strictEq (slotId pairStore.heap e) (.num 5) = false →
          e ∈ removeSpec pairStore.heap (.num 5) [some (.ref 2), some (.ref 6)]) ∧
      (removeSpec pairStore.heap (.num 5) [some (.ref 2), some (.ref 6)]).Sublist
        [some (.ref 2), some (.ref 6)] ∧
      (∀ (a : Nat) (o : Obj), pairStore.heap[a]? = some o → s1.heap[a]? = some o) :=
  ⟨by decide, by decide,
    removeTodo_eq_filter quiet pairStore (.num 5) [some (.ref 2), some (.ref 6)]
      (by decide) (by decide)⟩

theorem removeSpec_length (h : Heap) (id : Val) (L : List (Option Val)) :
    (removeSpec h id L).length + L.countP (fun e => strictEq (slotId h e) id) = L.length := by
  induction L with
  | nil => rfl
  | cons e t ih =>
    by_cases hk : keeps h id e = true
    · have hs : strictEq (slotId h e) id = false := by simpa [keeps] using hk
      rw [removeSpec_keep t hk]
      simp only [List.length_cons, List.countP_cons, hs]
      simp only [Bool.false_eq_true, if_false]
      omega
    · have hs : strictEq (slotId h e) id = true := by simpa [keeps] using hk
      rw [removeSpec_drop t hk]
      simp only [List.length_cons, List.countP_cons, hs, if_true]
      omega

/-- C10 fails as stated: after `addTodo("a"); addTodo("b")` with the same `Date.now()`
reading the list holds two items with id 5, and `removeTodo(5)` takes the length
from 2 to 0. -/
theorem removeTodo_twins_counterexample :
    ((addTodo quiet 5 initialStore (.str "a")).bind
        fun r => addTodo quiet 5 r.1 (.str "b")) = some (twinStore, []) ∧
    todosOf twinStore = some [some (.ref 2), some (.ref 6)] ∧
    (∀ e ∈ [some (Val.ref 2), some (Val.ref 6)], isItem twinStore.heap e = true) ∧
    strictEq (slotId twinStore.heap (some (.ref 2))) (.num 5) = true ∧
    ((removeTodo quiet twinStore (.num 5)).bind fun r => todosOf r.1) = some [] ∧
    ([] : List (Option Val)).length + 1 ≠ [some (Val.ref 2), some (Val.ref 6)].length := by
  refine ⟨by decide, by decide, by decide, by decide, by decide, by decide⟩

/-- C10 (amended): when `getState().todos` is an array `L` of items, `removeTodo(id)`
reduces the length of `todos` by the number of items whose id equals (`===`) `id`:
by exactly 1 when exactly one item carries that id. -/
theorem removeTodo_length (raises : Raises) (s : Store) (id : Val)
    (L : List (Option Val)) (hL : todosOf s = some L)
    (hitems : ∀ e ∈ L, isItem s.heap e = true) :
    ∃ s1 tr L1, removeTodo raises s id = some (s1, tr) ∧ todosOf s1 = some L1 ∧
      L1.length + L.countP (fun e => strictEq (slotId s.heap e) id) = L.length ∧
      (L.countP (fun e => strictEq (slotId s.heap e) id) = 1 → L1.length + 1 = L.length) := by
  obtain ⟨fs, c, hg, hv, hc⟩ := todosOf_some hL
  have hlen := removeSpec_length s.heap id L
  refine ⟨_, _, removeSpec s.heap id L, removeTodo_eq raises s id fs c L hg hv hc hitems,
    ?_, hlen, ?_⟩
  · have := todosOf_published s fs [] (removeSpec s.heap id L) [] s.listeners
    simpa using this
  · intro h1
    omega

theorem removeTodo_length_witness :
    todosOf pairStore = some [some (.ref 2), some (.ref 6)] ∧
    (∀ e ∈ [some (Val.ref 2), some (Val.ref 6)], isItem pairStore.heap e = true) ∧
    [some (Val.ref 2), some (Val.ref 6)].countP
      (fun e => strictEq (slotId pairStore.heap e) (.num 6)) = 1 ∧
    ∃ s1 tr L1, removeTodo quiet pairStore (.num 6) = some (s1, tr) ∧ todosOf s1 = some L1 ∧
      L1.length + [some (Val.ref 2), some (Val.ref 6)].countP
        (fun e => strictEq (slotId pairStore.heap e) (.num 6)) =
        [some (Val.ref 2), some (Val.ref 6)].length ∧
      ([some (Val.ref 2), some (Val.ref 6)].countP
        (fun e => strictEq (slotId pairStore.heap e) (.num 6)) = 1 →
          L1.length + 1 = [some (Val.ref 2), some (Val.ref 6)].length) :=
  ⟨by decide, by decide, by decide,
    removeTodo_length quiet pairStore (.num 6) [some (.ref 2), some (.ref 6)]
      (by decide) (by decide)⟩

/-! ## Theorems: `toggleTodo` -/

theorem slotId_eq (h : Heap) (e : Option Val) : slotId h e = slotProp h e "id" := rfl

/-- Reading slot `i` of the current array and a property of its item, in any
extension of the heap in which the items live. -/
theorem read_prop (h0 : Heap) (ext : List Obj) (c : Nat) (L : List (Option Val))
    (hc : h0[c]? = some (.array L)) (hitems : ∀ e ∈ L, isItem h0 e = true)
    (i : Nat) (hi : i < L.length) :
    ∃ v, L[i] = some v ∧ arrayGet (h0 ++ ext) (.ref c) i = some v ∧
      ∀ k, getProp (h0 ++ ext) v k = some (slotProp h0 L[i] k) := by
  obtain ⟨a, fs, he, ha⟩ := isItem_spec (hitems L[i] (List.getElem_mem hi))
  refine ⟨.ref a, he, ?_, ?_⟩
  · rw [arrayGet_old h0 ext c L hc i]
    simp [slotRead, List.getElem?_eq_getElem hi, he]
  · intro k
    simp [getProp, slotProp, he, getElem?_old _ (lt_of_getElem? ha), ha]

theorem toggleLoop_eq (h0 : Heap) (c : Nat) (L : List (Option Val)) (id : Val)
    (hc : h0[c]? = some (.array L)) (hitems : ∀ e ∈ L, isItem h0 e = true)
    (n : Nat) (pre : List (Option Val)) (items : List Obj)
    (hn : pre.length + n = L.length) :
    toggleLoop (.ref c) h0.length id n pre.length
        (h0 ++ .array (pre ++ List.replicate n none) :: items) =
      some (h0 ++ .array (pre ++
          toggleSlots h0 id (h0.length + 1 + items.length) (L.drop pre.length)) ::
        (items ++ toggleObjs h0 id (L.drop pre.length))) := by
  induction n generalizing pre items with
  | zero =>
    have hd : L.drop pre.length = [] := List.drop_eq_nil_of_le (by omega)
    simp [toggleLoop, hd, toggleSlots, toggleObjs]
  | succ n ih =>
    have hi : pre.length < L.length := by omega
    have hd : L.drop pre.length = L[pre.length] :: L.drop (pre.length + 1) :=
      List.drop_eq_getElem_cons hi
    obtain ⟨v, hv, hget, hprop⟩ := read_prop h0
      (.array (pre ++ List.replicate (n + 1) none) :: items) c L hc hitems pre.length hi
    simp only [toggleLoop, hget, hprop, Option.bind_eq_bind, Option.some_bind, alloc]
    by_cases hm : strictEq (slotProp h0 L[pre.length] "id") id = true
    · simp only [hm, if_true]
      have happ : h0 ++ .array (pre ++ List.replicate (n + 1) none) :: items ++
          [.record [("id", slotProp h0 L[pre.length] "id"),
            ("text", slotProp h0 L[pre.length] "text"),
            ("done", .bool (!toBoolean (slotProp h0 L[pre.length] "done")))]] =
          h0 ++ .array (pre ++ none :: List.replicate n none) ::
            (items ++ [toggled h0 L[pre.length]]) := by
        simp [toggled, List.replicate_succ]
      rw [happ, arrayStore_eq, slotWrite_hole]
      have hih := ih (pre ++ [some (.ref (h0 ++
          .array (pre ++ List.replicate (n + 1) none) :: items).length)])
        (items ++ [toggled h0 L[pre.length]]) (by simp; omega)
      simp only [List.length_append, List.length_singleton, List.append_assoc,
        List.singleton_append, List.length_cons] at hih
      simp only [List.length_nil, Nat.zero_add] at hih
      simp only [List.length_append, List.length_cons, Option.some_bind]
      rw [hih, hd]
      simp only [toggleSlots, toggleObjs, hm, if_true]
      simp [Nat.add_assoc, Nat.add_comm, Nat.add_left_comm]
    · have hm2 : strictEq (slotProp h0 L[pre.length] "id") id = false := by
        simpa using hm
      simp only [hm2, Bool.false_eq_true, if_false, List.replicate_succ, arrayStore_eq,
        slotWrite_hole, Option.some_bind]
      have hih := ih (pre ++ [some v]) items (by simp; omega)
      simp only [List.length_append, List.length_singleton, List.append_assoc,
        List.singleton_append] at hih
      rw [hih, hd]
      simp only [toggleSlots, toggleObjs, hm2, Bool.false_eq_true, if_false]
      rw [hv]

theorem toggleSlots_length (h : Heap) (id : Val) (L : List (Option Val)) (b : Nat) :
    (toggleSlots h id b L).length = L.length := by
  induction L generalizing b with
  | nil => rfl
  | cons e t ih =>
    by_cases hm : strictEq (slotProp h e "id") id = true
    · simp [toggleSlots, hm, ih]
    · simp [toggleSlots, hm, ih]

theorem toggleSlots_getElem (h : Heap) (id : Val) (L : List (Option Val)) (b i : Nat)
    (hi : i < L.length) :
    (strictEq (slotProp h L[i] "id") id = false → (toggleSlots h id b L)[i]? = some L[i]) ∧
    (strictEq (slotProp h L[i] "id") id = true →
      ∃ k, (toggleSlots h id b L)[i]? = some (some (.ref (b + k))) ∧
        (toggleObjs h id L)[k]? = some (toggled h L[i])) := by
  induction L generalizing b i with
  | nil => simp at hi
  | cons e t ih =>
    cases i with
    | zero =>
      constructor
      · intro hm
        have hm2 : strictEq (slotProp h e "id") id = false := hm
        simp [toggleSlots, hm2]
      · intro hm
        have hm2 : strictEq (slotProp h e "id") id = true := hm
        exact ⟨0, by simp [toggleSlots, hm2], by simp [toggleObjs, hm2]⟩
    | succ j =>
      have hj : j < t.length := by simpa using hi
      have hget : (e :: t)[j + 1] = t[j] := rfl
      rw [hget]
      by_cases he : strictEq (slotProp h e "id") id = true
      · obtain ⟨ih1, ih2⟩ := ih (b + 1) j hj
        constructor
        · intro hm
          simpa [toggleSlots, he] using ih1 hm
        · intro hm
          obtain ⟨k, hk1, hk2⟩ := ih2 hm
          refine ⟨k + 1, ?_, ?_⟩
          · have : b + (k + 1) = b + 1 + k := by omega
            rw [this]
            simpa [toggleSlots, he] using hk1
          · simpa [toggleObjs, he] using hk2
      · obtain ⟨ih1, ih2⟩ := ih b j hj
        constructor
        · intro hm
          simpa [toggleSlots, he] using ih1 hm
        · intro hm
          obtain ⟨k, hk1, hk2⟩ := ih2 hm
          exact ⟨k, by simpa [toggleSlots, he] using hk1, by simpa [toggleObjs, he] using hk2⟩

theorem toggleTodo_eq (raises : Raises) (s : Store) (id : Val)
    (fs : List (String × Val)) (c : Nat) (L : List (Option Val))
    (hg : s.heap[s.globalState]? = some (.record fs))
    (hv : (fs.lookup "todos").getD .undefined = .ref c)
    (hc : s.heap[c]? = some (.array L))
    (hitems : ∀ e ∈ L, isItem s.heap e = true) :
    toggleTodo raises s id =
      some ({ heap := s.heap ++ ([] ++ .array (toggleSlots s.heap id (s.heap.length + 1) L) ::
                (toggleObjs s.heap id L ++
                  [.record [("todos", .ref (s.heap.length + ([] : List Obj).length))],
                   .record (mergeFields fs
                     [("todos", .ref (s.heap.length + ([] : List Obj).length))])])),
              globalState := s.heap.length +
                (([] : List Obj).length + 1 + (toggleObjs s.heap id L).length + 1),
              listeners := s.listeners },
            notify raises (.ref (s.heap.length +
                (([] : List Obj).length + 1 + (toggleObjs s.heap id L).length + 1)))
              s.listeners) := by
  have e1 : getProp s.heap (.ref s.globalState) "todos" = some (.ref c) := by
    simp only [getProp, hg, hv]
  have e2 : arrayLength s.heap (.ref c) = some L.length := by
    simp only [arrayLength, hc]
  have e3 := toggleLoop_eq s.heap c L id hc hitems L.length [] [] (by simp)
  simp only [List.drop_zero, List.nil_append, List.length_nil, Nat.add_zero] at e3
  have e5 := publish_eq raises s fs hg
    (.array (toggleSlots s.heap id (s.heap.length + 1) L) :: toggleObjs s.heap id L)
    s.heap.length
  simp only [toggleTodo, alloc, e1, e2, e3, Option.bind_eq_bind, Option.some_bind]
  simp only [List.append_assoc, List.cons_append, List.nil_append] at e5 ⊢
  rw [e5]
  simp [Nat.add_assoc, Nat.add_comm]

/-- What `toggleTodo(id)` does on a list of items, slot by slot. -/
theorem toggleTodo_spec (raises : Raises) (s : Store) (id : Val)
    (L : List (Option Val)) (hL : todosOf s = some L)
    (hitems : ∀ e ∈ L, isItem s.heap e = true) :
    ∃ s1 tr L1, toggleTodo raises s id = some (s1, tr) ∧ todosOf s1 = some L1 ∧
      L1.length = L.length ∧
      (∀ (a : Nat) (o : Obj), s.heap[a]? = some o → s1.heap[a]? = some o) ∧
      ∀ (i : Nat) (e : Option Val), L[i]? = some e →
        (strictEq (slotProp s.heap e "id") id = false → L1[i]? = some e) ∧
        (strictEq (slotProp s.heap e "id") id = true →
          ∃ t, L1[i]? = some (some (.ref t)) ∧ s.heap[t]? = none ∧
            s1.heap[t]? = some (toggled s.heap e)) := by
  obtain ⟨fs, c, hg, hv, hc⟩ := todosOf_some hL
  refine ⟨_, _, toggleSlots s.heap id (s.heap.length + 1) L,
    toggleTodo_eq raises s id fs c L hg hv hc hitems,
    todosOf_published s fs [] _ (toggleObjs s.heap id L) s.listeners,
    toggleSlots_length _ _ _ _, ?_, ?_⟩
  · intro a o ha
    simp only
    rw [getElem?_old _ (lt_of_getElem? ha), ha]
  · intro i e hie
    obtain ⟨hi, hget⟩ := List.getElem?_eq_some.mp hie
    obtain ⟨h1, h2⟩ := toggleSlots_getElem s.heap id L (s.heap.length + 1) i hi
    rw [hget] at h1 h2
    refine ⟨h1, ?_⟩
    intro hm
    obtain ⟨k, hk1, hk2⟩ := h2 hm
    refine ⟨s.heap.length + 1 + k, hk1, List.getElem?_eq_none (by omega), ?_⟩
    have hklt : k < (toggleObjs s.heap id L).length := lt_of_getElem? hk2
    simp only [List.nil_append]
    rw [Nat.add_assoc, getElem?_ext, Nat.add_comm 1 k, List.getElem?_cons_succ,
      List.getElem?_append_left hklt, hk2]

theorem getProp_toggled (h1 h : Heap) (t : Nat) (e : Option Val)
    (ht : h1[t]? = some (toggled h e)) :
    getProp h1 (.ref t) "id" = some (slotProp h e "id") ∧
    getProp h1 (.ref t) "text" = some (slotProp h e "text") ∧
    getProp h1 (.ref t) "done" = some (.bool (!toBoolean (slotProp h e "done"))) := by
  simp [getProp, ht, toggled, List.lookup]

/-- C7 fails as stated: in the list of two items that two `addTodo` calls with the
same `Date.now()` reading leave, the id 5 occurs, and `toggleTodo(5)` replaces both
positions by new objects; no choice of one position leaves all the others holding
the item they held before. -/
theorem toggleTodo_exactly_one_counterexample :
    ((addTodo quiet 5 initialStore (.str "a")).bind
        fun r => addTodo quiet 5 r.1 (.str "b")) = some (twinStore, []) ∧
    todosOf twinStore = some [some (.ref 2), some (.ref 6)] ∧
    (∀ e ∈ [some (Val.ref 2), some (Val.ref 6)], isItem twinStore.heap e = true) ∧
    strictEq (slotProp twinStore.heap (some (.ref 2)) "id") (.num 5) = true ∧
    ((toggleTodo quiet twinStore (.num 5)).bind fun r => todosOf r.1) =
      some [some (.ref 11), some (.ref 12)] ∧
    ¬ ∃ p : Nat, ∀ q : Nat, q ≠ p →
      [some (Val.ref 11), some (Val.ref 12)][q]? = [some (Val.ref 2), some (Val.ref 6)][q]? := by
  refine ⟨by decide, by decide, by decide, by decide, by decide, ?_⟩
  rintro ⟨p, hp⟩
  by_cases h0 : p = 0
  · have h1 := hp 1 (by omega)
    simp at h1
  · have h1 := hp 0 (fun h => h0 h.symm)
    simp at h1

/-- C7 (amended): when `getState().todos` is an array `L` of items, `toggleTodo(id)`
yields an array of the same length in which every position whose item has an id
equal (`===`) to `id` holds a newly allocated object with the same id and text and
with `done` inverted, and every other position holds the very same item as before;
no object that existed before is changed. -/
theorem toggleTodo_flips_matching (raises : Raises) (s : Store) (id : Val)
    (L : List (Option Val)) (hL : todosOf s = some L)
    (hitems : ∀ e ∈ L, isItem s.heap e = true) :
    ∃ s1 tr L1, toggleTodo raises s id = some (s1, tr) ∧ todosOf s1 = some L1 ∧
      L1.length = L.length ∧
      (∀ (a : Nat) (o : Obj), s.heap[a]? = some o → s1.heap[a]? = some o) ∧
      ∀ (i : Nat) (e : Option Val), L[i]? = some e →
        (strictEq (slotProp s.heap e "id") id = false → L1[i]? = some e) ∧
        (strictEq (slotProp s.heap e "id") id = true →
          ∃ t, L1[i]? = some (some (.ref t)) ∧ s.heap[t]? = none ∧
            getProp s1.heap (.ref t) "id" = some (slotProp s.heap e "id") ∧
            getProp s1.heap (.ref t) "text" = some (slotProp s.heap e "text") ∧
            getProp s1.heap (.ref t) "done" =
              some (.bool (!toBoolean (slotProp s.heap e "done")))) := by
  obtain ⟨s1, tr, L1, h1, h2, h3, h4, h5⟩ := toggleTodo_spec raises s id L hL hitems
  refine ⟨s1, tr, L1, h1, h2, h3, h4, ?_⟩
  intro i e hie
  obtain ⟨h6, h7⟩ := h5 i e hie
  refine ⟨h6, ?_⟩
  intro hm
  obtain ⟨t, ht1, ht2, ht3⟩ := h7 hm
  exact ⟨t, ht1, ht2, getProp_toggled s1.heap s.heap t e ht3⟩

theorem toggleTodo_flips_matching_witness :
    todosOf pairStore = some [some (.ref 2), some (.ref 6)] ∧
    (∀ e ∈ [some (Val.ref 2), some (Val.ref 6)], isItem pairStore.heap e = true) ∧
    ∃ s1 tr L1, toggleTodo quiet pairStore (.num 6) = some (s1, tr) ∧ todosOf s1 = some L1 ∧
      L1.length = [some (Val.ref 2), some (Val.ref 6)].length ∧
      (∀ (a : Nat) (o : Obj), pairStore.heap[a]? = some o → s1.heap[a]? = some o) ∧
      ∀ (i : Nat) (e : Option Val), [some (Val.ref 2), some (Val.ref 6)][i]? = some e →
        (strictEq (slotProp pairStore.heap e "id") (.num 6) = false → L1[i]? = some e) ∧
        (strictEq (slotProp pairStore.heap e "id") (.num 6) = true →
          ∃ t, L1[i]? = some (some (.ref t)) ∧ pairStore.heap[t]? = none ∧
            getProp s1.heap (.ref t) "id" = some (slotProp pairStore.heap e "id") ∧
            getProp s1.heap (.ref t) "text" = some (slotProp pairStore.heap e "text") ∧
            getProp s1.heap (.ref t) "done" =
              some (.bool (!toBoolean (slotProp pairStore.heap e "done")))) :=
  ⟨by decide, by decide,
    toggleTodo_flips_matching quiet pairStore (.num 6) [some (.ref 2), some (.ref 6)]
      (by decide) (by decide)⟩

theorem slotProp_preserved {h h1 : Heap} {e : Option Val}
    (hpres : ∀ (a : Nat) (o : Obj), h[a]? = some o → h1[a]? = some o)
    (he : isItem h e = true) :
    isItem h1 e = true ∧ ∀ k, slotProp h1 e k = slotProp h e k := by
  obtain ⟨a, fs, hea, ha⟩ := isItem_spec he
  have ha1 := hpres a _ ha
  subst hea
  constructor
  · simp [isItem, ha1]
  · intro k
    simp [slotProp, getProp, ha, ha1]

theorem slotProp_toggled (h1 h : Heap) (t : Nat) (e : Option Val)
    (ht : h1[t]? = some (toggled h e)) :
    isItem h1 (some (.ref t)) = true ∧
    slotProp h1 (some (.ref t)) "id" = slotProp h e "id" ∧
    slotProp h1 (some (.ref t)) "text" = slotProp h e "text" ∧
    slotProp h1 (some (.ref t)) "done" = .bool (!toBoolean (slotProp h e "done")) := by
  obtain ⟨g1, g2, g3⟩ := getProp_toggled h1 h t e ht
  refine ⟨?_, ?_, ?_, ?_⟩
  · simp [isItem, ht, toggled]
  · simp only [slotProp, Option.getD_some, g1]
  · simp only [slotProp, Option.getD_some, g2]
  · simp only [slotProp, Option.getD_some, g3]

/-- The content of the list after one `toggleTodo(id)`, slot by slot. -/
theorem toggleTodo_props (raises : Raises) (s : Store) (id : Val)
    (L : List (Option Val)) (hL : todosOf s = some L)
    (hitems : ∀ e ∈ L, isItem s.heap e = true) :
    ∃ s1 tr L1, toggleTodo raises s id = some (s1, tr) ∧ todosOf s1 = some L1 ∧
      L1.length = L.length ∧
      ∀ (i : Nat) (e : Option Val), L[i]? = some e →
        ∃ e1, L1[i]? = some e1 ∧ isItem s1.heap e1 = true ∧
          slotProp s1.heap e1 "id" = slotProp s.heap e "id" ∧
          slotProp s1.heap e1 "text" = slotProp s.heap e "text" ∧
          slotProp s1.heap e1 "done" =
            if strictEq (slotProp s.heap e "id") id then
              .bool (!toBoolean (slotProp s.heap e "done"))
            else slotProp s.heap e "done" := by
  obtain ⟨s1, tr, L1, h1, h2, h3, h4, h5⟩ := toggleTodo_spec raises s id L hL hitems
  refine ⟨s1, tr, L1, h1, h2, h3, ?_⟩
  intro i e hie
  obtain ⟨h6, h7⟩ := h5 i e hie
  have hmem : e ∈ L := List.getElem?_mem hie
  by_cases hm : strictEq (slotProp s.heap e "id") id = true
  · obtain ⟨t, ht1, _, ht3⟩ := h7 hm
    obtain ⟨p1, p2, p3, p4⟩ := slotProp_toggled s1.heap s.heap t e ht3
    exact ⟨some (.ref t), ht1, p1, p2, p3, by simp only [hm, if_true, p4]⟩
  · have hm2 : strictEq (slotProp s.heap e "id") id = false := by simpa using hm
    obtain ⟨q1, q2⟩ := slotProp_preserved h4 (hitems e hmem)
    exact ⟨e, h6 hm2, q1, q2 "id", q2 "text", by simp [hm2, q2 "done"]⟩

/-- C8: when `getState().todos` is an array `L` of items whose `done` is a boolean,
calling `toggleTodo(id)` twice succeeds and leaves a list of the same length whose
items are, position by position, equal in `id`, `text` and `done` to those of `L`. -/
theorem toggleTodo_twice_restores (raises : Raises) (s : Store) (id : Val)
    (L : List (Option Val)) (hL : todosOf s = some L)
    (hitems : ∀ e ∈ L, isItem s.heap e = true)
    (hbool : ∀ e ∈ L, ∃ b, slotProp s.heap e "done" = .bool b) :
    ∃ s1 tr1 s2 tr2 L2, toggleTodo raises s id = some (s1, tr1) ∧
      toggleTodo raises s1 id = some (s2, tr2) ∧ todosOf s2 = some L2 ∧
      L2.length = L.length ∧
      ∀ (i : Nat) (e : Option Val), L[i]? = some e →
        ∃ e2, L2[i]? = some e2 ∧
          slotProp s2.heap e2 "id" = slotProp s.heap e "id" ∧
          slotProp s2.heap e2 "text" = slotProp s.heap e "text" ∧
          slotProp s2.heap e2 "done" = slotProp s.heap e "done" := by
  obtain ⟨s1, tr1, L1, a1, a2, a3, a4⟩ := toggleTodo_props raises s id L hL hitems
  have hitems1 : ∀ e ∈ L1, isItem s1.heap e = true := by
    intro e1 he1
    obtain ⟨i, hi, hget⟩ := List.getElem_of_mem he1
    have hiL : i < L.length := by omega
    obtain ⟨e1b, hb1, hb2, _⟩ := a4 i L[i] (List.getElem?_eq_getElem hiL)
    rw [List.getElem?_eq_getElem hi, hget] at hb1
    cases hb1
    exact hb2
  obtain ⟨s2, tr2, L2, b1, b2, b3, b4⟩ := toggleTodo_props raises s1 id L1 a2 hitems1
  refine ⟨s1, tr1, s2, tr2, L2, a1, b1, b2, by omega, ?_⟩
  intro i e hie
  obtain ⟨e1, c1, _, c3, c4, c5⟩ := a4 i e hie
  obtain ⟨e2, d1, _, d3, d4, d5⟩ := b4 i e1 c1
  obtain ⟨b, hb⟩ := hbool e (List.getElem?_mem hie)
  refine ⟨e2, d1, by rw [d3, c3], by rw [d4, c4], ?_⟩
  rw [d5, c3, c5]
  by_cases hm : strictEq (slotProp s.heap e "id") id = true
  · simp [hm, hb, toBoolean]
  · simp [hm]

theorem toggleTodo_twice_restores_witness :
    todosOf pairStore = some [some (.ref 2), some (.ref 6)] ∧
    (∀ e ∈ [some (Val.ref 2), some (Val.ref 6)], isItem pairStore.heap e = true) ∧
    (∀ e ∈ [some (Val.ref 2), some (Val.ref 6)],
      ∃ b, slotProp pairStore.heap e "done" = .bool b) ∧
    ∃ s1 tr1 s2 tr2 L2, toggleTodo quiet pairStore (.num 5) = some (s1, tr1) ∧
      toggleTodo quiet s1 (.num 5) = some (s2, tr2) ∧ todosOf s2 = some L2 ∧
      L2.length = [some (Val.ref 2), some (Val.ref 6)].length ∧
      ∀ (i : Nat) (e : Option Val), [some (Val.ref 2), some (Val.ref 6)][i]? = some e →
        ∃ e2, L2[i]? = some e2 ∧
          slotProp s2.heap e2 "id" = slotProp pairStore.heap e "id" ∧
          slotProp s2.heap e2 "text" = slotProp pairStore.heap e "text" ∧
          slotProp s2.heap e2 "done" = slotProp pairStore.heap e "done" :=
  ⟨by decide, by decide, by decide,
    toggleTodo_twice_restores quiet pairStore (.num 5) [some (.ref 2), some (.ref 6)]
      (by decide) (by decide) (by decide)⟩

/-! ## Theorems: what every action does to the store -/

theorem wellFormed_iff (s : Store) :
    wellFormed s = true ↔ ∃ L, todosOf s = some L ∧ ∀ e ∈ L, isItem s.heap e = true := by
  unfold wellFormed
  cases h : todosOf s with
  | none => simp
  | some L => simp [List.all_eq_true]

theorem wellFormed_of (s1 : Store) (fs1 : List (String × Val)) (c1 : Nat)
    (L1 : List (Option Val))
    (hg1 : s1.heap[s1.globalState]? = some (.record fs1))
    (hv1 : (fs1.lookup "todos").getD .undefined = .ref c1)
    (hc1 : s1.heap[c1]? = some (.array L1))
    (hit : ∀ e ∈ L1, isItem s1.heap e = true) : wellFormed s1 = true :=
  (wellFormed_iff s1).mpr ⟨L1, todosOf_eq s1 fs1 c1 L1 hg1 hv1 hc1, hit⟩

theorem grows_refl (h : Heap) : Grows h h := ⟨[], by simp⟩

theorem grows_trans {h0 h1 h2 : Heap} (a : Grows h0 h1) (b : Grows h1 h2) : Grows h0 h2 := by
  obtain ⟨e1, rfl⟩ := a
  obtain ⟨e2, rfl⟩ := b
  exact ⟨e1 ++ e2, by simp⟩

theorem grows_append (h : Heap) (ext : List Obj) : Grows h (h ++ ext) := ⟨ext, rfl⟩

theorem grows_getElem? {h0 h : Heap} (g : Grows h0 h) {a : Nat} {o : Obj}
    (ha : h0[a]? = some o) : h[a]? = some o := by
  obtain ⟨ext, rfl⟩ := g
  rw [getElem?_old _ (lt_of_getElem? ha), ha]

theorem grows_length {h0 h : Heap} (g : Grows h0 h) : h0.length ≤ h.length := by
  obtain ⟨ext, rfl⟩ := g
  simp

theorem isItem_grows {h0 h : Heap} (g : Grows h0 h) {e : Option Val}
    (he : isItem h0 e = true) : isItem h e = true :=
  (slotProp_preserved (fun _ _ ha => grows_getElem? g ha) he).1

theorem setState_fresh (raises : Raises) (s : Store) (fs ps : List (String × Val))
    (hg : s.heap[s.globalState]? = some (.record fs)) (ext : List Obj) :
    setState raises { s with heap := s.heap ++ ext ++ [.record ps] }
        (.ref (s.heap ++ ext).length) =
      some ({ heap := s.heap ++ (ext ++ [.record ps, .record (mergeFields fs ps)]),
              globalState := s.heap.length + (ext.length + 1),
              listeners := s.listeners },
            notify raises (.ref (s.heap.length + (ext.length + 1))) s.listeners) := by
  have hgl := lt_of_getElem? hg
  have e := setState_eq raises
    { s with heap := s.heap ++ ext ++ [.record ps] }
    (s.heap ++ ext).length fs ps
    (by simp only [List.append_assoc]; rw [getElem?_old _ hgl, hg])
    (List.getElem?_concat_length _ _)
  rw [e]
  simp [Nat.add_assoc]

theorem toggleTheme_eq (raises : Raises) (s : Store) (fs : List (String × Val))
    (hg : s.heap[s.globalState]? = some (.record fs)) :
    toggleTheme raises s =
      some ({ heap := s.heap ++ ([] ++
                [.record [("theme", flipTheme ((fs.lookup "theme").getD .undefined))],
                 .record (mergeFields fs
                   [("theme", flipTheme ((fs.lookup "theme").getD .undefined))])]),
              globalState := s.heap.length + (([] : List Obj).length + 1),
              listeners := s.listeners },
            notify raises (.ref (s.heap.length + (([] : List Obj).length + 1)))
              s.listeners) := by
  have e1 : getProp s.heap (.ref s.globalState) "theme" =
      some ((fs.lookup "theme").getD .undefined) := by
    simp only [getProp, hg]
  have e2 := setState_fresh raises s fs
    [("theme", flipTheme ((fs.lookup "theme").getD .undefined))] hg []
  simp only [List.append_nil] at e2
  simp only [toggleTheme, alloc, e1, Option.bind_eq_bind, Option.some_bind]
  exact e2

theorem setStateLit_eq (raises : Raises) (s : Store) (fs : List (String × Val))
    (hg : s.heap[s.globalState]? = some (.record fs)) (fields : List (String × Val)) :
    ∃ ps, objectLiteral fields = .record ps ∧
      setStateLit raises s fields =
        some ({ heap := s.heap ++ ([] ++ [.record ps, .record (mergeFields fs ps)]),
                globalState := s.heap.length + (([] : List Obj).length + 1),
                listeners := s.listeners },
              notify raises (.ref (s.heap.length + (([] : List Obj).length + 1)))
                s.listeners) := by
  refine ⟨fields.foldl (fun (acc : List (String × Val)) (kv : String × Val) =>
    assign acc kv.1 kv.2) [], rfl, ?_⟩
  have e2 := setState_fresh raises s fs
    (fields.foldl (fun (acc : List (String × Val)) (kv : String × Val) =>
      assign acc kv.1 kv.2) []) hg []
  simp only [List.append_nil] at e2
  simp only [setStateLit, alloc, objectLiteral]
  exact e2

theorem toggleSlots_items (h : Heap) (id : Val) (L : List (Option Val))
    (hitems : ∀ e ∈ L, isItem h e = true) (X : List (Option Val)) :
    ∀ e ∈ toggleSlots h id (h.length + 1) L,
      isItem (h ++ .array X :: toggleObjs h id L) e = true := by
  intro e he
  obtain ⟨i, hi, hget⟩ := List.getElem_of_mem he
  have hiL : i < L.length := by simpa [toggleSlots_length] using hi
  obtain ⟨h1, h2⟩ := toggleSlots_getElem h id L (h.length + 1) i hiL
  have hie : (toggleSlots h id (h.length + 1) L)[i]? = some e := by
    rw [List.getElem?_eq_getElem hi, hget]
  by_cases hm : strictEq (slotProp h L[i] "id") id = true
  · obtain ⟨k, hk1, hk2⟩ := h2 hm
    rw [hie] at hk1
    cases hk1
    have hklt : k < (toggleObjs h id L).length := lt_of_getElem? hk2
    have hobj : (h ++ .array X :: toggleObjs h id L)[h.length + 1 + k]? =
        some (toggled h L[i]) := by
      rw [Nat.add_assoc, getElem?_ext, Nat.add_comm 1 k, List.getElem?_cons_succ, hk2]
    exact (slotProp_toggled _ h _ L[i] hobj).1
  · have hm2 : strictEq (slotProp h L[i] "id") id = false := by simpa using hm
    have := h1 hm2
    rw [hie] at this
    cases this
    exact isItem_grows (grows_append h _) (hitems _ (List.getElem_mem hiL))

/-- The result of every action on a well-formed store: some new objects `ext`, the
patch object and the merged state object are appended to the heap, the merged
object becomes the state and every listener is notified with it. -/
theorem act_shape (raises : Raises) (s : Store) (a : Action)
    (fs : List (String × Val)) (c : Nat) (L : List (Option Val))
    (hg : s.heap[s.globalState]? = some (.record fs))
    (hv : (fs.lookup "todos").getD .undefined = .ref c)
    (hc : s.heap[c]? = some (.array L))
    (hitems : ∀ e ∈ L, isItem s.heap e = true) :
    ∃ ext ps, act raises s a =
        some ({ heap := s.heap ++ (ext ++ [.record ps, .record (mergeFields fs ps)]),
                globalState := s.heap.length + (ext.length + 1),
                listeners := s.listeners },
              notify raises (.ref (s.heap.length + (ext.length + 1))) s.listeners) ∧
      ((a = .toggleTheme ∧ ext = [] ∧
          ps = [("theme", flipTheme ((fs.lookup "theme").getD .undefined))]) ∨
        (a ≠ .toggleTheme ∧ ∃ pre L1 post, ext = pre ++ .array L1 :: post ∧
          ps = [("todos", .ref (s.heap.length + pre.length))] ∧
          ∀ e ∈ L1, isItem (s.heap ++ ext) e = true)) := by
  cases a with
  | toggleTheme =>
    exact ⟨[], _, toggleTheme_eq raises s fs hg, Or.inl ⟨rfl, rfl, rfl⟩⟩
  | addTodo now text =>
    refine ⟨[newTodo now text] ++
        .array (L.map fillSlot ++ [some (.ref s.heap.length)]) :: [],
      [("todos", .ref (s.heap.length + 1))], ?_,
      Or.inr ⟨by simp, [newTodo now text], _, [], rfl, by simp, ?_⟩⟩
    · simp only [act]
      rw [addTodo_eq raises now s text fs c L hg hv hc]
      simp
    · intro e he
      simp only [List.mem_append, List.mem_map, List.mem_singleton] at he
      rcases he with ⟨x, hx, hxe⟩ | he
      · obtain ⟨a, _, hxa, _⟩ := isItem_spec (hitems x hx)
        have : e = x := by rw [← hxe, hxa]; rfl
        rw [this]
        exact isItem_grows (grows_append _ _) (hitems x hx)
      · rw [he]
        have h0 := getElem?_ext s.heap ([newTodo now text] ++
          .array (L.map fillSlot ++ [some (.ref s.heap.length)]) :: []) 0
        simp only [Nat.add_zero] at h0
        simp only [isItem, h0]
        rfl
  | removeTodo id =>
    refine ⟨[] ++ .array (removeSpec s.heap id L) :: [], [("todos", .ref s.heap.length)], ?_,
      Or.inr ⟨by simp, [], _, [], rfl, by simp, ?_⟩⟩
    · simp only [act]
      rw [removeTodo_eq raises s id fs c L hg hv hc hitems]
      simp
    · intro e he
      have he2 : e ∈ L := (List.mem_filter.mp he).1
      exact isItem_grows (grows_append _ _) (hitems e he2)
  | toggleTodo id =>
    refine ⟨[] ++ .array (toggleSlots s.heap id (s.heap.length + 1) L) ::
        toggleObjs s.heap id L, [("todos", .ref s.heap.length)], ?_,
      Or.inr ⟨by simp, [], _, _, rfl, by simp, ?_⟩⟩
    · simp only [act]
      rw [toggleTodo_eq raises s id fs c L hg hv hc hitems]
      simp [Nat.add_assoc, Nat.add_comm]
    · simpa using toggleSlots_items s.heap id L hitems
        (toggleSlots s.heap id (s.heap.length + 1) L)

theorem getProp_record (h : Heap) (g : Nat) (fs : List (String × Val))
    (hg : h[g]? = some (.record fs)) (k : String) :
    getProp h (.ref g) k = some ((fs.lookup k).getD .undefined) := by
  simp only [getProp, hg]

/-- Every action on a well-formed store succeeds, leaves a well-formed store whose
state object is the merge of the old one with a one-key patch, keeps the listeners
and notifies each of them with the new state object. -/
theorem act_summary (raises : Raises) (s : Store) (a : Action)
    (hwf : wellFormed s = true) :
    ∃ s1 tr fs ps, act raises s a = some (s1, tr) ∧ wellFormed s1 = true ∧
      s.heap[s.globalState]? = some (.record fs) ∧
      s1.heap[s1.globalState]? = some (.record (mergeFields fs ps)) ∧
      ((a = .toggleTheme ∧
          ps = [("theme", flipTheme ((fs.lookup "theme").getD .undefined))]) ∨
        (a ≠ .toggleTheme ∧ ∃ r, ps = [("todos", r)])) ∧
      s1.listeners = s.listeners ∧
      tr = notify raises (getState s1) s.listeners ∧
      s.heap.length ≤ s1.globalState ∧
      Grows s.heap s1.heap := by
  obtain ⟨L, hL, hitems⟩ := (wellFormed_iff s).mp hwf
  obtain ⟨fs, c, hg, hv, hc⟩ := todosOf_some hL
  obtain ⟨ext, ps, hact, hcase⟩ := act_shape raises s a fs c L hg hv hc hitems
  have hidx : (s.heap ++ (ext ++ [.record ps, .record (mergeFields fs ps)]))[
      s.heap.length + (ext.length + 1)]? = some (.record (mergeFields fs ps)) := by
    rw [getElem?_ext, getElem?_ext]
    rfl
  have hgrow : Grows s.heap (s.heap ++ (ext ++ [.record ps, .record (mergeFields fs ps)])) :=
    grows_append _ _
  refine ⟨_, _, fs, ps, hact, ?_, hg, hidx, ?_, rfl, rfl, by simp only; omega, hgrow⟩
  · rcases hcase with ⟨_, hext, hps⟩ | ⟨_, pre, L1, post, hext, hps, hit⟩
    · apply wellFormed_of _ (mergeFields fs ps) c L hidx
      · rw [lookup_mergeFields _ _ _ (by decide), hps]
        simpa using hv
      · exact grows_getElem? hgrow hc
      · intro e he
        exact isItem_grows hgrow (hitems e he)
    · apply (wellFormed_iff _).mpr
      refine ⟨L1, ?_, ?_⟩
      · have hpub := todosOf_published s fs pre L1 post s.listeners
        have e1 : s.heap ++ (ext ++ [.record ps, .record (mergeFields fs ps)]) =
            s.heap ++ (pre ++ .array L1 :: (post ++
              [.record [("todos", .ref (s.heap.length + pre.length))],
               .record (mergeFields fs [("todos", .ref (s.heap.length + pre.length))])])) := by
          rw [hext, hps]
          simp
        have e2 : s.heap.length + (ext.length + 1) =
            s.heap.length + (pre.length + 1 + post.length + 1) := by
          rw [hext]
          simp only [List.length_append, List.length_cons]
          omega
        rw [e1, e2]
        exact hpub
      · intro e he
        have h1 := hit e he
        have hg2 : Grows (s.heap ++ ext)
            (s.heap ++ (ext ++ [.record ps, .record (mergeFields fs ps)])) :=
          ⟨[.record ps, .record (mergeFields fs ps)], by simp⟩
        exact isItem_grows hg2 h1
  · rcases hcase with ⟨ha, _, hps⟩ | ⟨ha, pre, L1, post, _, hps, _⟩
    · exact Or.inl ⟨ha, hps⟩
    · exact Or.inr ⟨ha, _, hps⟩

theorem themeOf_act (raises : Raises) (s : Store) (a : Action)
    (hwf : wellFormed s = true) :
    ∃ s1 tr, act raises s a = some (s1, tr) ∧ wellFormed s1 = true ∧
      s1.listeners = s.listeners ∧ Grows s.heap s1.heap ∧
      themeOf s1 = if a = .toggleTheme then (themeOf s).map flipTheme else themeOf s := by
  obtain ⟨s1, tr, fs, ps, hact, hwf1, hg, hg1, hcase, hls, _, _, hgrow⟩ :=
    act_summary raises s a hwf
  refine ⟨s1, tr, hact, hwf1, hls, hgrow, ?_⟩
  have h0 : themeOf s = some ((fs.lookup "theme").getD .undefined) :=
    getProp_record _ _ _ hg _
  have h1 : themeOf s1 = some (((mergeFields fs ps).lookup "theme").getD .undefined) :=
    getProp_record _ _ _ hg1 _
  rw [h1, h0, lookup_mergeFields _ _ _ (by decide)]
  rcases hcase with ⟨ha, hps⟩ | ⟨ha, r, hps⟩
  · simp [ha, hps, List.lookup]
  · simp [ha, hps]

theorem run_cons (raises : Raises) (s : Store) (op : StoreOp) (ops : List StoreOp)
    (s1 : Store) (t1 : List Event) (s2 : Store) (t2 : List Event)
    (h1 : Store.step raises s op = some (s1, t1))
    (h2 : Store.run raises s1 ops = some (s2, t2)) :
    Store.run raises s (op :: ops) = some (s2, t1 ++ t2) := by
  simp [Store.run, h1, h2]

theorem run_cons_some {raises : Raises} {s : Store} {op : StoreOp} {ops : List StoreOp}
    {s2 : Store} {tr : List Event} (h : Store.run raises s (op :: ops) = some (s2, tr)) :
    ∃ s1 t1 t2, Store.step raises s op = some (s1, t1) ∧
      Store.run raises s1 ops = some (s2, t2) ∧ tr = t1 ++ t2 := by
  simp only [Store.run] at h
  cases hs : Store.step raises s op with
  | none => simp [hs] at h
  | some r1 =>
    simp only [hs] at h
    cases hr : Store.run raises r1.1 ops with
    | none => simp [hr] at h
    | some r2 =>
      simp only [hr, Option.some.injEq, Prod.mk.injEq] at h
      obtain ⟨ha, hb⟩ := h
      exact ⟨r1.1, r1.2, r2.2, rfl, by rw [hr, ← ha], hb.symm⟩

/-- Every sequence of actions on a well-formed store succeeds; the theme is flipped
once per `toggleTheme` call. -/
theorem run_actions (raises : Raises) (acts : List Action) (s : Store)
    (hwf : wellFormed s = true) :
    ∃ s1 tr, Store.run raises s (acts.map StoreOp.act) = some (s1, tr) ∧
      wellFormed s1 = true ∧ s1.listeners = s.listeners ∧ Grows s.heap s1.heap ∧
      themeOf s1 = (themeOf s).map (flipTheme^[toggleCount acts]) := by
  induction acts generalizing s with
  | nil => exact ⟨s, [], rfl, hwf, rfl, grows_refl _, by simp [toggleCount]⟩
  | cons a t ih =>
    obtain ⟨s1, t1, hact, hwf1, hls1, hgr1, hth1⟩ := themeOf_act raises s a hwf
    obtain ⟨s2, t2, hrun, hwf2, hls2, hgr2, hth2⟩ := ih s1 hwf1
    refine ⟨s2, t1 ++ t2, run_cons raises s (.act a) _ s1 t1 s2 t2 hact hrun, hwf2,
      by rw [hls2, hls1], grows_trans hgr1 hgr2, ?_⟩
    rw [hth2, hth1]
    cases a with
    | toggleTheme =>
      cases themeOf s <;> simp [toggleCount, Function.iterate_succ_apply]
    | addTodo now text => simp [toggleCount]
    | toggleTodo id => simp [toggleCount]
    | removeTodo id => simp [toggleCount]

theorem flipTheme_iterate (n : Nat) :
    flipTheme^[n] (.str "light") =
      if n % 2 = 0 then Val.str "light" else Val.str "dark" := by
  induction n with
  | zero => rfl
  | succ n ih =>
    rw [Function.iterate_succ_apply', ih]
    by_cases h : n % 2 = 0
    · have h2 : (n + 1) % 2 = 1 := by omega
      simp [h, h2, flipTheme, strictEq]
    · have h2 : (n + 1) % 2 = 0 := by omega
      simp [h, h2, flipTheme, strictEq]

/-! ## Theorems: ids and theme over sequences of actions -/

/-- C11 fails on the code: `addTodo("a"); addTodo("b")` from the initial store, both
reading the same `Date.now()` value 5, leave two entries whose ids are equal. -/
theorem addTodo_same_clock_duplicate_ids :
    Store.run quiet initialStore
        [.act (.addTodo 5 (.str "a")), .act (.addTodo 5 (.str "b"))] =
      some (twinStore, []) ∧
    todosOf twinStore = some [some (.ref 2), some (.ref 6)] ∧
    slotId twinStore.heap (some (.ref 2)) = .num 5 ∧
    slotId twinStore.heap (some (.ref 6)) = .num 5 ∧
    strictEq (slotId twinStore.heap (some (.ref 2)))
      (slotId twinStore.heap (some (.ref 6))) = true := by
  decide

/-- C13: from the initial store every sequence of actions succeeds, and the theme
afterwards is `light` when the sequence holds an even number of `toggleTheme` calls
and `dark` when it holds an odd number, whatever `addTodo`, `toggleTodo` and
`removeTodo` calls are interleaved. -/
theorem theme_parity (raises : Raises) (acts : List Action) :
    ∃ s tr, Store.run raises initialStore (acts.map StoreOp.act) = some (s, tr) ∧
      themeOf s =
        some (if toggleCount acts % 2 = 0 then Val.str "light" else Val.str "dark") := by
  obtain ⟨s, tr, hrun, _, _, _, hth⟩ := run_actions raises acts initialStore (by decide)
  refine ⟨s, tr, hrun, ?_⟩
  have h0 : themeOf initialStore = some (.str "light") := by decide
  rw [hth, h0, Option.map_some', flipTheme_iterate]

/-! ## Theorems: an id that does not occur -/

theorem toggleSlots_none (h : Heap) (id : Val) (L : List (Option Val)) (b : Nat)
    (hnone : ∀ e ∈ L, strictEq (slotId h e) id = false) :
    toggleSlots h id b L = L ∧ toggleObjs h id L = [] := by
  induction L generalizing b with
  | nil => exact ⟨rfl, rfl⟩
  | cons e t ih =>
    have he : strictEq (slotProp h e "id") id = false := hnone e (List.mem_cons_self _ _)
    obtain ⟨ih1, ih2⟩ := ih b (fun x hx => hnone x (List.mem_cons_of_mem _ hx))
    simp [toggleSlots, toggleObjs, he, ih1, ih2]

theorem removeSpec_none (h : Heap) (id : Val) (L : List (Option Val))
    (hnone : ∀ e ∈ L, strictEq (slotId h e) id = false) : removeSpec h id L = L := by
  unfold removeSpec
  apply List.filter_eq_self.mpr
  intro e he
  simp [keeps, hnone e he]

theorem callsOf_notify_nodup (raises : Raises) (value : Val) (subs : List Nat)
    (hset : subs.Nodup) :
    (∀ fn ∈ subs, callsOf fn (notify raises value subs) = [value]) ∧
    (∀ fn, fn ∉ subs → callsOf fn (notify raises value subs) = []) := by
  constructor
  · intro fn hfn
    simp [callsOf_notify, List.count_eq_one_of_mem hset hfn]
  · intro fn hfn
    simp [callsOf_notify, List.count_eq_zero_of_not_mem hfn]

/-- C12: when `getState().todos` is an array `L` of items none of which has an id
equal (`===`) to `id`, both `toggleTodo(id)` and `removeTodo(id)` return without an
error and leave a `todos` array with exactly the slots of `L` (same items, same
order, no object changed), yet the state object is replaced by a new one and every
listener is invoked exactly once, with the new state. -/
theorem unknown_id_keeps_todos (raises : Raises) (s : Store) (id : Val)
    (L : List (Option Val)) (hL : todosOf s = some L)
    (hitems : ∀ e ∈ L, isItem s.heap e = true)
    (hnone : ∀ e ∈ L, strictEq (slotId s.heap e) id = false)
    (hset : s.listeners.Nodup) :
    (∃ s1 tr, toggleTodo raises s id = some (s1, tr) ∧ todosOf s1 = some L ∧
      getState s1 ≠ getState s ∧ Grows s.heap s1.heap ∧
      (∀ fn ∈ s.listeners, callsOf fn tr = [getState s1]) ∧
      (∀ fn, fn ∉ s.listeners → callsOf fn tr = [])) ∧
    (∃ s1 tr, removeTodo raises s id = some (s1, tr) ∧ todosOf s1 = some L ∧
      getState s1 ≠ getState s ∧ Grows s.heap s1.heap ∧
      (∀ fn ∈ s.listeners, callsOf fn tr = [getState s1]) ∧
      (∀ fn, fn ∉ s.listeners → callsOf fn tr = [])) := by
  obtain ⟨fs, c, hg, hv, hc⟩ := todosOf_some hL
  have hgl := lt_of_getElem? hg
  obtain ⟨ht1, ht2⟩ := toggleSlots_none s.heap id L (s.heap.length + 1) hnone
  have hr := removeSpec_none s.heap id L hnone
  constructor
  · refine ⟨_, _, toggleTodo_eq raises s id fs c L hg hv hc hitems, ?_, ?_,
      grows_append _ _, ?_⟩
    · have := todosOf_published s fs [] (toggleSlots s.heap id (s.heap.length + 1) L)
        (toggleObjs s.heap id L) s.listeners
      rw [ht1] at this ⊢
      exact this
    · simp only [getState, ne_eq, Val.ref.injEq]
      omega
    · exact callsOf_notify_nodup raises _ s.listeners hset
  · refine ⟨_, _, removeTodo_eq raises s id fs c L hg hv hc hitems, ?_, ?_,
      grows_append _ _, ?_⟩
    · have := todosOf_published s fs [] (removeSpec s.heap id L) [] s.listeners
      rw [hr] at this ⊢
      simpa using this
    · simp only [getState, ne_eq, Val.ref.injEq]
      omega
    · exact callsOf_notify_nodup raises _ s.listeners hset

theorem unknown_id_keeps_todos_witness :
    todosOf pairStore = some [some (.ref 2), some (.ref 6)] ∧
    (∀ e ∈ [some (Val.ref 2), some (Val.ref 6)], isItem pairStore.heap e = true) ∧
    (∀ e ∈ [some (Val.ref 2), some (Val.ref 6)],
      strictEq (slotId pairStore.heap e) (.num 7) = false) ∧
    pairStore.listeners.Nodup ∧
    (∃ s1 tr, toggleTodo quiet pairStore (.num 7) = some (s1, tr) ∧
      todosOf s1 = some [some (.ref 2), some (.ref 6)] ∧
      getState s1 ≠ getState pairStore ∧ Grows pairStore.heap s1.heap ∧
      (∀ fn ∈ pairStore.listeners, callsOf fn tr = [getState s1]) ∧
      (∀ fn, fn ∉ pairStore.listeners → callsOf fn tr = [])) ∧
    (∃ s1 tr, removeTodo quiet pairStore (.num 7) = some (s1, tr) ∧
      todosOf s1 = some [some (.ref 2), some (.ref 6)] ∧
      getState s1 ≠ getState pairStore ∧ Grows pairStore.heap s1.heap ∧
      (∀ fn ∈ pairStore.listeners, callsOf fn tr = [getState s1]) ∧
      (∀ fn, fn ∉ pairStore.listeners → callsOf fn tr = [])) :=
  ⟨by decide, by decide, by decide, by decide,
    unknown_id_keeps_todos quiet pairStore (.num 7) [some (.ref 2), some (.ref 6)]
      (by decide) (by decide) (by decide) (by decide)⟩

/-! ## Theorems: callbacks that raise -/

theorem notifyLoop_eq (raises : Raises) (value : Val) (subs : List Nat) :
    notifyLoop raises value subs = (.normal, notify raises value subs) := by
  induction subs with
  | nil => rfl
  | cons fn rest ih =>
    unfold notifyLoop at ih ⊢
    cases hr : raises fn value with
    | none =>
      have hb : tryCatchLog (callFn raises fn value) = (.normal, [Event.call fn value]) := by
        simp [tryCatchLog, callFn, hr]
      simp only [forEachFn, hb, ih, notify, hr]
    | some e =>
      have hb : tryCatchLog (callFn raises fn value) =
          (.normal, [Event.call fn value] ++ [Event.error e]) := by
        simp [tryCatchLog, callFn, hr]
      simp only [forEachFn, hb, ih, notify, hr]
      rfl

theorem error_mem_notify (raises : Raises) (value : Val) (subs : List Nat) (fn : Nat)
    (e : Val) (hfn : fn ∈ subs) (hr : raises fn value = some e) :
    Event.error e ∈ notify raises value subs := by
  induction subs with
  | nil => simp at hfn
  | cons g rest ih =>
    simp only [notify, List.mem_append]
    rcases List.mem_cons.mp hfn with h | h
    · subst h
      left
      simp [hr]
    · right
      exact ih h

/-- C14: whatever callbacks raise, the loop of `set` and of `setState` completes
normally (nothing propagates to the caller), the new value or state stays
committed, every registered callback is still invoked exactly once with it, and each
raised value is reported through `console.error`; every action on a well-formed
store inherits this from `setState`. -/
theorem raising_callback_does_not_stop_pass (raises : Raises)
    (v0 : Val) (ops : List CellOp) (next : Next)
    (s : Store) (p : Nat) (fs ps : List (String × Val)) (a : Action)
    (hne : objectIs ((Cell.run raises (createState v0) ops).resolve next)
      (Cell.run raises (createState v0) ops).value = false)
    (hg : s.heap[s.globalState]? = some (.record fs))
    (hp : s.heap[p]? = some (.record ps))
    (hset : s.listeners.Nodup)
    (hwf : wellFormed s = true) :
    (let c := Cell.run raises (createState v0) ops
     notifyLoop raises (c.resolve next) c.subs = (.normal, (c.set raises next).2) ∧
     (c.set raises next).1.get = c.resolve next ∧
     (∀ fn ∈ c.subs, callsOf fn (c.set raises next).2 = [c.resolve next]) ∧
     (∀ fn ∈ c.subs, ∀ e, raises fn (c.resolve next) = some e →
       Event.error e ∈ (c.set raises next).2)) ∧
    (∃ s1 tr, setState raises s (.ref p) = some (s1, tr) ∧
      notifyLoop raises (getState s1) s.listeners = (.normal, tr) ∧
      s1.heap[s1.globalState]? = some (.record (mergeFields fs ps)) ∧
      (∀ fn ∈ s.listeners, callsOf fn tr = [getState s1]) ∧
      (∀ fn ∈ s.listeners, ∀ e, raises fn (getState s1) = some e → Event.error e ∈ tr)) ∧
    (∃ s1 tr, act raises s a = some (s1, tr) ∧
      notifyLoop raises (getState s1) s.listeners = (.normal, tr) ∧
      wellFormed s1 = true ∧
      (∀ fn ∈ s.listeners, callsOf fn tr = [getState s1]) ∧
      (∀ fn ∈ s.listeners, ∀ e, raises fn (getState s1) = some e → Event.error e ∈ tr)) := by
  refine ⟨?_, ?_, ?_⟩
  · intro c
    have hnd : c.subs.Nodup := run_nodup raises ops (createState v0) List.nodup_nil
    have h : c.set raises next = ({ c with value := c.resolve next },
        notify raises (c.resolve next) c.subs) := by
      unfold Cell.set
      simp [c, hne]
    rw [h]
    exact ⟨notifyLoop_eq _ _ _, rfl, (callsOf_notify_nodup raises _ _ hnd).1,
      fun fn hfn e he => error_mem_notify raises _ _ fn e hfn he⟩
  · refine ⟨_, _, setState_eq raises s p fs ps hg hp, notifyLoop_eq _ _ _, ?_,
      (callsOf_notify_nodup raises _ _ hset).1,
      fun fn hfn e he => error_mem_notify raises _ _ fn e hfn he⟩
    simp
  · obtain ⟨s1, tr, _, _, hact, hwf1, _, _, _, _, htr, _, _⟩ := act_summary raises s a hwf
    refine ⟨s1, tr, hact, ?_, hwf1, ?_, ?_⟩
    · rw [htr]
      exact notifyLoop_eq _ _ _
    · rw [htr]
      exact (callsOf_notify_nodup raises _ _ hset).1
    · intro fn hfn e he
      rw [htr]
      exact error_mem_notify raises _ _ fn e hfn he

theorem raising_callback_does_not_stop_pass_witness :
    objectIs ((Cell.run boom (createState (.num 0)) [.subscribe 3, .subscribe 5]).resolve
        (.value (.num 1)))
      (Cell.run boom (createState (.num 0)) [.subscribe 3, .subscribe 5]).value = false ∧
    patchDemo.heap[patchDemo.globalState]? =
      some (.record [("theme", .str "light"), ("todos", .ref 0)]) ∧
    patchDemo.heap[2]? = some (.record [("theme", .str "dark"), ("user", .null)]) ∧
    patchDemo.listeners.Nodup ∧ wellFormed patchDemo = true ∧
    (let c := Cell.run boom (createState (.num 0)) [.subscribe 3, .subscribe 5]
     notifyLoop boom (c.resolve (.value (.num 1))) c.subs =
       (.normal, (c.set boom (.value (.num 1))).2) ∧
     (c.set boom (.value (.num 1))).1.get = c.resolve (.value (.num 1)) ∧
     (∀ fn ∈ c.subs, callsOf fn (c.set boom (.value (.num 1))).2 =
       [c.resolve (.value (.num 1))]) ∧
     (∀ fn ∈ c.subs, ∀ e, boom fn (c.resolve (.value (.num 1))) = some e →
       Event.error e ∈ (c.set boom (.value (.num 1))).2)) ∧
    (∃ s1 tr, setState boom patchDemo (.ref 2) = some (s1, tr) ∧
      notifyLoop boom (getState s1) patchDemo.listeners = (.normal, tr) ∧
      s1.heap[s1.globalState]? = some (.record (mergeFields
        [("theme", .str "light"), ("todos", .ref 0)]
        [("theme", .str "dark"), ("user", .null)])) ∧
      (∀ fn ∈ patchDemo.listeners, callsOf fn tr = [getState s1]) ∧
      (∀ fn ∈ patchDemo.listeners, ∀ e, boom fn (getState s1) = some e →
        Event.error e ∈ tr)) ∧
    (∃ s1 tr, act boom patchDemo (.addTodo 9 (.str "x")) = some (s1, tr) ∧
      notifyLoop boom (getState s1) patchDemo.listeners = (.normal, tr) ∧
      wellFormed s1 = true ∧
      (∀ fn ∈ patchDemo.listeners, callsOf fn tr = [getState s1]) ∧
      (∀ fn ∈ patchDemo.listeners, ∀ e, boom fn (getState s1) = some e →
        Event.error e ∈ tr)) :=
  ⟨by decide, by decide, by decide, by decide, by decide,
    raising_callback_does_not_stop_pass boom (.num 0) [.subscribe 3, .subscribe 5]
      (.value (.num 1)) patchDemo 2 [("theme", .str "light"), ("todos", .ref 0)]
      [("theme", .str "dark"), ("user", .null)] (.addTodo 9 (.str "x"))
      (by decide) (by decide) (by decide) (by decide) (by decide)⟩

/-! ## Theorems: no call changes an object that exists -/

theorem grows_set {h0 h : Heap} (g : Grows h0 h) (a : Nat) (o : Obj) (ha : h0.length ≤ a) :
    Grows h0 (h.set a o) := by
  obtain ⟨ext, rfl⟩ := g
  exact ⟨ext.set (a - h0.length) o, List.set_append_right _ _ ha⟩

theorem grows_alloc {h0 h : Heap} (g : Grows h0 h) (o : Obj) : Grows h0 (h ++ [o]) :=
  grows_trans g (grows_append h [o])

theorem arrayStore_grows {h0 h h1 : Heap} {a i : Nat} {v : Val}
    (hs : arrayStore h a i v = some h1) (g : Grows h0 h) (ha : h0.length ≤ a) :
    Grows h0 h1 := by
  unfold arrayStore at hs
  split at hs
  · simp only [Option.some.injEq] at hs
    rw [← hs]
    exact grows_set g a _ ha
  · simp at hs

theorem setProp_grows {h0 h h1 : Heap} {a : Nat} {k : String} {v : Val}
    (hs : setProp h a k v = some h1) (g : Grows h0 h) (ha : h0.length ≤ a) :
    Grows h0 h1 := by
  unfold setProp at hs
  split at hs
  · simp only [Option.some.injEq] at hs
    rw [← hs]
    exact grows_set g a _ ha
  · simp at hs

theorem copyProps_grows {h0 : Heap} {obj : Val} {out : Nat} (ha : h0.length ≤ out)
    (ks : List String) (h h1 : Heap)
    (hs : copyProps obj out ks h = some h1) (g : Grows h0 h) : Grows h0 h1 := by
  induction ks generalizing h with
  | nil =>
    simp only [copyProps, Option.some.injEq] at hs
    rw [← hs]
    exact g
  | cons k t ih =>
    simp only [copyProps, Option.bind_eq_bind, Option.bind_eq_some] at hs
    obtain ⟨v, _, h2, hset, hrest⟩ := hs
    exact ih h2 hrest (setProp_grows hset g ha)

theorem copyLoop_grows {h0 : Heap} {current : Val} {next : Nat} (ha : h0.length ≤ next)
    (n i : Nat) (h h1 : Heap)
    (hs : copyLoop current next n i h = some h1) (g : Grows h0 h) : Grows h0 h1 := by
  induction n generalizing i h with
  | zero =>
    simp only [copyLoop, Option.some.injEq] at hs
    rw [← hs]
    exact g
  | succ n ih =>
    simp only [copyLoop, Option.bind_eq_bind, Option.bind_eq_some] at hs
    obtain ⟨v, _, h2, hst, hrest⟩ := hs
    exact ih (i + 1) h2 hrest (arrayStore_grows hst g ha)

theorem keepLoop_grows {h0 : Heap} {current : Val} {next : Nat} {id : Val}
    (ha : h0.length ≤ next) (n i j : Nat) (h h1 : Heap)
    (hs : keepLoop current next id n i j h = some h1) (g : Grows h0 h) : Grows h0 h1 := by
  induction n generalizing i j h with
  | zero =>
    simp only [keepLoop, Option.some.injEq] at hs
    rw [← hs]
    exact g
  | succ n ih =>
    simp only [keepLoop, Option.bind_eq_bind, Option.bind_eq_some] at hs
    obtain ⟨item, _, itemId, _, hrest⟩ := hs
    split at hrest
    · simp only [Option.bind_eq_some] at hrest
      obtain ⟨h2, hst, hrest2⟩ := hrest
      exact ih (i + 1) (j + 1) h2 hrest2 (arrayStore_grows hst g ha)
    · exact ih (i + 1) j h hrest g

theorem toggleLoop_grows {h0 : Heap} {current : Val} {next : Nat} {id : Val}
    (ha : h0.length ≤ next) (n i : Nat) (h h1 : Heap)
    (hs : toggleLoop current next id n i h = some h1) (g : Grows h0 h) : Grows h0 h1 := by
  induction n generalizing i h with
  | zero =>
    simp only [toggleLoop, Option.some.injEq] at hs
    rw [← hs]
    exact g
  | succ n ih =>
    simp only [toggleLoop, Option.bind_eq_bind, Option.bind_eq_some] at hs
    obtain ⟨item, _, itemId, _, hrest⟩ := hs
    split at hrest
    · simp only [Option.bind_eq_some, alloc] at hrest
      obtain ⟨text, _, done, _, h2, hst, hrest2⟩ := hrest
      exact ih (i + 1) h2 hrest2 (arrayStore_grows hst (grows_alloc g _) ha)
    · simp only [Option.bind_eq_some] at hrest
      obtain ⟨h2, hst, hrest2⟩ := hrest
      exact ih (i + 1) h2 hrest2 (arrayStore_grows hst g ha)

theorem merge_grows {h h1 : Heap} {a b : Val} {out : Nat}
    (hs : merge h a b = some (h1, out)) : Grows h h1 := by
  simp only [merge, shallowClone, alloc, Option.bind_eq_bind, Option.bind_eq_some,
    Option.pure_def, Option.some.injEq, Prod.mk.injEq, Prod.exists] at hs
  obtain ⟨h2, o2, ⟨ks, _, h3, hcp, hh, ho⟩, ks2, _, h4, hcp2, hh4, _⟩ := hs
  subst hh ho hh4
  have g1 := copyProps_grows (Nat.le_refl _) ks _ _ hcp (grows_append h [.record []])
  exact copyProps_grows (Nat.le_refl _) ks2 _ _ hcp2 g1

theorem setState_some {raises : Raises} {s s1 : Store} {patch : Val} {tr : List Event}
    (hs : setState raises s patch = some (s1, tr)) :
    Grows s.heap s1.heap ∧ s1.listeners = s.listeners ∧
      (tr = [] ∨ tr = notify raises (getState s1) s.listeners) := by
  simp only [setState, Option.bind_eq_bind, Option.bind_eq_some, Prod.exists] at hs
  obtain ⟨h1, nextState, hm, hrest⟩ := hs
  have g := merge_grows hm
  split at hrest
  · simp only [Option.pure_def, Option.some.injEq, Prod.mk.injEq] at hrest
    obtain ⟨hs1, htr⟩ := hrest
    subst hs1
    exact ⟨g, rfl, Or.inl htr.symm⟩
  · simp only [Option.pure_def, Option.some.injEq, Prod.mk.injEq] at hrest
    obtain ⟨hs1, htr⟩ := hrest
    subst hs1
    exact ⟨g, rfl, Or.inr htr.symm⟩

/-- What holds of every action call that returns, on any store. -/
theorem act_some {raises : Raises} {s s1 : Store} {a : Action} {tr : List Event}
    (hs : act raises s a = some (s1, tr)) :
    Grows s.heap s1.heap ∧ s1.listeners = s.listeners ∧
      (tr = [] ∨ tr = notify raises (getState s1) s.listeners) := by
  cases a with
  | addTodo now text =>
    simp only [act, addTodo, alloc, Option.bind_eq_bind, Option.bind_eq_some] at hs
    obtain ⟨current, _, len, _, h3, hloop, h4, hst, hset⟩ := hs
    have g3 : Grows s.heap _ := copyLoop_grows (by simp) _ _ _ _ hloop
      (grows_trans (grows_append _ _) (grows_append _ _))
    have g4 := arrayStore_grows hst g3 (by simp)
    obtain ⟨g5, hl, ht⟩ := setState_some hset
    exact ⟨grows_trans (grows_alloc g4 _) g5, hl, ht⟩
  | toggleTodo id =>
    simp only [act, toggleTodo, alloc, Option.bind_eq_bind, Option.bind_eq_some] at hs
    obtain ⟨current, _, len, _, h2, hloop, hset⟩ := hs
    have g2 : Grows s.heap _ := toggleLoop_grows (Nat.le_refl _) _ _ _ _ hloop
      (grows_append _ _)
    obtain ⟨g5, hl, ht⟩ := setState_some hset
    exact ⟨grows_trans (grows_alloc g2 _) g5, hl, ht⟩
  | removeTodo id =>
    simp only [act, removeTodo, alloc, Option.bind_eq_bind, Option.bind_eq_some] at hs
    obtain ⟨current, _, len, _, keepCount, _, h2, hloop, hset⟩ := hs
    have g2 : Grows s.heap _ := keepLoop_grows (Nat.le_refl _) _ _ _ _ _ hloop
      (grows_append _ _)
    obtain ⟨g5, hl, ht⟩ := setState_some hset
    exact ⟨grows_trans (grows_alloc g2 _) g5, hl, ht⟩
  | toggleTheme =>
    simp only [act, toggleTheme, alloc, Option.bind_eq_bind, Option.bind_eq_some] at hs
    obtain ⟨theme, _, hset⟩ := hs
    obtain ⟨g5, hl, ht⟩ := setState_some hset
    exact ⟨grows_trans (grows_append _ _) g5, hl, ht⟩

/-- What holds of every call on the store that returns, on any store. -/
theorem step_some {raises : Raises} {s s1 : Store} {op : StoreOp} {tr : List Event}
    (hs : Store.step raises s op = some (s1, tr)) :
    Grows s.heap s1.heap ∧
      (tr = [] ∨ tr = notify raises (getState s1) s.listeners) ∧
      s1.listeners =
        (match op with
          | .subscribe fn => setAdd s.listeners fn
          | .unsubscribe fn => setDelete s.listeners fn
          | _ => s.listeners) := by
  cases op with
  | act a =>
    obtain ⟨g, hl, ht⟩ := act_some (show act raises s a = some (s1, tr) from hs)
    exact ⟨g, ht, hl⟩
  | setState fields =>
    obtain ⟨g, hl, ht⟩ := setState_some (show setState raises _ _ = some (s1, tr) from hs)
    exact ⟨grows_trans (grows_append _ _) g, ht, hl⟩
  | subscribe fn =>
    simp only [Store.step, Option.some.injEq, Prod.mk.injEq] at hs
    obtain ⟨h1, h2⟩ := hs
    subst h1
    exact ⟨grows_refl _, Or.inl h2.symm, rfl⟩
  | unsubscribe fn =>
    simp only [Store.step, Option.some.injEq, Prod.mk.injEq] at hs
    obtain ⟨h1, h2⟩ := hs
    subst h1
    exact ⟨grows_refl _, Or.inl h2.symm, rfl⟩

theorem run_grows {raises : Raises} (ops : List StoreOp) {s s1 : Store} {tr : List Event}
    (hs : Store.run raises s ops = some (s1, tr)) : Grows s.heap s1.heap := by
  induction ops generalizing s tr with
  | nil =>
    simp only [Store.run, Option.some.injEq, Prod.mk.injEq] at hs
    rw [← hs.1]
    exact grows_refl _
  | cons op t ih =>
    obtain ⟨s2, t1, t2, hstep, hrun, _⟩ := run_cons_some hs
    exact grows_trans (step_some hstep).1 (ih hrun)

/-- C19: whatever sequence of `setState`, action, subscribe and unsubscribe calls
follows, every object of the heap keeps its content: the fields of a state object
read earlier, the array its `todos` held and the items in that array read the same
in the later heap. -/
theorem snapshots_never_mutated (raises : Raises) (s : Store) (ops : List StoreOp)
    (s1 : Store) (tr : List Event)
    (hrun : Store.run raises s ops = some (s1, tr)) :
    (∀ (a : Nat) (o : Obj), s.heap[a]? = some o → s1.heap[a]? = some o) ∧
    (∀ k v, getProp s.heap (getState s) k = some v →
      getProp s1.heap (getState s) k = some v) ∧
    (∀ L, todosOf s = some L →
      todosOf { s1 with globalState := s.globalState } = some L ∧
      ∀ e ∈ L, isItem s.heap e = true →
        ∀ k, slotProp s1.heap e k = slotProp s.heap e k) := by
  have g := run_grows ops hrun
  have hpres : ∀ (a : Nat) (o : Obj), s.heap[a]? = some o → s1.heap[a]? = some o :=
    fun a o ha => grows_getElem? g ha
  refine ⟨hpres, ?_, ?_⟩
  · intro k v hv
    simp only [getProp, getState] at hv ⊢
    cases ho : s.heap[s.globalState]? with
    | none => simp [ho] at hv
    | some o =>
      rw [hpres _ _ ho]
      rw [ho] at hv
      exact hv
  · intro L hL
    obtain ⟨fs, c, hg, hv, hc⟩ := todosOf_some hL
    refine ⟨todosOf_eq _ fs c L (hpres _ _ hg) hv (hpres _ _ hc), ?_⟩
    intro e _ hitem k
    exact (slotProp_preserved hpres hitem).2 k

theorem snapshots_never_mutated_witness :
    ∃ s1 tr, Store.run quiet pairStore
        [.act (.toggleTodo (.num 5)), .setState [("theme", .str "dark"), ("todos", .null)],
          .subscribe 8, .act .toggleTheme] = some (s1, tr) ∧
      ((∀ (a : Nat) (o : Obj), pairStore.heap[a]? = some o → s1.heap[a]? = some o) ∧
      (∀ k v, getProp pairStore.heap (getState pairStore) k = some v →
        getProp s1.heap (getState pairStore) k = some v) ∧
      (∀ L, todosOf pairStore = some L →
        todosOf { s1 with globalState := pairStore.globalState } = some L ∧
        ∀ e ∈ L, isItem pairStore.heap e = true →
          ∀ k, slotProp s1.heap e k = slotProp pairStore.heap e k)) := by
  cases h : Store.run quiet pairStore
      [.act (.toggleTodo (.num 5)), .setState [("theme", .str "dark"), ("todos", .null)],
        .subscribe 8, .act .toggleTheme] with
  | none => exact absurd h (by decide)
  | some r => exact ⟨r.1, r.2, rfl, snapshots_never_mutated quiet pairStore _ r.1 r.2 h⟩

/-! ## Theorems: the subscriber set -/

theorem not_mem_setDelete {subs : List Nat} (fn : Nat) (h : subs.Nodup) :
    fn ∉ setDelete subs fn :=
  h.not_mem_erase

theorem mem_setAdd (subs : List Nat) (fn g : Nat) :
    g ∈ setAdd subs fn ↔ g = fn ∨ g ∈ subs := by
  unfold setAdd
  split
  · rename_i hmem
    constructor
    · exact fun h => Or.inr h
    · rintro (h | h)
      · rw [h]; exact hmem
      · exact h
  · simp only [List.mem_append, List.mem_singleton]
    tauto

theorem set_trace (raises : Raises) (c : Cell) (next : Next) :
    (c.set raises next).2 =
      if objectIs (c.resolve next) c.value then []
      else notify raises (c.resolve next) c.subs := by
  unfold Cell.set
  by_cases h : objectIs (c.resolve next) c.value = true <;> simp [h]

theorem callsOf_set (raises : Raises) (c : Cell) (next : Next) (g : Nat) :
    callsOf g (c.set raises next).2 =
      if objectIs (c.resolve next) c.value then []
      else List.replicate (c.subs.count g) (c.resolve next) := by
  rw [set_trace]
  by_cases h : objectIs (c.resolve next) c.value = true
  · simp [h, callsOf]
  · simp [h, callsOf_notify]

theorem stepTrace_absent (raises : Raises) (c : Cell) (op : CellOp) (fn : Nat)
    (habs : fn ∉ c.subs) (hop : op.subscribes fn = false) :
    callsOf fn (c.stepTrace raises op).2 = [] ∧ fn ∉ (c.stepTrace raises op).1.subs := by
  cases op with
  | set next =>
    simp only [Cell.stepTrace, set_subs]
    refine ⟨?_, habs⟩
    rw [callsOf_set]
    simp [List.count_eq_zero_of_not_mem habs]
  | subscribe g =>
    have hg : g ≠ fn := by simpa [CellOp.subscribes] using hop
    refine ⟨rfl, ?_⟩
    simp only [Cell.stepTrace, Cell.subscribe, mem_setAdd]
    rintro (h | h)
    · exact hg h.symm
    · exact habs h
  | unsubscribe g =>
    refine ⟨rfl, ?_⟩
    simp only [Cell.stepTrace, Cell.unsubscribe, setDelete]
    exact fun h => habs (List.mem_of_mem_erase h)

theorem runTrace_absent (raises : Raises) (ops : List CellOp) (c : Cell) (fn : Nat)
    (habs : fn ∉ c.subs) (hops : ∀ op ∈ ops, op.subscribes fn = false) :
    callsOf fn (Cell.runTrace raises c ops).2 = [] := by
  induction ops generalizing c with
  | nil => rfl
  | cons op t ih =>
    obtain ⟨h1, h2⟩ := stepTrace_absent raises c op fn habs (hops op (List.mem_cons_self _ _))
    simp only [Cell.runTrace, callsOf_append, h1, List.nil_append]
    exact ih _ h2 (fun x hx => hops x (List.mem_cons_of_mem _ hx))

theorem run_absent {raises : Raises} (ops : List StoreOp) {s s1 : Store} {tr : List Event}
    (fn : Nat) (habs : fn ∉ s.listeners) (hops : ∀ op ∈ ops, op ≠ .subscribe fn)
    (hrun : Store.run raises s ops = some (s1, tr)) : callsOf fn tr = [] := by
  induction ops generalizing s tr with
  | nil =>
    simp only [Store.run, Option.some.injEq, Prod.mk.injEq] at hrun
    rw [← hrun.2]
    rfl
  | cons op t ih =>
    obtain ⟨s2, t1, t2, hstep, hrest, htr⟩ := run_cons_some hrun
    obtain ⟨_, ht1, hls⟩ := step_some hstep
    have hop := hops op (List.mem_cons_self _ _)
    have h1 : callsOf fn t1 = [] := by
      rcases ht1 with h | h
      · rw [h]; rfl
      · rw [h, callsOf_notify, List.count_eq_zero_of_not_mem habs]; rfl
    have h2 : fn ∉ s2.listeners := by
      rw [hls]
      cases op with
      | act a => exact habs
      | setState fields => exact habs
      | subscribe g =>
        have hg : g ≠ fn := fun e => hop (by rw [e])
        simp only [mem_setAdd]
        rintro (h | h)
        · exact hg h.symm
        · exact habs h
      | unsubscribe g =>
        exact fun h => habs (List.mem_of_mem_erase h)
    rw [htr, callsOf_append, h1, List.nil_append]
    exact ih h2 (fun x hx => hops x (List.mem_cons_of_mem _ hx)) hrest

theorem setAdd_count (subs : List Nat) (fn : Nat) (h : subs.Nodup) :
    (setAdd subs fn).count fn = 1 :=
  List.count_eq_one_of_mem (setAdd_nodup fn h) ((mem_setAdd subs fn fn).mpr (Or.inl rfl))

/-- C15: once the closure returned by `subscribe(fn)` (or `subscribeToState(fn)`) has
been called, no later call invokes `fn` as long as `fn` is not subscribed again,
every other callback is notified by `set` (or `setState`) exactly as it would have
been, and subscribing `fn` again makes the next change notify it once. -/
theorem unsubscribed_not_notified (raises : Raises)
    (v0 : Val) (ops0 later : List CellOp) (fn : Nat)
    (s s1 : Store) (sops : List StoreOp) (tr : List Event) (p : Nat)
    (fs ps : List (String × Val))
    (hlater : ∀ op ∈ later, op.subscribes fn = false)
    (hset : s.listeners.Nodup)
    (hg : s.heap[s.globalState]? = some (.record fs))
    (hp : s.heap[p]? = some (.record ps))
    (hsops : ∀ op ∈ sops, op ≠ .subscribe fn)
    (hrun : Store.run raises (unsubscribeFromState s fn) sops = some (s1, tr)) :
    (let c := Cell.run raises (createState v0) ops0
     callsOf fn (Cell.runTrace raises (c.unsubscribe fn) later).2 = [] ∧
     (∀ g next, g ≠ fn →
       callsOf g ((c.unsubscribe fn).set raises next).2 = callsOf g (c.set raises next).2) ∧
     (∀ next, objectIs (c.resolve next) c.value = false →
       callsOf fn (((c.unsubscribe fn).subscribe fn).set raises next).2 =
         [c.resolve next])) ∧
    callsOf fn tr = [] ∧
    (∀ g, g ≠ fn → ∃ sa ta sb tb,
      setState raises (unsubscribeFromState s fn) (.ref p) = some (sa, ta) ∧
      setState raises s (.ref p) = some (sb, tb) ∧ callsOf g ta = callsOf g tb) ∧
    (∃ sa ta,
      setState raises (subscribeToState (unsubscribeFromState s fn) fn) (.ref p) =
        some (sa, ta) ∧
      callsOf fn ta = [getState sa]) := by
  refine ⟨?_, ?_, ?_, ?_⟩
  · intro c
    have hnd : c.subs.Nodup := run_nodup raises ops0 (createState v0) List.nodup_nil
    refine ⟨?_, ?_, ?_⟩
    · exact runTrace_absent raises later (c.unsubscribe fn) fn (not_mem_setDelete fn hnd)
        hlater
    · intro g next hne
      rw [callsOf_set, callsOf_set]
      simp [Cell.unsubscribe, Cell.resolve, setDelete, List.count_erase_of_ne hne]
    · intro next hch
      rw [callsOf_set]
      have hres : ((c.unsubscribe fn).subscribe fn).resolve next = c.resolve next := by
        cases next <;> rfl
      have hval : ((c.unsubscribe fn).subscribe fn).value = c.value := rfl
      rw [hres, hval, hch]
      simp [Cell.subscribe, Cell.unsubscribe, setAdd_count _ fn (setDelete_nodup fn hnd)]
  · exact run_absent sops fn (not_mem_setDelete fn hset) hsops hrun
  · intro g hne
    refine ⟨_, _, _, _, setState_eq raises (unsubscribeFromState s fn) p fs ps hg hp,
      setState_eq raises s p fs ps hg hp, ?_⟩
    simp [callsOf_notify, unsubscribeFromState, setDelete, List.count_erase_of_ne hne]
  · refine ⟨_, _, setState_eq raises (subscribeToState (unsubscribeFromState s fn) fn)
      p fs ps hg hp, ?_⟩
    simp [callsOf_notify, subscribeToState, unsubscribeFromState, getState,
      setAdd_count _ fn (setDelete_nodup fn hset)]

theorem unsubscribed_not_notified_witness :
    ∃ s1 tr,
      ((∀ op ∈ laterCalls, op.subscribes 3 = false) ∧ patchDemo.listeners.Nodup ∧
        patchDemo.heap[patchDemo.globalState]? =
          some (.record [("theme", .str "light"), ("todos", .ref 0)]) ∧
        patchDemo.heap[2]? = some (.record [("theme", .str "dark"), ("user", .null)]) ∧
        (∀ op ∈ laterStoreCalls, op ≠ .subscribe 3) ∧
        Store.run quiet (unsubscribeFromState patchDemo 3) laterStoreCalls = some (s1, tr)) ∧
      ((let c := Cell.run quiet (createState (.num 0)) [.subscribe 3, .subscribe 5]
       callsOf 3 (Cell.runTrace quiet (c.unsubscribe 3) laterCalls).2 = [] ∧
       (∀ g next, g ≠ 3 →
         callsOf g ((c.unsubscribe 3).set quiet next).2 = callsOf g (c.set quiet next).2) ∧
       (∀ next, objectIs (c.resolve next) c.value = false →
         callsOf 3 (((c.unsubscribe 3).subscribe 3).set quiet next).2 =
           [c.resolve next])) ∧
      callsOf 3 tr = [] ∧
      (∀ g, g ≠ 3 → ∃ sa ta sb tb,
        setState quiet (unsubscribeFromState patchDemo 3) (.ref 2) = some (sa, ta) ∧
        setState quiet patchDemo (.ref 2) = some (sb, tb) ∧ callsOf g ta = callsOf g tb) ∧
      (∃ sa ta,
        setState quiet (subscribeToState (unsubscribeFromState patchDemo 3) 3) (.ref 2) =
          some (sa, ta) ∧
        callsOf 3 ta = [getState sa])) := by
  cases h : Store.run quiet (unsubscribeFromState patchDemo 3) laterStoreCalls with
  | none => exact absurd h (by decide)
  | some r =>
    exact ⟨r.1, r.2, ⟨by decide, by decide, by decide, by decide, by decide, rfl⟩,
      unsubscribed_not_notified quiet (.num 0) [.subscribe 3, .subscribe 5] laterCalls 3
        patchDemo r.1 laterStoreCalls r.2 2 [("theme", .str "light"), ("todos", .ref 0)]
        [("theme", .str "dark"), ("user", .null)]
        (by decide) (by decide) (by decide) (by decide) (by decide) h⟩

/-- C16: calling the closure returned by `subscribe(fn)` (or `subscribeToState(fn)`)
twice leaves exactly the subscriber set, in the same order, that calling it once
leaves; the closure is a total function (`Set.delete` never raises). -/
theorem unsubscribe_idempotent (raises : Raises) (v0 : Val) (ops : List CellOp) (fn : Nat)
    (s : Store) (hset : s.listeners.Nodup) :
    ((Cell.run raises (createState v0) ops).unsubscribe fn).unsubscribe fn =
      (Cell.run raises (createState v0) ops).unsubscribe fn ∧
    unsubscribeFromState (unsubscribeFromState s fn) fn = unsubscribeFromState s fn := by
  have hnd : (Cell.run raises (createState v0) ops).subs.Nodup :=
    run_nodup raises ops (createState v0) List.nodup_nil
  constructor
  · simp only [Cell.unsubscribe, setDelete]
    rw [List.erase_of_not_mem hnd.not_mem_erase]
  · simp only [unsubscribeFromState, setDelete]
    rw [List.erase_of_not_mem hset.not_mem_erase]

theorem unsubscribe_idempotent_witness :
    patchDemo.listeners.Nodup ∧
    ((Cell.run quiet (createState (.num 0)) [.subscribe 3, .subscribe 5, .subscribe 3]
        ).unsubscribe 3).unsubscribe 3 =
      (Cell.run quiet (createState (.num 0)) [.subscribe 3, .subscribe 5, .subscribe 3]
        ).unsubscribe 3 ∧
    unsubscribeFromState (unsubscribeFromState patchDemo 3) 3 =
      unsubscribeFromState patchDemo 3 :=
  ⟨by decide, unsubscribe_idempotent quiet (.num 0) [.subscribe 3, .subscribe 5, .subscribe 3]
    3 patchDemo (by decide)⟩

theorem notify_append (raises : Raises) (value : Val) (l1 l2 : List Nat) :
    notify raises value (l1 ++ l2) = notify raises value l1 ++ notify raises value l2 := by
  induction l1 with
  | nil => rfl
  | cons f t ih => simp [notify, ih]

theorem notify_cons (raises : Raises) (value : Val) (f : Nat) (rest : List Nat) :
    ∃ ef, notify raises value (f :: rest) =
      Event.call f value :: (ef ++ notify raises value rest) := by
  cases hr : raises f value with
  | none => exact ⟨[], by simp [notify, hr]⟩
  | some e => exact ⟨[Event.error e], by simp [notify, hr]⟩

theorem calledFns_append (t1 t2 : List Event) :
    calledFns (t1 ++ t2) = calledFns t1 ++ calledFns t2 := by
  induction t1 with
  | nil => rfl
  | cons e t ih => cases e <;> simp [calledFns, ih]

theorem calledFns_notify (raises : Raises) (value : Val) (subs : List Nat) :
    calledFns (notify raises value subs) = subs := by
  induction subs with
  | nil => rfl
  | cons f t ih =>
    simp only [notify, calledFns_append, ih]
    cases hr : raises f value <;> simp [calledFns]

theorem invokedBefore_notify (raises : Raises) (value : Val) (subs : List Nat) (f g : Nat)
    (h : registeredBefore f g subs) : invokedBefore f g (notify raises value subs) := by
  obtain ⟨l1, l2, l3, rfl⟩ := h
  obtain ⟨ef, hf⟩ := notify_cons raises value f (l2 ++ g :: l3)
  obtain ⟨eg, hg⟩ := notify_cons raises value g l3
  refine ⟨notify raises value l1, ef ++ notify raises value l2,
    eg ++ notify raises value l3, value, value, ?_⟩
  rw [notify_append, hf, notify_append, hg]
  simp

/-- C17: on a change `set` invokes the subscribers in the order in which the set
holds them, which is the order of subscription (a new callback is appended, a
removed one leaves the order of the others); `setState` does the same with the
listeners. Hence a callback registered before another is invoked before it. -/
theorem notified_in_subscription_order (raises : Raises) (c : Cell) (next : Next)
    (s : Store) (p : Nat) (fs ps : List (String × Val))
    (hne : objectIs (c.resolve next) c.value = false)
    (hg : s.heap[s.globalState]? = some (.record fs))
    (hp : s.heap[p]? = some (.record ps)) :
    (calledFns (c.set raises next).2 = c.subs ∧
      (∀ f g, registeredBefore f g c.subs → invokedBefore f g (c.set raises next).2) ∧
      (∀ fn, fn ∉ c.subs → (c.subscribe fn).subs = c.subs ++ [fn]) ∧
      (∀ fn, ((c.unsubscribe fn).subs).Sublist c.subs)) ∧
    (∃ s1 tr, setState raises s (.ref p) = some (s1, tr) ∧
      calledFns tr = s.listeners ∧
      (∀ f g, registeredBefore f g s.listeners → invokedBefore f g tr) ∧
      (∀ fn, fn ∉ s.listeners → (subscribeToState s fn).listeners = s.listeners ++ [fn]) ∧
      (∀ fn, ((unsubscribeFromState s fn).listeners).Sublist s.listeners)) := by
  have h : (c.set raises next).2 = notify raises (c.resolve next) c.subs := by
    rw [set_trace]
    simp [hne]
  constructor
  · rw [h]
    refine ⟨calledFns_notify _ _ _, fun f g hfg => invokedBefore_notify _ _ _ f g hfg,
      ?_, fun fn => List.erase_sublist fn c.subs⟩
    intro fn hfn
    simp [Cell.subscribe, setAdd, hfn]
  · refine ⟨_, _, setState_eq raises s p fs ps hg hp, calledFns_notify _ _ _,
      fun f g hfg => invokedBefore_notify _ _ _ f g hfg, ?_,
      fun fn => List.erase_sublist fn s.listeners⟩
    intro fn hfn
    simp [subscribeToState, setAdd, hfn]

theorem notified_in_subscription_order_witness :
    objectIs (({ value := .num 0, subs := [5, 3, 8] } : Cell).resolve (.value (.num 1)))
      ({ value := .num 0, subs := [5, 3, 8] } : Cell).value = false ∧
    patchDemo.heap[patchDemo.globalState]? =
      some (.record [("theme", .str "light"), ("todos", .ref 0)]) ∧
    patchDemo.heap[2]? = some (.record [("theme", .str "dark"), ("user", .null)]) ∧
    ((calledFns (({ value := .num 0, subs := [5, 3, 8] } : Cell).set boom
          (.value (.num 1))).2 = [5, 3, 8] ∧
      (∀ f g, registeredBefore f g [5, 3, 8] →
        invokedBefore f g (({ value := .num 0, subs := [5, 3, 8] } : Cell).set boom
          (.value (.num 1))).2) ∧
      (∀ fn, fn ∉ [5, 3, 8] →
        (({ value := .num 0, subs := [5, 3, 8] } : Cell).subscribe fn).subs =
          [5, 3, 8] ++ [fn]) ∧
      (∀ fn, ((({ value := .num 0, subs := [5, 3, 8] } : Cell).unsubscribe fn).subs).Sublist
        [5, 3, 8])) ∧
    (∃ s1 tr, setState boom patchDemo (.ref 2) = some (s1, tr) ∧
      calledFns tr = patchDemo.listeners ∧
      (∀ f g, registeredBefore f g patchDemo.listeners → invokedBefore f g tr) ∧
      (∀ fn, fn ∉ patchDemo.listeners →
        (subscribeToState patchDemo fn).listeners = patchDemo.listeners ++ [fn]) ∧
      (∀ fn, ((unsubscribeFromState patchDemo fn).listeners).Sublist patchDemo.listeners))) :=
  ⟨by decide, by decide, by decide,
    notified_in_subscription_order boom { value := .num 0, subs := [5, 3, 8] }
      (.value (.num 1)) patchDemo 2 [("theme", .str "light"), ("todos", .ref 0)]
      [("theme", .str "dark"), ("user", .null)] (by decide) (by decide) (by decide)⟩

theorem setAdd_idem (subs : List Nat) (fn : Nat) :
    setAdd (setAdd subs fn) fn = setAdd subs fn := by
  have hmem : fn ∈ setAdd subs fn := (mem_setAdd subs fn fn).mpr (Or.inl rfl)
  have h : ∀ l : List Nat, fn ∈ l → setAdd l fn = l := by
    intro l hl
    unfold setAdd
    simp [hl]
  exact h _ hmem

theorem subscribe_iterate (c : Cell) (fn : Nat) (k : Nat) :
    (fun x => Cell.subscribe x fn)^[k + 1] c = c.subscribe fn := by
  induction k with
  | zero => rfl
  | succ k ih =>
    rw [Function.iterate_succ_apply', ih]
    simp [Cell.subscribe, setAdd_idem]

theorem subscribeToState_iterate (s : Store) (fn : Nat) (k : Nat) :
    (fun x => subscribeToState x fn)^[k + 1] s = subscribeToState s fn := by
  induction k with
  | zero => rfl
  | succ k ih =>
    rw [Function.iterate_succ_apply', ih]
    simp [subscribeToState, setAdd_idem]

/-- C20: the subscriber set holds no duplicates. Subscribing the same callback
`k ≥ 1` times leaves the set that subscribing it once leaves, with `fn` in it once;
a change then invokes `fn` exactly once, and one call of the closure that any of
the `k` `subscribe` calls returned (they all delete `fn`) removes it entirely. -/
theorem subscribe_many_single_registration (raises : Raises) (v0 : Val)
    (ops : List CellOp) (fn k : Nat) (s : Store) (p : Nat) (fs ps : List (String × Val))
    (hk : 1 ≤ k)
    (hset : s.listeners.Nodup)
    (hg : s.heap[s.globalState]? = some (.record fs))
    (hp : s.heap[p]? = some (.record ps)) :
    (let c := Cell.run raises (createState v0) ops
     let ck := (fun x => Cell.subscribe x fn)^[k] c
     ck = c.subscribe fn ∧ ck.subs.Nodup ∧ ck.subs.count fn = 1 ∧
     (∀ next, objectIs (ck.resolve next) ck.value = false →
       callsOf fn (ck.set raises next).2 = [ck.resolve next]) ∧
     fn ∉ (ck.unsubscribe fn).subs) ∧
    (let sk := (fun x => subscribeToState x fn)^[k] s
     sk = subscribeToState s fn ∧ sk.listeners.Nodup ∧ sk.listeners.count fn = 1 ∧
     (∃ s1 tr, setState raises sk (.ref p) = some (s1, tr) ∧ callsOf fn tr = [getState s1]) ∧
     fn ∉ (unsubscribeFromState sk fn).listeners) := by
  obtain ⟨j, rfl⟩ : ∃ j, k = j + 1 := ⟨k - 1, by omega⟩
  constructor
  · intro c ck
    have hnd : c.subs.Nodup := run_nodup raises ops (createState v0) List.nodup_nil
    have hck : ck = c.subscribe fn := subscribe_iterate c fn j
    have hnd2 : (c.subscribe fn).subs.Nodup := setAdd_nodup fn hnd
    rw [hck]
    refine ⟨rfl, hnd2, setAdd_count _ fn hnd, ?_, not_mem_setDelete fn hnd2⟩
    intro next hch
    rw [callsOf_set, hch]
    simp [Cell.subscribe, setAdd_count _ fn hnd]
  · intro sk
    have hsk : sk = subscribeToState s fn := subscribeToState_iterate s fn j
    have hnd2 : (subscribeToState s fn).listeners.Nodup := setAdd_nodup fn hset
    rw [hsk]
    refine ⟨rfl, hnd2, setAdd_count _ fn hset, ?_, not_mem_setDelete fn hnd2⟩
    refine ⟨_, _, setState_eq raises (subscribeToState s fn) p fs ps hg hp, ?_⟩
    simp [callsOf_notify, subscribeToState, getState, setAdd_count _ fn hset]

theorem subscribe_many_single_registration_witness :
    1 ≤ 3 ∧ patchDemo.listeners.Nodup ∧
    patchDemo.heap[patchDemo.globalState]? =
      some (.record [("theme", .str "light"), ("todos", .ref 0)]) ∧
    patchDemo.heap[2]? = some (.record [("theme", .str "dark"), ("user", .null)]) ∧
    (let c := Cell.run quiet (createState (.num 0)) [.subscribe 5]
     let ck := (fun x => Cell.subscribe x 7)^[3] c
     ck = c.subscribe 7 ∧ ck.subs.Nodup ∧ ck.subs.count 7 = 1 ∧
     (∀ next, objectIs (ck.resolve next) ck.value = false →
       callsOf 7 (ck.set quiet next).2 = [ck.resolve next]) ∧
     7 ∉ (ck.unsubscribe 7).subs) ∧
    (let sk := (fun x => subscribeToState x 7)^[3] patchDemo
     sk = subscribeToState patchDemo 7 ∧ sk.listeners.Nodup ∧ sk.listeners.count 7 = 1 ∧
     (∃ s1 tr, setState quiet sk (.ref 2) = some (s1, tr) ∧ callsOf 7 tr = [getState s1]) ∧
     7 ∉ (unsubscribeFromState sk 7).listeners) :=
  ⟨by decide, by decide, by decide, by decide,
    subscribe_many_single_registration quiet (.num 0) [.subscribe 5] 7 3 patchDemo 2
      [("theme", .str "light"), ("todos", .ref 0)] [("theme", .str "dark"), ("user", .null)]
      (by decide) (by decide) (by decide) (by decide)⟩

/-! ## Theorems: two cells -/

theorem callsOf_stepTrace_absent (raises : Raises) (c : Cell) (op : CellOp) (fn : Nat)
    (habs : fn ∉ c.subs) : callsOf fn (c.stepTrace raises op).2 = [] := by
  cases op with
  | set next =>
    simp only [Cell.stepTrace]
    rw [callsOf_set]
    simp [List.count_eq_zero_of_not_mem habs]
  | subscribe g => rfl
  | unsubscribe g => rfl

/-- C18 fails as stated: two cells are created by two `createState` calls and the
same callback 7 is subscribed to both; `set(1)` on the first cell invokes 7, which is
one of the second cell's subscribers. -/
theorem shared_subscriber_counterexample :
    (callCell quiet (callCell quiet (newCell (newCell [] (.num 0)).1 (.num 0)).1 0
        (.subscribe 7)).1 1 (.subscribe 7)).1 = sharedCells ∧
    sharedCells[1]? = some { value := .num 0, subs := [7] } ∧
    7 ∈ ({ value := .num 0, subs := [7] } : Cell).subs ∧
    (callCell quiet sharedCells 0 (.set (.value (.num 1)))).2 = [Event.call 7 (.num 1)] ∧
    callsOf 7 (callCell quiet sharedCells 0 (.set (.value (.num 1)))).2 ≠ [] := by
  decide

/-- C18 (amended): a call (`set`, `subscribe`, `unsubscribe`) on one cell leaves every
other cell as it was, value and subscriber set, and invokes no callback that is not
subscribed to the cell called: a subscriber of another cell alone is never invoked. -/
theorem cells_isolated (raises : Raises) (w : Cells) (i j : Nat) (op : CellOp)
    (hij : i ≠ j) :
    (callCell raises w i op).1[j]? = w[j]? ∧
    (callCell raises w i op).1.length = w.length ∧
    (∀ fn, (∀ ci, w[i]? = some ci → fn ∉ ci.subs) →
      callsOf fn (callCell raises w i op).2 = []) := by
  unfold callCell
  cases hc : w[i]? with
  | none => exact ⟨rfl, rfl, fun _ _ => rfl⟩
  | some c =>
    refine ⟨?_, by simp, ?_⟩
    · simp only
      rw [List.getElem?_set_ne hij]
    · intro fn hfn
      exact callsOf_stepTrace_absent raises c op fn (hfn c rfl)

theorem cells_isolated_witness :
    (0 : Nat) ≠ 1 ∧
    (callCell quiet [{ value := .num 0, subs := [7] }, { value := .num 0, subs := [8] }] 0
        (.set (.value (.num 1)))).1[1]? =
      [({ value := .num 0, subs := [7] } : Cell), { value := .num 0, subs := [8] }][1]? ∧
    (callCell quiet [{ value := .num 0, subs := [7] }, { value := .num 0, subs := [8] }] 0
        (.set (.value (.num 1)))).1.length =
      [({ value := .num 0, subs := [7] } : Cell), { value := .num 0, subs := [8] }].length ∧
    (∀ fn, (∀ ci,
        [({ value := .num 0, subs := [7] } : Cell), { value := .num 0, subs := [8] }][0]? =
          some ci → fn ∉ ci.subs) →
      callsOf fn (callCell quiet
        [{ value := .num 0, subs := [7] }, { value := .num 0, subs := [8] }] 0
        (.set (.value (.num 1)))).2 = []) :=
  ⟨by decide, cells_isolated quiet
    [{ value := .num 0, subs := [7] }, { value := .num 0, subs := [8] }] 0 1
    (.set (.value (.num 1))) (by decide)⟩

/-! ## Theorems: the theme -/

theorem strictEq_str (v : Val) (t : String) : strictEq v (.str t) = decide (v = .str t) := by
  cases v <;> simp [strictEq]

theorem flipTheme_eq (v : Val) :
    flipTheme v = if v = .str "light" then .str "dark" else .str "light" := by
  simp [flipTheme, strictEq_str]

/-- C21: on every store, whatever value `theme` holds (also none, or one that
`setState` installed), `toggleTheme()` succeeds and sets `theme` to `dark` when it
was `light` and to `light` otherwise; hence after any sequence of actions from the
initial store the theme is `light` or `dark`. -/
theorem toggleTheme_two_valued (raises : Raises) (s : Store) (fs : List (String × Val))
    (acts : List Action)
    (hg : s.heap[s.globalState]? = some (.record fs)) :
    (∃ s1 tr, toggleTheme raises s = some (s1, tr) ∧
      themeOf s1 = some (if themeOf s = some (.str "light") then .str "dark"
        else .str "light")) ∧
    (∃ s2 tr2, Store.run raises initialStore (acts.map StoreOp.act) = some (s2, tr2) ∧
      (themeOf s2 = some (.str "light") ∨ themeOf s2 = some (.str "dark"))) := by
  constructor
  · refine ⟨_, _, toggleTheme_eq raises s fs hg, ?_⟩
    have h0 : themeOf s = some ((fs.lookup "theme").getD .undefined) :=
      getProp_record _ _ _ hg _
    have hidx : (s.heap ++ ([] ++
        [.record [("theme", flipTheme ((fs.lookup "theme").getD .undefined))],
         .record (mergeFields fs
           [("theme", flipTheme ((fs.lookup "theme").getD .undefined))])]))[
        s.heap.length + (([] : List Obj).length + 1)]? =
        some (.record (mergeFields fs
          [("theme", flipTheme ((fs.lookup "theme").getD .undefined))])) := by
      rw [getElem?_ext]
      rfl
    have h1 := getProp_record _ _ _ hidx "theme"
    simp only [themeOf, getState] at h0 ⊢
    rw [h1, lookup_mergeFields _ _ _ (by decide)]
    simp [h0, List.lookup, flipTheme_eq]
  · obtain ⟨s2, tr2, hrun, _, _, _, hth⟩ := run_actions raises acts initialStore (by decide)
    refine ⟨s2, tr2, hrun, ?_⟩
    have h0 : themeOf initialStore = some (.str "light") := by decide
    rw [hth, h0, Option.map_some', flipTheme_iterate]
    by_cases h : toggleCount acts % 2 = 0 <;> simp [h]

theorem toggleTheme_two_valued_witness :
    setStateLit quiet initialStore [("theme", .str "blue")] = some (blueStore, []) ∧
    blueStore.heap[blueStore.globalState]? =
      some (.record [("theme", .str "blue"), ("todos", .ref 0)]) ∧
    (∃ s1 tr, toggleTheme quiet blueStore = some (s1, tr) ∧
      themeOf s1 = some (if themeOf blueStore = some (.str "light") then .str "dark"
        else .str "light")) ∧
    (∃ s2 tr2, Store.run quiet initialStore
        ([Action.toggleTheme, .addTodo 5 (.str "a"), .toggleTheme, .toggleTheme].map
          StoreOp.act) = some (s2, tr2) ∧
      (themeOf s2 = some (.str "light") ∨ themeOf s2 = some (.str "dark"))) :=
  ⟨by decide, by decide,
    toggleTheme_two_valued quiet blueStore [("theme", .str "blue"), ("todos", .ref 0)]
      [Action.toggleTheme, .addTodo 5 (.str "a"), .toggleTheme, .toggleTheme] (by decide)⟩

/-! ## Theorems: the no-change test of `set` -/

theorem objectIs_vs_strictEq (a b : Val) :
    objectIs a b = strictEq a b ∨ (a = .nan ∧ b = .nan) ∨
      (a = .num 0 ∧ b = .negZero) ∨ (a = .negZero ∧ b = .num 0) := by
  cases a <;> cases b <;> simp [objectIs, strictEq]
  all_goals
    rename_i n
    by_cases hn : n = 0
    · subst hn
      simp
    · left
      split <;> simp_all

/-- C23 fails as stated: `NaN === NaN` is false, yet `set(NaN)` on a cell holding
`NaN` stores nothing and invokes nobody; `-0 === +0` is true, yet `set(-0)` on a cell
holding `+0` stores `-0` and invokes the subscriber. -/
theorem set_strict_equality_counterexample :
    strictEq .nan .nan = false ∧
    ({ value := .nan, subs := [7] } : Cell).set quiet (.value .nan) =
      ({ value := .nan, subs := [7] }, []) ∧
    strictEq .negZero (.num 0) = true ∧
    ({ value := .num 0, subs := [7] } : Cell).set quiet (.value .negZero) =
      ({ value := .negZero, subs := [7] }, [Event.call 7 .negZero]) := by
  decide

/-- C23 (amended): `set(b)` on a cell holding `a` is a no-op (same cell, nobody
invoked) exactly when `Object.is(b, a)`; this is the answer of `b === a` for all
values but two cases: `NaN` over `NaN` is a no-op, and `-0` over `+0` (or `+0` over
`-0`) is a change. -/
theorem set_noop_iff_objectIs (raises : Raises) (c : Cell) (b : Val) :
    (c.set raises (.value b) = (c, []) ↔ objectIs b c.value = true) ∧
    (objectIs b c.value = strictEq b c.value ∨ (b = .nan ∧ c.value = .nan) ∨
      (b = .num 0 ∧ c.value = .negZero) ∨ (b = .negZero ∧ c.value = .num 0)) ∧
    objectIs .nan .nan = true ∧ objectIs .negZero (.num 0) = false ∧
    objectIs (.num 0) .negZero = false := by
  refine ⟨?_, objectIs_vs_strictEq b c.value, by decide, by decide, by decide⟩
  constructor
  · intro h
    by_cases ho : objectIs b c.value = true
    · exact ho
    · have h2 : c.set raises (.value b) =
          ({ c with value := b }, notify raises b c.subs) := by
        unfold Cell.set
        simp [Cell.resolve, ho]
      rw [h2] at h
      have h3 : ({ c with value := b } : Cell) = c := (Prod.mk.inj h).1
      have h4 : b = c.value := by
        have := congrArg Cell.value h3
        simpa using this
      simp [objectIs, h4] at ho
  · intro ho
    unfold Cell.set
    simp [Cell.resolve, ho]

/-! ## Theorems: what an action leaves alone, and composition of patches -/

/-- No state object has an own property `__proto__`: the initial one is a literal
without it, and the object that `setState` installs is built by `merge`, which
never adds that key. -/
theorem state_has_no_proto_key (raises : Raises) (s : Store) (p : Nat)
    (fs ps : List (String × Val)) (a : Action)
    (hg : s.heap[s.globalState]? = some (.record fs))
    (hp : s.heap[p]? = some (.record ps)) :
    "__proto__" ∉ keysOf initialStore.heap (getState initialStore) ∧
    (∃ s1 tr, setState raises s (.ref p) = some (s1, tr) ∧
      "__proto__" ∉ keysOf s1.heap (getState s1)) ∧
    (wellFormed s = true → ∃ s1 tr, act raises s a = some (s1, tr) ∧
      "__proto__" ∉ keysOf s1.heap (getState s1)) := by
  refine ⟨by decide, ⟨_, _, setState_eq raises s p fs ps hg hp, ?_⟩, ?_⟩
  · intro h
    have h2 : "__proto__" ∈ (mergeFields fs ps).map Prod.fst := by
      simpa [keysOf, objectKeys, getState] using h
    exact ((keys_mergeFields fs ps _).mp h2).1 rfl
  · intro hwf
    obtain ⟨s1, tr, fs1, ps1, hact, _, _, hg1, _⟩ := act_summary raises s a hwf
    refine ⟨s1, tr, hact, ?_⟩
    intro h
    have h2 : "__proto__" ∈ (mergeFields fs1 ps1).map Prod.fst := by
      simpa [keysOf, objectKeys, getState, hg1] using h
    exact ((keys_mergeFields fs1 ps1 _).mp h2).1 rfl

/-- C24: every action on a well-formed store succeeds and writes one key only:
after `addTodo`, `toggleTodo` or `removeTodo` every top-level key other than `todos`
(so `theme`) holds the value it held, after `toggleTheme` every key other than
`theme` does (so `todos` holds the very same array); no other key appears or
disappears. The state object has no own property `__proto__`, as every state object
of the store (`state_has_no_proto_key`). -/
theorem action_writes_one_key (raises : Raises) (s : Store) (a : Action)
    (hwf : wellFormed s = true)
    (hproto : "__proto__" ∉ keysOf s.heap (getState s)) :
    ∃ s1 tr, act raises s a = some (s1, tr) ∧
      (∀ k, k ≠ (if a = .toggleTheme then "theme" else "todos") →
        getProp s1.heap (getState s1) k = getProp s.heap (getState s) k ∧
        (k ∈ keysOf s1.heap (getState s1) ↔ k ∈ keysOf s.heap (getState s))) := by
  obtain ⟨s1, tr, fs, ps, hact, _, hg, hg1, hcase, _, _, _, _⟩ := act_summary raises s a hwf
  refine ⟨s1, tr, hact, ?_⟩
  intro k hk
  have hfs : "__proto__" ∉ fs.map Prod.fst := by
    simpa [keysOf, objectKeys, getState, hg] using hproto
  have hkeys : k ∉ ps.map Prod.fst := by
    rcases hcase with ⟨ha, hps⟩ | ⟨ha, r, hps⟩
    · simp only [ha, if_true] at hk
      simpa [hps] using hk
    · simp only [ha, if_false] at hk
      simpa [hps] using hk
  constructor
  · simp only [getState]
    rw [getProp_record _ _ _ hg1, getProp_record _ _ _ hg]
    by_cases hp : k = "__proto__"
    · subst hp
      rw [lookup_mergeFields_proto, lookup_none_of_not_mem_keys fs _ hfs]
    · rw [lookup_mergeFields _ _ _ hp]
      simp [hkeys]
  · have hm := keys_mergeFields fs ps k
    simp only [keysOf, objectKeys, getState, hg1, hg, Option.getD_some]
    rw [hm]
    constructor
    · rintro ⟨_, h | h⟩
      · exact h
      · exact absurd h hkeys
    · intro h
      exact ⟨fun e => hfs (e ▸ h), Or.inl h⟩

theorem action_writes_one_key_witness :
    wellFormed pairStore = true ∧
    "__proto__" ∉ keysOf pairStore.heap (getState pairStore) ∧
    ∃ s1 tr, act quiet pairStore (.toggleTodo (.num 5)) = some (s1, tr) ∧
      (∀ k, k ≠ (if Action.toggleTodo (.num 5) = .toggleTheme then "theme" else "todos") →
        getProp s1.heap (getState s1) k = getProp pairStore.heap (getState pairStore) k ∧
        (k ∈ keysOf s1.heap (getState s1) ↔
          k ∈ keysOf pairStore.heap (getState pairStore))) :=
  ⟨by decide, by decide,
    action_writes_one_key quiet pairStore (.toggleTodo (.num 5)) (by decide) (by decide)⟩

/-- C26: `setState(p1)` followed by `setState(p2)` leaves a state object with the
same keys and the same value under every key as the single call
`setState(merge(p1, p2))`; in particular a second `setState(p1)` right after the
first leaves the content of the state as it is. -/
theorem setState_composes (raises : Raises) (s : Store) (p1 p2 : Nat)
    (fs ps1 ps2 : List (String × Val))
    (hg : s.heap[s.globalState]? = some (.record fs))
    (hp1 : s.heap[p1]? = some (.record ps1))
    (hp2 : s.heap[p2]? = some (.record ps2)) :
    ∃ sa ta sb tb h m sc tc sd td,
      setState raises s (.ref p1) = some (sa, ta) ∧
      setState raises sa (.ref p2) = some (sb, tb) ∧
      merge s.heap (.ref p1) (.ref p2) = some (h, m) ∧
      setState raises { s with heap := h } (.ref m) = some (sc, tc) ∧
      setState raises sa (.ref p1) = some (sd, td) ∧
      (∀ k, getProp sb.heap (getState sb) k = getProp sc.heap (getState sc) k) ∧
      (∀ k, k ∈ keysOf sb.heap (getState sb) ↔ k ∈ keysOf sc.heap (getState sc)) ∧
      (∀ k, getProp sd.heap (getState sd) k = getProp sa.heap (getState sa) k) ∧
      (∀ k, k ∈ keysOf sd.heap (getState sd) ↔ k ∈ keysOf sa.heap (getState sa)) := by
  have hgl := lt_of_getElem? hg
  have hp1l := lt_of_getElem? hp1
  have hp2l := lt_of_getElem? hp2
  have ea := setState_eq raises s p1 fs ps1 hg hp1
  have hga : (s.heap ++ [Obj.record (mergeFields fs ps1)])[s.heap.length]? =
      some (.record (mergeFields fs ps1)) := List.getElem?_concat_length _ _
  have eb := setState_eq raises
    { heap := s.heap ++ [.record (mergeFields fs ps1)], globalState := s.heap.length,
      listeners := s.listeners } p2 (mergeFields fs ps1) ps2 hga
    (by simp only; rw [getElem?_old _ hp2l, hp2])
  have ed := setState_eq raises
    { heap := s.heap ++ [.record (mergeFields fs ps1)], globalState := s.heap.length,
      listeners := s.listeners } p1 (mergeFields fs ps1) ps1 hga
    (by simp only; rw [getElem?_old _ hp1l, hp1])
  have em := merge_eq s.heap p1 p2 ps1 ps2 hp1 hp2
  have ec := setState_eq raises
    { s with heap := s.heap ++ [.record (mergeFields ps1 ps2)] } s.heap.length fs
    (mergeFields ps1 ps2)
    (by simp only; rw [getElem?_old _ hgl, hg])
    (List.getElem?_concat_length _ _)
  refine ⟨_, _, _, _, _, _, _, _, _, _, ea, eb, em, ec, ed, ?_, ?_, ?_, ?_⟩
  · intro k
    simp only [getState]
    rw [getProp_record _ _ _ (List.getElem?_concat_length _ _),
      getProp_record _ _ _ (List.getElem?_concat_length _ _)]
    by_cases hp : k = "__proto__"
    · subst hp
      rw [lookup_mergeFields_proto, lookup_mergeFields_proto]
    · simp only [lookup_mergeFields _ _ _ hp, keys_mergeFields]
      by_cases h2 : k ∈ ps2.map Prod.fst
      · simp [h2, hp]
      · by_cases h1 : k ∈ ps1.map Prod.fst
        · simp [h1, h2, hp]
        · simp [h1, h2, hp]
  · intro k
    simp only [keysOf, objectKeys, getState, List.getElem?_concat_length, Option.getD_some]
    rw [keys_mergeFields, keys_mergeFields, keys_mergeFields, keys_mergeFields]
    tauto
  · intro k
    simp only [getState]
    rw [getProp_record _ _ _ (List.getElem?_concat_length _ _),
      getProp_record _ _ _ hga]
    by_cases hp : k = "__proto__"
    · subst hp
      rw [lookup_mergeFields_proto, lookup_mergeFields_proto]
    · simp only [lookup_mergeFields _ _ _ hp]
      by_cases h1 : k ∈ ps1.map Prod.fst
      · simp [h1]
      · simp [h1]
  · intro k
    simp only [keysOf, objectKeys, getState, List.getElem?_concat_length, Option.getD_some]
    rw [keys_mergeFields, keys_mergeFields]
    tauto

theorem setState_composes_witness :
    twoPatchStore.heap[twoPatchStore.globalState]? =
      some (.record [("theme", .str "light"), ("todos", .ref 0)]) ∧
    twoPatchStore.heap[2]? = some (.record [("theme", .str "dark")]) ∧
    twoPatchStore.heap[3]? = some (.record [("theme", .str "light"), ("user", .null)]) ∧
    ∃ sa ta sb tb h m sc tc sd td,
      setState quiet twoPatchStore (.ref 2) = some (sa, ta) ∧
      setState quiet sa (.ref 3) = some (sb, tb) ∧
      merge twoPatchStore.heap (.ref 2) (.ref 3) = some (h, m) ∧
      setState quiet { twoPatchStore with heap := h } (.ref m) = some (sc, tc) ∧
      setState quiet sa (.ref 2) = some (sd, td) ∧
      (∀ k, getProp sb.heap (getState sb) k = getProp sc.heap (getState sc) k) ∧
      (∀ k, k ∈ keysOf sb.heap (getState sb) ↔ k ∈ keysOf sc.heap (getState sc)) ∧
      (∀ k, getProp sd.heap (getState sd) k = getProp sa.heap (getState sa) k) ∧
      (∀ k, k ∈ keysOf sd.heap (getState sd) ↔ k ∈ keysOf sa.heap (getState sa)) :=
  ⟨by decide, by decide, by decide,
    setState_composes quiet twoPatchStore 2 3 [("theme", .str "light"), ("todos", .ref 0)]
      [("theme", .str "dark")] [("theme", .str "light"), ("user", .null)]
      (by decide) (by decide) (by decide)⟩

/-! ## Theorems: the machine -/

theorem runSteps_add {σ ρ : Type} (K : Container σ ρ) (script : Script σ ρ)
    (a b : Nat) (cfg : Config σ ρ) :
    runSteps K script (a + b) cfg = runSteps K script b (runSteps K script a cfg) := by
  induction a generalizing cfg with
  | zero => simp [runSteps]
  | succ a ih =>
    have : a + 1 + b = (a + b) + 1 := by omega
    rw [this]
    simp only [runSteps]
    exact ih _

theorem runSteps_finished {σ ρ : Type} (K : Container σ ρ) (script : Script σ ρ)
    (n : Nat) (cfg : Config σ ρ) (h : cfg.stack = []) : runSteps K script n cfg = cfg := by
  induction n with
  | zero => rfl
  | succ n ih =>
    have hs : stepM K script cfg = cfg := by
      unfold stepM
      rw [h]
    simp only [runSteps, hs, ih]

/-- The machine gets from one configuration to another in some number of steps. -/
theorem reaches_trans {σ ρ : Type} {K : Container σ ρ} {script : Script σ ρ}
    {c1 c2 c3 : Config σ ρ}
    (h1 : ∃ n, runSteps K script n c1 = c2) (h2 : ∃ n, runSteps K script n c2 = c3) :
    ∃ n, runSteps K script n c1 = c3 := by
  obtain ⟨a, ha⟩ := h1
  obtain ⟨b, hb⟩ := h2
  exact ⟨a + b, by rw [runSteps_add, ha, hb]⟩

theorem reaches_step {σ ρ : Type} {K : Container σ ρ} {script : Script σ ρ}
    {c1 c2 : Config σ ρ} (h : stepM K script c1 = c2) :
    ∃ n, runSteps K script n c1 = c2 :=
  ⟨1, by simp [runSteps, h]⟩

/-- A run that reaches an empty stack has finished: every longer run ends in the
same configuration. -/
theorem reaches_final {σ ρ : Type} {K : Container σ ρ} {script : Script σ ρ}
    {c1 c2 : Config σ ρ} (h : ∃ n, runSteps K script n c1 = c2) (hfin : c2.stack = []) :
    ∃ n, ∀ m, runSteps K script (n + m) c1 = c2 := by
  obtain ⟨n, hn⟩ := h
  exact ⟨n, fun m => by rw [runSteps_add, hn, runSteps_finished K script m c2 hfin]⟩

theorem body_run {σ ρ : Type} (K : Container σ ρ) (script : Script σ ρ) (s : σ)
    (a : Val) (fresh : Bool) (cmds : List (Cmd ρ)) (st : List (Frame ρ)) (tr : List REvent)
    (hno : noRequest cmds = true) :
    ∃ n, runSteps K script n { state := s, stack := .body a fresh cmds :: st, trace := tr } =
      { state := s, stack := st, trace := tr ++ bodyEvents a fresh (K.current s) cmds } := by
  induction cmds generalizing tr with
  | nil => exact reaches_step (by simp [stepM, bodyEvents])
  | cons c cmds ih =>
    cases c with
    | read =>
      have hno2 : noRequest cmds = true := by simpa [noRequest] using hno
      have hstep : stepM K script
          { state := s, stack := .body a fresh (.read :: cmds) :: st, trace := tr } =
          { state := s, stack := .body a fresh cmds :: st,
            trace := tr ++ [.read a fresh (K.current s)] } := by
        simp [stepM]
      obtain ⟨n, hn⟩ := ih (tr ++ [.read a fresh (K.current s)]) hno2
      exact reaches_trans (reaches_step hstep) ⟨n, by rw [hn]; simp [bodyEvents]⟩
    | raise e => exact reaches_step (by simp [stepM, bodyEvents])
    | request r => simp [noRequest] at hno

theorem loop_run {σ ρ : Type} (K : Container σ ρ) (script : Script σ ρ) (s : σ)
    (l rest : List Nat) (st : List (Frame ρ)) (tr : List REvent)
    (hno : ∀ g ∈ l, noRequest (script g s) = true) :
    ∃ n, runSteps K script n { state := s, stack := .loop (l ++ rest) :: st, trace := tr } =
      { state := s, stack := .loop rest :: st,
        trace := tr ++ passEvents script s (K.current s) l } := by
  induction l generalizing tr with
  | nil => exact ⟨0, by simp [runSteps, passEvents]⟩
  | cons g l ih =>
    have h1 : stepM K script
        { state := s, stack := .loop (g :: l ++ rest) :: st, trace := tr } =
        { state := s,
          stack := .body (K.current s) true (script g s) :: .loop (l ++ rest) :: st,
          trace := tr ++ [.call g (K.current s)] } := by
      simp [stepM]
    obtain ⟨n2, h2⟩ := body_run K script s (K.current s) true (script g s)
      (.loop (l ++ rest) :: st) (tr ++ [.call g (K.current s)])
      (hno g (List.mem_cons_self _ _))
    obtain ⟨n3, h3⟩ := ih (tr ++ [.call g (K.current s)] ++
      bodyEvents (K.current s) true (K.current s) (script g s))
      (fun x hx => hno x (List.mem_cons_of_mem _ hx))
    refine reaches_trans (reaches_step h1) (reaches_trans ⟨n2, h2⟩ ⟨n3, ?_⟩)
    rw [h3]
    simp [passEvents]

theorem loop_done {σ ρ : Type} (K : Container σ ρ) (script : Script σ ρ) (s : σ)
    (st : List (Frame ρ)) (tr : List REvent) :
    ∃ n, runSteps K script n { state := s, stack := .loop [] :: st, trace := tr } =
      { state := s, stack := st, trace := tr } :=
  reaches_step (by simp [stepM])

theorem passEvents_observers {σ ρ : Type} (script : Script σ ρ) (s : σ) (v : Val)
    (l : List Nat) (hobs : ∀ g ∈ l, script g s = []) :
    passEvents script s v l = callsTo l v := by
  induction l with
  | nil => rfl
  | cons g l ih =>
    simp [passEvents, callsTo, hobs g (List.mem_cons_self _ _), bodyEvents] at ih ⊢
    exact ih (fun x hx => hobs x (List.mem_cons_of_mem _ hx))

theorem passEvents_observerScript {σ ρ : Type} (K : Container σ ρ) (raises : Raises)
    (s : σ) (l : List Nat) :
    passEvents (observerScript K raises) s (K.current s) l =
      (notify raises (K.current s) l).map embedEvent := by
  induction l with
  | nil => rfl
  | cons g l ih =>
    simp only [passEvents, notify, List.map_append, ih]
    cases hr : raises g (K.current s) <;>
      simp [observerScript, hr, bodyEvents, embedEvent]

theorem noRequest_observerScript {σ ρ : Type} (K : Container σ ρ) (raises : Raises)
    (g : Nat) (s : σ) : noRequest (observerScript K raises g s) = true := by
  unfold observerScript
  cases raises g (K.current s) <;> rfl

/-- With observers as callbacks the machine is the loop of the sections above: from
the start of a pass it finishes, leaves the container as committed and has produced
exactly the events of `notify`. -/
theorem machine_refines_notify {σ ρ : Type} (K : Container σ ρ) (raises : Raises) (s : σ) :
    ∃ n, ∀ m, runSteps K (observerScript K raises) (n + m) (startPass K s) =
      { state := s, stack := [],
        trace := (notify raises (K.current s) (K.members s)).map embedEvent } := by
  apply reaches_final _ rfl
  have h1 := loop_run K (observerScript K raises) s (K.members s) [] [] []
    (fun g _ => noRequest_observerScript K raises g s)
  simp only [List.append_nil, List.nil_append, passEvents_observerScript] at h1
  exact reaches_trans h1 (loop_done K _ s [] _)

theorem stackFresh_of_rest {ρ : Type} (v : Val) (st : List (Frame ρ))
    (h : ∀ fr ∈ st, ∀ a cmds, fr ≠ Frame.body a true cmds) : StackFresh v st := by
  cases st with
  | nil => trivial
  | cons top rest =>
    exact ⟨fun a cmds ht => absurd ht (h top (List.mem_cons_self _ _) a cmds),
      fun fr hfr => h fr (List.mem_cons_of_mem _ hfr)⟩

theorem freshReads_append (tr : List REvent) (e : REvent) (h : FreshReadsMatch tr)
    (he : ∀ a got, e = REvent.read a true got → got = a) : FreshReadsMatch (tr ++ [e]) := by
  intro a got hmem
  rcases List.mem_append.mp hmem with h1 | h1
  · exact h a got h1
  · exact he a got (List.mem_singleton.mp h1).symm

/-- One step of the machine keeps the invariant: only the innermost activation can
be a fresh callback body, it was invoked with the value `current` reads now, and
every fresh read so far returned the argument of its invocation. -/
theorem step_invariant {σ ρ : Type} (K : Container σ ρ) (script : Script σ ρ)
    (cfg : Config σ ρ)
    (h1 : StackFresh (K.current cfg.state) cfg.stack) (h2 : FreshReadsMatch cfg.trace) :
    StackFresh (K.current (stepM K script cfg).state) (stepM K script cfg).stack ∧
      FreshReadsMatch (stepM K script cfg).trace := by
  obtain ⟨state, stack, trace⟩ := cfg
  simp only at h1 h2
  cases stack with
  | nil => exact ⟨by simp [stepM, StackFresh], by simpa [stepM] using h2⟩
  | cons top st =>
    obtain ⟨htop, hrest⟩ := h1
    cases top with
    | loop pending =>
      cases pending with
      | nil =>
        exact ⟨by simpa [stepM] using stackFresh_of_rest _ st hrest,
          by simpa [stepM] using h2⟩
      | cons fn fns =>
        refine ⟨?_, ?_⟩
        · simp only [stepM, StackFresh]
          refine ⟨fun a cmds ht => ?_, fun fr hfr => ?_⟩
          · cases ht
            rfl
          · rcases List.mem_cons.mp hfr with h | h
            · rw [h]
              intro a cmds hc
              cases hc
            · exact hrest fr h
        · simp only [stepM]
          exact freshReads_append _ _ h2 (fun a got he => by cases he)
    | body a fresh cmds =>
      cases cmds with
      | nil =>
        exact ⟨by simpa [stepM] using stackFresh_of_rest _ st hrest,
          by simpa [stepM] using h2⟩
      | cons c cmds =>
        cases c with
        | read =>
          refine ⟨?_, ?_⟩
          · simp only [stepM, StackFresh]
            refine ⟨fun a1 cmds1 ht => ?_, hrest⟩
            cases ht
            exact htop a (.read :: cmds) rfl
          · simp only [stepM]
            apply freshReads_append _ _ h2
            intro a1 got he
            cases he
            exact (htop a (.read :: cmds) rfl).symm
        | raise e =>
          refine ⟨by simpa [stepM] using stackFresh_of_rest _ st hrest, ?_⟩
          simp only [stepM]
          exact freshReads_append _ _ h2 (fun a got he => by cases he)
        | request r =>
          cases hu : K.update state r with
          | commit s1 =>
            refine ⟨?_, by simpa [stepM, hu] using h2⟩
            simp only [stepM, hu, StackFresh]
            refine ⟨fun a1 cmds1 ht => (by cases ht), fun fr hfr => ?_⟩
            rcases List.mem_cons.mp hfr with h | h
            · rw [h]
              intro a1 cmds1 hc
              cases hc
            · exact hrest fr h
          | same =>
            refine ⟨?_, by simpa [stepM, hu] using h2⟩
            simp only [stepM, hu, StackFresh]
            exact ⟨fun a1 cmds1 ht => (by cases ht), hrest⟩
          | throws e =>
            refine ⟨by simpa [stepM, hu] using stackFresh_of_rest _ st hrest, ?_⟩
            simp only [stepM, hu]
            exact freshReads_append _ _ h2 (fun a got he => by cases he)

theorem run_invariant {σ ρ : Type} (K : Container σ ρ) (script : Script σ ρ) (n : Nat)
    (cfg : Config σ ρ)
    (h1 : StackFresh (K.current cfg.state) cfg.stack) (h2 : FreshReadsMatch cfg.trace) :
    FreshReadsMatch (runSteps K script n cfg).trace := by
  induction n generalizing cfg with
  | zero => exact h2
  | succ n ih =>
    obtain ⟨g1, g2⟩ := step_invariant K script cfg h1 h2
    exact ih _ g1 g2

theorem startPass_invariant {σ ρ : Type} (K : Container σ ρ) (script : Script σ ρ) (n : Nat)
    (s : σ) : FreshReadsMatch (runSteps K script n (startPass K s)).trace := by
  apply run_invariant
  · exact ⟨fun a cmds ht => (by cases ht), fun fr hfr => (by simp at hfr)⟩
  · intro a got h
    simp [startPass] at h

theorem passEvents_reader {σ ρ : Type} (s : σ) (v : Val) (l : List Nat) :
    passEvents (readerScript : Script σ ρ) s v l = readerPass l v := by
  induction l with
  | nil => rfl
  | cons g l ih =>
    simp only [passEvents, readerPass, List.flatMap_cons] at ih ⊢
    rw [ih]
    simp [readerScript, bodyEvents]

/-- With callbacks that only re-read the container, a pass finishes and every
callback has read the value it was invoked with. -/
theorem reader_pass {σ ρ : Type} (K : Container σ ρ) (s : σ) :
    ∃ n, ∀ m, runSteps K (readerScript : Script σ ρ) (n + m) (startPass K s) =
      { state := s, stack := [], trace := readerPass (K.members s) (K.current s) } := by
  apply reaches_final _ rfl
  have h1 := loop_run K (readerScript : Script σ ρ) s (K.members s) [] [] []
    (fun g _ => rfl)
  simp only [List.append_nil, List.nil_append, passEvents_reader] at h1
  exact reaches_trans h1 (loop_done K _ s [] _)

theorem cell_update_commit (c : Cell) (next : Next)
    (hne : objectIs (c.resolve next) c.value = false) :
    cellContainer.update c next = .commit (c.set quiet next).1 := by
  simp [cellContainer, hne]

theorem store_update_commit (s : Store) (fs : List (String × Val))
    (hg : s.heap[s.globalState]? = some (.record fs)) (fields : List (String × Val)) :
    ∃ s1 tr, setStateLit quiet s fields = some (s1, tr) ∧
      storeContainer.update s (.setState fields) = .commit s1 ∧
      s1.listeners = s.listeners ∧ getState s1 ≠ getState s ∧
      s1.globalState = s.heap.length + 1 ∧
      ∃ ps, s1.heap = s.heap ++ [.record ps, .record (mergeFields fs ps)] := by
  obtain ⟨ps, _, hlit⟩ := setStateLit_eq quiet s fs hg fields
  have hgl := lt_of_getElem? hg
  refine ⟨_, _, hlit, ?_, rfl, ?_, by simp, ps, by simp⟩
  · simp only [storeContainer, hlit]
    have hne : ¬ (s.heap.length + 1 = s.globalState) := by omega
    simp [hne]
  · simp only [getState, ne_eq, Val.ref.injEq, List.length_nil]
    omega

/-- C22: the loop starts after the new value is stored. In the machine, whatever
the callbacks do, every read a callback makes before it makes a request of its own
returns the argument it was invoked with, for `set` and for `setState`; and when the
callbacks only re-read the container (as the view components do) the pass finishes
with every callback invoked once, with the new value, and reading that value. -/
theorem committed_before_callbacks (cscript : Script Cell Next)
    (sscript : Script Store StoreReq) (n : Nat) (c : Cell) (next : Next)
    (s : Store) (fields fs : List (String × Val))
    (hne : objectIs (c.resolve next) c.value = false)
    (hg : s.heap[s.globalState]? = some (.record fs)) :
    (cellContainer.update c next = .commit (c.set quiet next).1 ∧
      (c.set quiet next).1.get = c.resolve next ∧
      FreshReadsMatch
        (runSteps cellContainer cscript n
          (startPass cellContainer (c.set quiet next).1)).trace ∧
      ∃ k, ∀ m, runSteps cellContainer readerScript (k + m)
          (startPass cellContainer (c.set quiet next).1) =
        { state := (c.set quiet next).1, stack := [],
          trace := readerPass c.subs (c.resolve next) }) ∧
    (∃ s1 tr, setStateLit quiet s fields = some (s1, tr) ∧
      storeContainer.update s (.setState fields) = .commit s1 ∧
      FreshReadsMatch
        (runSteps storeContainer sscript n (startPass storeContainer s1)).trace ∧
      ∃ k, ∀ m, runSteps storeContainer readerScript (k + m)
          (startPass storeContainer s1) =
        { state := s1, stack := [], trace := readerPass s.listeners (getState s1) }) := by
  constructor
  · have hset : c.set quiet next = ({ c with value := c.resolve next },
        notify quiet (c.resolve next) c.subs) := by
      unfold Cell.set
      simp [hne]
    refine ⟨cell_update_commit c next hne, by rw [hset]; rfl,
      startPass_invariant cellContainer cscript n _, ?_⟩
    have h := reader_pass (ρ := Next) cellContainer (c.set quiet next).1
    rw [hset] at h ⊢
    exact h
  · obtain ⟨s1, tr, h1, h2, hls, _, _, _⟩ := store_update_commit s fs hg fields
    refine ⟨s1, tr, h1, h2, startPass_invariant storeContainer sscript n _, ?_⟩
    have h := reader_pass (ρ := StoreReq) storeContainer s1
    simp only [storeContainer, hls] at h ⊢
    exact h

theorem committed_before_callbacks_witness :
    objectIs ((Cell.mk (.num 0) [3, 5]).resolve (.value (.num 1))) (.num 0) = false ∧
    FreshReadsMatch
      (runSteps cellContainer busyScript 12
        (startPass cellContainer
          ((Cell.mk (.num 0) [3, 5]).set quiet (.value (.num 1))).1)).trace ∧
    ∃ s1 tr, setStateLit quiet patchDemo [("theme", .str "dark")] = some (s1, tr) ∧
      FreshReadsMatch
        (runSteps storeContainer busyStoreScript 12 (startPass storeContainer s1)).trace :=
  have h := committed_before_callbacks busyScript busyStoreScript 12
    (Cell.mk (.num 0) [3, 5]) (.value (.num 1)) patchDemo [("theme", .str "dark")]
    [("theme", .str "light"), ("todos", .ref 0)] (by decide) (by decide)
  ⟨by decide, h.1.2.2.1,
    h.2.elim fun s1 h1 => h1.elim fun tr h2 => ⟨s1, tr, h2.1, h2.2.2.1⟩⟩

theorem quiet_run {σ ρ : Type} (K : Container σ ρ) (script : Script σ ρ) (s : σ)
    (a : Val) (fresh : Bool) (cmds : List (Cmd ρ)) (st : List (Frame ρ)) (tr : List REvent)
    (hq : quietBody K s cmds = true) :
    ∃ n, runSteps K script n { state := s, stack := .body a fresh cmds :: st, trace := tr } =
      { state := s, stack := st, trace := tr } := by
  induction cmds generalizing fresh with
  | nil => exact reaches_step (by simp [stepM])
  | cons c cmds ih =>
    cases c with
    | read => simp [quietBody] at hq
    | raise e => simp [quietBody] at hq
    | request r =>
      simp only [quietBody] at hq
      cases hu : K.update s r with
      | commit s1 => simp [hu] at hq
      | throws e => simp [hu] at hq
      | same =>
        simp only [hu] at hq
        have hstep : stepM K script
            { state := s, stack := .body a fresh (.request r :: cmds) :: st, trace := tr } =
            { state := s, stack := .body a false cmds :: st, trace := tr } := by
          simp [stepM, hu]
        exact reaches_trans (reaches_step hstep) (ih false hq)

/-- A pass in which one callback commits a new value: the nested pass runs in full
inside it and the outer pass then continues with the callbacks that come later. -/
theorem nested_pass {σ ρ : Type} (K : Container σ ρ) (script : Script σ ρ) (s1 s2 : σ)
    (pre post : List Nat) (f : Nat) (r : ρ)
    (hm1 : K.members s1 = pre ++ f :: post) (hm2 : K.members s2 = pre ++ f :: post)
    (hpre1 : ∀ g ∈ pre, noRequest (script g s1) = true)
    (hall2 : ∀ g ∈ pre ++ post, noRequest (script g s2) = true)
    (hf1 : script f s1 = [.request r]) (hup : K.update s1 r = .commit s2)
    (hf2 : quietBody K s2 (script f s2) = true) :
    ∃ n, ∀ m, runSteps K script (n + m) (startPass K s1) =
      { state := s2, stack := [],
        trace := nestedTrace script s1 s2 (K.current s1) (K.current s2) pre f post } := by
  apply reaches_final _ rfl
  have hpre2 : ∀ g ∈ pre, noRequest (script g s2) = true :=
    fun g hg => hall2 g (List.mem_append_left _ hg)
  have hpost2 : ∀ g ∈ post, noRequest (script g s2) = true :=
    fun g hg => hall2 g (List.mem_append_right _ hg)
  -- the outer pass up to `f`
  have e1 := loop_run K script s1 pre (f :: post) [] [] hpre1
  have e2 : stepM K script
      { state := s1, stack := [.loop (f :: post)],
        trace := [] ++ passEvents script s1 (K.current s1) pre } =
      { state := s1,
        stack := [.body (K.current s1) true [.request r], .loop post],
        trace := passEvents script s1 (K.current s1) pre ++ [.call f (K.current s1)] } := by
    simp [stepM, hf1]
  -- the request of `f` commits and starts the nested pass
  have e3 : stepM K script
      { state := s1,
        stack := [.body (K.current s1) true [.request r], .loop post],
        trace := passEvents script s1 (K.current s1) pre ++ [.call f (K.current s1)] } =
      { state := s2,
        stack := [.loop (pre ++ f :: post), .body (K.current s1) false [], .loop post],
        trace := passEvents script s1 (K.current s1) pre ++ [.call f (K.current s1)] } := by
    simp [stepM, hup, hm2]
  have e4 := loop_run K script s2 pre (f :: post)
    [.body (K.current s1) false [], .loop post]
    (passEvents script s1 (K.current s1) pre ++ [.call f (K.current s1)]) hpre2
  have e5 : stepM K script
      { state := s2,
        stack := [.loop (f :: post), .body (K.current s1) false [], .loop post],
        trace := passEvents script s1 (K.current s1) pre ++ [.call f (K.current s1)] ++
          passEvents script s2 (K.current s2) pre } =
      { state := s2,
        stack := [.body (K.current s2) true (script f s2), .loop post,
          .body (K.current s1) false [], .loop post],
        trace := passEvents script s1 (K.current s1) pre ++ [.call f (K.current s1)] ++
          passEvents script s2 (K.current s2) pre ++ [.call f (K.current s2)] } := by
    simp [stepM]
  have e6 := quiet_run K script s2 (K.current s2) true (script f s2)
    [.loop post, .body (K.current s1) false [], .loop post]
    (passEvents script s1 (K.current s1) pre ++ [.call f (K.current s1)] ++
      passEvents script s2 (K.current s2) pre ++ [.call f (K.current s2)]) hf2
  have e7 := loop_run K script s2 post [] [.body (K.current s1) false [], .loop post]
    (passEvents script s1 (K.current s1) pre ++ [.call f (K.current s1)] ++
      passEvents script s2 (K.current s2) pre ++ [.call f (K.current s2)]) hpost2
  have e8 := loop_done K script s2 [.body (K.current s1) false [], .loop post]
    (passEvents script s1 (K.current s1) pre ++ [.call f (K.current s1)] ++
      passEvents script s2 (K.current s2) pre ++ [.call f (K.current s2)] ++
      passEvents script s2 (K.current s2) post)
  -- back in the outer pass
  have e9 : stepM K script
      { state := s2, stack := [.body (K.current s1) false [], .loop post],
        trace := passEvents script s1 (K.current s1) pre ++ [.call f (K.current s1)] ++
          passEvents script s2 (K.current s2) pre ++ [.call f (K.current s2)] ++
          passEvents script s2 (K.current s2) post } =
      { state := s2, stack := [.loop post],
        trace := passEvents script s1 (K.current s1) pre ++ [.call f (K.current s1)] ++
          passEvents script s2 (K.current s2) pre ++ [.call f (K.current s2)] ++
          passEvents script s2 (K.current s2) post } := by
    simp [stepM]
  have e10 := loop_run K script s2 post [] []
    (passEvents script s1 (K.current s1) pre ++ [.call f (K.current s1)] ++
      passEvents script s2 (K.current s2) pre ++ [.call f (K.current s2)] ++
      passEvents script s2 (K.current s2) post) hpost2
  have e11 := loop_done K script s2 []
    (passEvents script s1 (K.current s1) pre ++ [.call f (K.current s1)] ++
      passEvents script s2 (K.current s2) pre ++ [.call f (K.current s2)] ++
      passEvents script s2 (K.current s2) post ++ passEvents script s2 (K.current s2) post)
  simp only [List.append_nil, List.nil_append] at e1 e2 e7 e10
  have hstart : startPass K s1 =
      { state := s1, stack := [.loop (pre ++ f :: post)], trace := [] } := by
    simp [startPass, hm1]
  rw [hstart]
  have hend : nestedTrace script s1 s2 (K.current s1) (K.current s2) pre f post =
      passEvents script s1 (K.current s1) pre ++ [.call f (K.current s1)] ++
        passEvents script s2 (K.current s2) pre ++ [.call f (K.current s2)] ++
        passEvents script s2 (K.current s2) post ++
        passEvents script s2 (K.current s2) post := by
    simp [nestedTrace]
  rw [hend]
  exact reaches_trans e1 (reaches_trans (reaches_step e2) (reaches_trans (reaches_step e3)
    (reaches_trans e4 (reaches_trans (reaches_step e5) (reaches_trans e6
    (reaches_trans e7 (reaches_trans e8 (reaches_trans (reaches_step e9)
    (reaches_trans e10 e11)))))))))

theorem rcallsOf_append (g : Nat) (l1 l2 : List REvent) :
    rcallsOf g (l1 ++ l2) = rcallsOf g l1 ++ rcallsOf g l2 := by
  induction l1 with
  | nil => rfl
  | cons e l1 ih =>
    cases e with
    | call h v =>
      by_cases hh : h = g <;> simp [rcallsOf, hh, ih]
    | read a fr got => simpa [rcallsOf] using ih
    | error e => simpa [rcallsOf] using ih

theorem rcallsOf_bodyEvents {ρ : Type} (g : Nat) (a : Val) (fresh : Bool) (v : Val)
    (cmds : List (Cmd ρ)) : rcallsOf g (bodyEvents a fresh v cmds) = [] := by
  induction cmds with
  | nil => rfl
  | cons c cmds ih =>
    cases c with
    | read => simpa [bodyEvents, rcallsOf] using ih
    | raise e => simp [bodyEvents, rcallsOf]
    | request r => simp [bodyEvents, rcallsOf]

theorem rcallsOf_passEvents {σ ρ : Type} (script : Script σ ρ) (s : σ) (v : Val) (g : Nat)
    (l : List Nat) :
    rcallsOf g (passEvents script s v l) = List.replicate (l.count g) v := by
  induction l with
  | nil => rfl
  | cons h l ih =>
    have hb : rcallsOf g (bodyEvents v true v (script h s) ++ passEvents script s v l) =
        List.replicate (l.count g) v := by
      rw [rcallsOf_append, rcallsOf_bodyEvents, ih, List.nil_append]
    by_cases hh : h = g
    · subst hh
      simp [passEvents, rcallsOf, hb, List.replicate_succ]
    · have hc : (h :: l).count g = l.count g := by
        simp [List.count_cons, hh]
      rw [hc]
      simp [passEvents, rcallsOf, hb, hh]

/-- In the trace of a pass with a nested commit, a callback that comes after the
one that made the request was invoked exactly twice, both times with the new value. -/
theorem rcallsOf_nestedTrace {σ ρ : Type} (script : Script σ ρ) (s1 s2 : σ) (a b : Val)
    (pre post : List Nat) (f g : Nat) (hnd : (pre ++ f :: post).Nodup) (hg : g ∈ post) :
    rcallsOf g (nestedTrace script s1 s2 a b pre f post) = [b, b] := by
  have hnd2 := List.nodup_append.mp hnd
  have hgpre : g ∉ pre := fun hp => hnd2.2.2 hp (List.mem_cons_of_mem _ hg)
  have hfp := List.nodup_cons.mp hnd2.2.1
  have hgf : ¬ f = g := fun h => hfp.1 (h ▸ hg)
  have hc1 : pre.count g = 0 := List.count_eq_zero_of_not_mem hgpre
  have hc2 : post.count g = 1 := List.count_eq_one_of_mem hfp.2 hg
  simp [nestedTrace, rcallsOf_append, rcallsOf_passEvents, rcallsOf, hc1, hc2, hgf]

theorem update_commit_listeners {s s1 : Store} {r : StoreReq}
    (h : storeContainer.update s r = .commit s1) :
    s1.listeners = s.listeners ∧ getState s1 ≠ getState s := by
  cases r with
  | act a =>
    simp only [storeContainer] at h
    cases ha : act quiet s a with
    | none => simp [ha] at h
    | some p =>
      obtain ⟨s2, tr⟩ := p
      simp only [ha] at h
      split at h
      · cases h
      · rename_i hne
        simp only [Outcome.commit.injEq] at h
        subst h
        exact ⟨(act_some ha).2.1, by simpa [getState] using hne⟩
  | setState fields =>
    simp only [storeContainer] at h
    cases ha : setStateLit quiet s fields with
    | none => simp [ha] at h
    | some p =>
      obtain ⟨s2, tr⟩ := p
      simp only [ha] at h
      split at h
      · cases h
      · rename_i hne
        simp only [Outcome.commit.injEq] at h
        subst h
        exact ⟨(setState_some ha).2.1, by simpa [getState] using hne⟩

/-- C25: the argument of a callback is read when the callback is invoked. A pass
started by `set(a)` in which the subscriber `f` calls `set(b)`, with `b` different
from `a`, finishes with the cell holding `b`; its events are those of the outer pass
up to `f` (argument `a`), the whole nested pass (argument `b`), and the rest of the
outer pass (argument `b`); so every subscriber after `f` was invoked exactly twice,
with `b` both times and never with `a`. The same for a listener that calls
`setState` or an action during a pass of the store. The other callbacks make no
request, and `f` makes none that changes the value again. -/
theorem reentrant_later_subscribers_twice
    (cscript : Script Cell Next) (c : Cell) (next : Next) (b : Val)
    (pre post : List Nat) (f : Nat)
    (sscript : Script Store StoreReq) (s s1 s2 : Store) (r1 r2 : StoreReq)
    (lpre lpost : List Nat) (lf : Nat)
    (hsubs : c.subs = pre ++ f :: post) (hnd : (pre ++ f :: post).Nodup)
    (ha : objectIs (c.resolve next) c.value = false)
    (hb : objectIs b (c.resolve next) = false)
    (hf1 : cscript f (c.set quiet next).1 = [.request (.value b)])
    (hf2 : quietBody cellContainer (Cell.mk b c.subs) (cscript f (Cell.mk b c.subs)) = true)
    (hobs : ∀ g ∈ pre ++ post, ∀ c1, noRequest (cscript g c1) = true)
    (hls : s.listeners = lpre ++ lf :: lpost) (hlnd : (lpre ++ lf :: lpost).Nodup)
    (h1 : storeContainer.update s r1 = .commit s1)
    (h2 : storeContainer.update s1 r2 = .commit s2)
    (hlf1 : sscript lf s1 = [.request r2])
    (hlf2 : quietBody storeContainer s2 (sscript lf s2) = true)
    (hlobs : ∀ g ∈ lpre ++ lpost, ∀ st, noRequest (sscript g st) = true) :
    ((∃ k, ∀ m, runSteps cellContainer cscript (k + m)
          (startPass cellContainer (c.set quiet next).1) =
        { state := Cell.mk b c.subs, stack := [],
          trace := nestedTrace cscript (c.set quiet next).1 (Cell.mk b c.subs)
            (c.resolve next) b pre f post }) ∧
      ∀ g ∈ post,
        rcallsOf g (nestedTrace cscript (c.set quiet next).1 (Cell.mk b c.subs)
          (c.resolve next) b pre f post) = [b, b] ∧
        c.resolve next ∉ [b, b]) ∧
    ((∃ k, ∀ m, runSteps storeContainer sscript (k + m) (startPass storeContainer s1) =
        { state := s2, stack := [],
          trace := nestedTrace sscript s1 s2 (getState s1) (getState s2) lpre lf lpost }) ∧
      ∀ g ∈ lpost,
        rcallsOf g (nestedTrace sscript s1 s2 (getState s1) (getState s2) lpre lf lpost) =
          [getState s2, getState s2] ∧
        getState s1 ∉ [getState s2, getState s2]) := by
  constructor
  · have hset : (c.set quiet next).1 = Cell.mk (c.resolve next) c.subs := by
      unfold Cell.set
      simp [ha]
    have hba : ¬ b = c.resolve next := by simpa [objectIs] using hb
    have hup0 : ∀ a, ¬ b = a → cellContainer.update (Cell.mk a c.subs) (.value b) =
        .commit (Cell.mk b c.subs) := by
      intro a hne
      simp [cellContainer, Cell.set, Cell.resolve, objectIs, hne]
    have hup := hup0 (c.resolve next) hba
    rw [hset] at hf1 ⊢
    refine ⟨?_, fun g hg => ⟨rcallsOf_nestedTrace _ _ _ _ _ pre post f g hnd hg, ?_⟩⟩
    · exact nested_pass cellContainer cscript (Cell.mk (c.resolve next) c.subs)
        (Cell.mk b c.subs) pre post f (.value b) hsubs hsubs
        (fun g hg => hobs g (List.mem_append_left _ hg) _) (fun g hg => hobs g hg _)
        hf1 hup hf2
    · simp only [List.mem_cons, List.mem_singleton, List.not_mem_nil, or_false, or_self]
      exact fun h => hba h.symm
  · obtain ⟨hl1, _⟩ := update_commit_listeners h1
    obtain ⟨hl2, hne⟩ := update_commit_listeners h2
    have hm1 : storeContainer.members s1 = lpre ++ lf :: lpost := by
      simp only [storeContainer, hl1, hls]
    have hm2 : storeContainer.members s2 = lpre ++ lf :: lpost := by
      simp only [storeContainer, hl2, hl1, hls]
    refine ⟨?_, fun g hg => ⟨rcallsOf_nestedTrace _ _ _ _ _ lpre lpost lf g hlnd hg, ?_⟩⟩
    · exact nested_pass storeContainer sscript s1 s2 lpre lpost lf r2 hm1 hm2
        (fun g hg => hlobs g (List.mem_append_left _ hg) _) (fun g hg => hlobs g hg _)
        hlf1 h2 hlf2
    · simp only [List.mem_cons, List.mem_singleton, List.not_mem_nil, or_false, or_self]
      exact fun h => hne h.symm

theorem reentrant_later_subscribers_twice_witness :
    (∃ k, ∀ m, runSteps cellContainer nestedScript (k + m)
        (startPass cellContainer
          ((Cell.mk (.num 0) [3, 5, 7]).set quiet (.value (.num 1))).1) =
      { state := Cell.mk (.num 2) [3, 5, 7], stack := [],
        trace := nestedTrace nestedScript
          ((Cell.mk (.num 0) [3, 5, 7]).set quiet (.value (.num 1))).1
          (Cell.mk (.num 2) [3, 5, 7]) (.num 1) (.num 2) [3] 5 [7] }) ∧
    rcallsOf 7 (nestedTrace nestedScript
      ((Cell.mk (.num 0) [3, 5, 7]).set quiet (.value (.num 1))).1
      (Cell.mk (.num 2) [3, 5, 7]) (.num 1) (.num 2) [3] 5 [7]) = [.num 2, .num 2] ∧
    rcallsOf 5 (nestedTrace nestedStoreScript
      (committed patchDemo (.act .toggleTheme))
      (committed (committed patchDemo (.act .toggleTheme))
        (.setState [("theme", .str "light"), ("user", .null)]))
      (.ref 4) (.ref 6) [] 3 [5]) = [.ref 6, .ref 6] :=
  have h := reentrant_later_subscribers_twice nestedScript
    (Cell.mk (.num 0) [3, 5, 7]) (.value (.num 1)) (.num 2) [3] [7] 5
    nestedStoreScript patchDemo (committed patchDemo (.act .toggleTheme))
    (committed (committed patchDemo (.act .toggleTheme))
      (.setState [("theme", .str "light"), ("user", .null)]))
    (.act .toggleTheme) (.setState [("theme", .str "light"), ("user", .null)]) [] [5] 3
    rfl (by decide) (by decide) (by decide) rfl (by decide)
    (by simp [nestedScript, noRequest])
    rfl (by decide) rfl rfl rfl (by decide)
    (by simp [nestedStoreScript, noRequest])
  ⟨h.1.1, (h.1.2 7 (by simp)).1, (h.2.2 5 (by simp)).1⟩

end StateStore
